import Mathlib

/-!
# Regular expression to minimized DFA (`Thompson.cpp`)

A shallow embedding of the pipeline of `src/opentopic/Thompson.cpp`:
`infixToPostfix`, the Thompson builder (`thompsonConstruction`, `concatenate`,
`alternate`, `kleeneStar`, `generateThompsonNFAFromPostfix`), the subset
construction (`eClosure`, `move`, `getOrCreateDFAState`, `constructDFAFromNFA`,
`collectStatesFromNFA`) and `minimizeDFA`.

Modelling conventions.
* A `std::string` is a `List Char`; `std::isalpha` is the "C" locale test
  (ASCII letters).
* A `State*` is the index of the state in the arena of all states created so
  far (`createState` appends to the arena); a `DFAState*` is the index of the
  state in the vector that holds it.
* `std::set<T*>` is a strictly increasing list of indices (pointers compare as
  their allocation order); `std::map<char, _>` is a list of pairs kept sorted
  by key.
* Undefined behaviour of the C++ (reading `top()` of an empty stack, indexing a
  vector out of range, dereferencing `begin()` of an empty set, `size() - 1` of
  an empty string used as a loop bound) is the result `none`.
* Loops whose termination is not structural take a fuel argument and return
  `none` when it runs out.
-/

namespace Thompson

/-! ## Parser: `infixToPostfix` -/

/-- The test `std::isalpha(c)` in the "C" locale. -/
def isalpha (c : Char) : Bool := c.isAlpha

/-- The condition of line 124 under which a `'.'` is appended after `regex[i]`,
with `c = regex[i]` and `d = regex[i + 1]`. -/
def concatBetween (c d : Char) : Bool :=
  (isalpha c || c == '*' || c == ')') && (isalpha d || d == '(')

/-- The concatenation scan (lines 121-129) on a non-empty string: every
character but the last is copied, followed by `'.'` when `concatBetween` holds
for it and its successor; then the last character is copied. -/
def scanConcat : List Char → List Char
  | [] => []
  | [c] => [c]
  | c :: d :: rest =>
    if concatBetween c d then c :: '.' :: scanConcat (d :: rest)
    else c :: scanConcat (d :: rest)

/-- The loop of lines 143-148 for `')'`: pop operators to the output until the
top of the stack is `'('`, then discard it. `stack.top()` of an empty stack is
undefined behaviour. -/
def popUntilParen : List Char → List Char → Option (List Char × List Char)
  | [], _ => none
  | t :: st, out => if t = '(' then some (st, out) else popUntilParen st (out ++ [t])

/-- The precedence test of lines 154-156 for an incoming operator `c` and the
stack top `top`. -/
def shouldPop (c top : Char) : Bool :=
  (c == '*' && top == '*') ||
  (c == '.' && (top == '.' || top == '*')) ||
  (c == '|' && (top == '.' || top == '*' || top == '|'))

/-- The loop of lines 153-160: pop to the output while the stack is non-empty,
its top is not `'('` and `shouldPop` holds. -/
def popOps (c : Char) : List Char → List Char → List Char × List Char
  | [], out => ([], out)
  | t :: st, out =>
    if t != '(' && shouldPop c t then popOps c st (out ++ [t]) else (t :: st, out)

/-- One iteration of the loop of lines 131-163 on the pair (operator stack, top
first; output). Characters that are none of the recognised tokens are
skipped. -/
def shuntStep (s : List Char × List Char) (c : Char) : Option (List Char × List Char) :=
  if isalpha c || c == ' ' then some (s.1, s.2 ++ [c])
  else if c == '(' then some (c :: s.1, s.2)
  else if c == ')' then popUntilParen s.1 s.2
  else if c == '*' || c == '|' || c == '.' then
    some (c :: (popOps c s.1 s.2).1, (popOps c s.1 s.2).2)
  else some s

/-- The loop of lines 131-163 over a whole string. -/
def shuntLoop : List Char → List Char × List Char → Option (List Char × List Char)
  | [], s => some s
  | c :: cs, s =>
    match shuntStep s c with
    | none => none
    | some s1 => shuntLoop cs s1

/-- The function `infixToPostfix`: the concatenation scan, the operator loop,
and the final flush of the operator stack (lines 165-169). For the empty
string the bound `regex.size() - 1` wraps around and `regex.back()` is
undefined. -/
def infixToPostfix (regex : List Char) : Option (List Char) :=
  match regex with
  | [] => none
  | _ :: _ =>
    match shuntLoop (scanConcat regex) ([], []) with
    | none => none
    | some (stack, out) => some (out ++ stack)

/-! ## NFA builder -/

/-- The struct `Transition`: a symbol and the target `State*`. -/
structure Transition where
  symbol : Char
  target : Nat
deriving DecidableEq, Repr

/-- The class `State`. -/
structure State where
  id : Nat
  isFinal : Bool
  transitions : List Transition
deriving DecidableEq, Repr

/-- The class `NFA` (a Fragment): the start and accept `State*`. -/
structure NFA where
  start : Nat
  accept : Nat
deriving DecidableEq, Repr

/-- The marker `'\0'` that labels an empty transition. -/
def Epsilon : Char := Char.ofNat 0

/-- Everything `new State` has allocated so far, and the global `stateCount`. -/
structure Arena where
  states : List State
  stateCount : Nat
deriving DecidableEq, Repr

/-- Reading through a `State*`. Every pointer the program holds was returned by
`createState`; for an index outside the arena the model reads a state without
transitions. -/
def deref (states : List State) (p : Nat) : State :=
  states.getD p ⟨0, false, []⟩

/-- Writing through a `State*`. -/
def modifyState (states : List State) (p : Nat) (f : State → State) : List State :=
  states.set p (f (deref states p))

/-- The function `createState`: `new State(stateCount++, isFinal)`. -/
def createState (a : Arena) (isFinal : Bool) : Nat × Arena :=
  (a.states.length,
    { states := a.states ++ [⟨a.stateCount, isFinal, []⟩], stateCount := a.stateCount + 1 })

/-- The function `addTransition`: `from->transitions.push_back(Transition(symbol, to))`. -/
def addTransition (a : Arena) (src dst : Nat) (symbol : Char) : Arena :=
  ⟨modifyState a.states src (fun s => { s with transitions := s.transitions ++ [⟨symbol, dst⟩] }),
    a.stateCount⟩

/-- The assignment `p->isFinal = false`. -/
def clearFinal (a : Arena) (p : Nat) : Arena :=
  ⟨modifyState a.states p (fun s => { s with isFinal := false }), a.stateCount⟩

/-- The function `thompsonConstruction`. -/
def thompsonConstruction (a : Arena) (inputChar : Char) : NFA × Arena :=
  let (startState, a1) := createState a false
  let (acceptState, a2) := createState a1 true
  if inputChar = ' ' then
    (⟨startState, acceptState⟩, addTransition a2 startState acceptState Epsilon)
  else
    (⟨startState, acceptState⟩, addTransition a2 startState acceptState inputChar)

/-- The function `concatenate`: the transitions of `nfa2->start` are appended
to those of `nfa1->accept` (the loop of lines 71-74, for two distinct states),
then those of `nfa2->start` are cleared and `nfa1->accept` is demoted. -/
def concatenate (a : Arena) (nfa1 nfa2 : NFA) : NFA × Arena :=
  let ts := (deref a.states nfa2.start).transitions
  let a1 : Arena :=
    ⟨modifyState a.states nfa1.accept (fun s => { s with transitions := s.transitions ++ ts }),
      a.stateCount⟩
  let a2 : Arena :=
    ⟨modifyState a1.states nfa2.start (fun s => { s with transitions := [] }), a1.stateCount⟩
  (⟨nfa1.start, nfa2.accept⟩, clearFinal a2 nfa1.accept)

/-- The function `alternate`. -/
def alternate (a : Arena) (nfa1 nfa2 : NFA) : NFA × Arena :=
  let (startState, a1) := createState a false
  let (acceptState, a2) := createState a1 true
  let a3 := addTransition a2 startState nfa1.start Epsilon
  let a4 := addTransition a3 startState nfa2.start Epsilon
  let a5 := addTransition a4 nfa1.accept acceptState Epsilon
  let a6 := addTransition a5 nfa2.accept acceptState Epsilon
  (⟨startState, acceptState⟩, clearFinal (clearFinal a6 nfa1.accept) nfa2.accept)

/-- The function `kleeneStar`. -/
def kleeneStar (a : Arena) (nfa : NFA) : NFA × Arena :=
  let (startState, a1) := createState a false
  let (acceptState, a2) := createState a1 true
  let a3 := addTransition a2 startState acceptState Epsilon
  let a4 := addTransition a3 startState nfa.start Epsilon
  let a5 := addTransition a4 nfa.accept acceptState Epsilon
  let a6 := addTransition a5 nfa.accept nfa.start Epsilon
  (⟨startState, acceptState⟩, clearFinal a6 nfa.accept)

/-- One iteration of the loop of `generateThompsonNFAFromPostfix` on the pair
(`nfaStack`, top first; arena). `top()` of an empty stack is undefined
behaviour; a character that is no token is skipped. -/
def buildStep (s : List NFA × Arena) (c : Char) : Option (List NFA × Arena) :=
  if isalpha c || c == ' ' then
    some ((thompsonConstruction s.2 c).1 :: s.1, (thompsonConstruction s.2 c).2)
  else if c == '|' then
    match s.1 with
    | nfa2 :: nfa1 :: rest => some ((alternate s.2 nfa1 nfa2).1 :: rest, (alternate s.2 nfa1 nfa2).2)
    | _ => none
  else if c == '*' then
    match s.1 with
    | nfa :: rest => some ((kleeneStar s.2 nfa).1 :: rest, (kleeneStar s.2 nfa).2)
    | _ => none
  else if c == '.' then
    match s.1 with
    | nfa2 :: nfa1 :: rest =>
      some ((concatenate s.2 nfa1 nfa2).1 :: rest, (concatenate s.2 nfa1 nfa2).2)
    | _ => none
  else some s

/-- The loop of `generateThompsonNFAFromPostfix` over a whole postfix string. -/
def buildLoop : List Char → List NFA × Arena → Option (List NFA × Arena)
  | [], s => some s
  | c :: cs, s =>
    match buildStep s c with
    | none => none
    | some s1 => buildLoop cs s1

/-- The function `generateThompsonNFAFromPostfix`, started in arena `a`: the
loop, then `nfaStack.top()`. -/
def generateThompsonNFAFromPostfix (a : Arena) (pf : List Char) : Option (NFA × Arena) :=
  match buildLoop pf ([], a) with
  | some (nfa :: _, a1) => some (nfa, a1)
  | _ => none

/-- The arena before any state has been created (`stateCount = 0`). -/
def emptyArena : Arena := ⟨[], 0⟩

/-! ## Sets of states, epsilon closure and move -/

/-- The operation `std::set<T*>::insert` on a strictly increasing list. -/
def setInsert (x : Nat) : List Nat → List Nat
  | [] => [x]
  | y :: ys => if x < y then x :: y :: ys else if x = y then y :: ys else y :: setInsert x ys

/-- The range insertion `result.insert(temp.begin(), temp.end())`. -/
def setUnion (result temp : List Nat) : List Nat :=
  temp.foldl (fun r x => setInsert x r) result

/-- The number of iterations the stack traversals of the arena can take: one
for the initial push and one for each transition. -/
def traversalFuel (states : List State) : Nat :=
  (states.map (fun s => s.transitions.length)).sum + 1

/-- The pushes of lines 338-344: the targets of the `Epsilon` transitions of
`current` that are not yet in `result`, the last one on top. -/
def pushEpsilonTargets (ts : List Transition) (result stack : List Nat) : List Nat :=
  ts.foldl (fun st t => if t.symbol = Epsilon ∧ t.target ∉ result then t.target :: st else st) stack

/-- The loop of `eClosure(State*)` (lines 329-345) on the stack (top first) and
the result set. -/
def eClosureLoop (states : List State) : Nat → List Nat → List Nat → Option (List Nat)
  | _, [], result => some result
  | 0, _ :: _, _ => none
  | fuel + 1, current :: stack, result =>
    if current ∈ result then eClosureLoop states fuel stack result
    else
      eClosureLoop states fuel
        (pushEpsilonTargets (deref states current).transitions (setInsert current result) stack)
        (setInsert current result)

/-- The function `eClosure(State*)`. -/
def eClosure (states : List State) (state : Nat) : List Nat :=
  (eClosureLoop states (traversalFuel states) [state] []).getD []

/-- The function `eClosure(const std::set<State*>&)`. -/
def eClosureSet (states : List State) (stateSet : List Nat) : List Nat :=
  stateSet.foldl (fun result s => setUnion result (eClosure states s)) []

/-- The function `move`. -/
def move (states : List State) (stateSet : List Nat) (symbol : Char) : List Nat :=
  stateSet.foldl
    (fun result s =>
      (deref states s).transitions.foldl
        (fun r t => if t.symbol = symbol then setInsert t.target r else r) result)
    []

/-- The loop of `collectStatesFromNFA` (lines 469-487). -/
def collectLoop (states : List State) : Nat → List Nat → List Nat → Option (List Nat)
  | _, [], acc => some acc
  | 0, _ :: _, _ => none
  | fuel + 1, curr :: stack, acc =>
    if curr ∉ acc then
      collectLoop states fuel
        ((deref states curr).transitions.foldl (fun st t => t.target :: st) stack)
        (setInsert curr acc)
    else collectLoop states fuel stack acc

/-- The function `collectStatesFromNFA`. -/
def collectStatesFromNFA (states : List State) (nfa : NFA) : List Nat :=
  (collectLoop states (traversalFuel states) [nfa.start] []).getD []

/-- Simulation of the NFA with `eClosure` and `move`: the set of states after
reading `w` from the closure of `start`. -/
def nfaRun (states : List State) (start : Nat) (w : List Char) : List Nat :=
  w.foldl (fun cur c => eClosureSet states (move states cur c)) (eClosure states start)

/-- The NFA accepts `w` when the simulation ends in a set with an accepting
state. -/
def nfaAccepts (states : List State) (start : Nat) (w : List Char) : Bool :=
  (nfaRun states start w).any (fun s => (deref states s).isFinal)

/-! ## Subset construction -/

/-- The struct `DFAState`; a `DFAState*` is the index in the vector holding the
state, `transitions` is the `std::map<char, DFAState*>` sorted by symbol. -/
structure DFAState where
  id : Nat
  isFinal : Bool
  nfaStates : List Nat
  transitions : List (Char × Nat)
deriving DecidableEq, Repr

/-- The globals `dfaStates` and `stateMap`. The map is only searched by key, so
it is kept as an association list in insertion order. -/
structure DFATables where
  dfaStates : List DFAState
  stateMap : List (List Nat × Nat)
deriving DecidableEq, Repr

/-- The tables before any DFA state has been created. -/
def emptyTables : DFATables := ⟨[], []⟩

/-- The function `getOrCreateDFAState`. -/
def getOrCreateDFAState (states : List State) (t : DFATables) (nfaStateSet : List Nat) :
    Nat × DFATables :=
  match t.stateMap.lookup nfaStateSet with
  | none =>
    (t.dfaStates.length,
      ⟨t.dfaStates ++ [⟨t.dfaStates.length,
          nfaStateSet.any (fun s => (deref states s).isFinal), nfaStateSet, []⟩],
        t.stateMap ++ [(nfaStateSet, t.dfaStates.length)]⟩)
  | some i => (i, t)

/-- The operation `m[k] = v` of `std::map<char, DFAState*>`. -/
def mapAssign (k : Char) (v : Nat) : List (Char × Nat) → List (Char × Nat)
  | [] => [(k, v)]
  | (k1, v1) :: m =>
    if k.toNat < k1.toNat then (k, v) :: (k1, v1) :: m
    else if k = k1 then (k, v) :: m
    else (k1, v1) :: mapAssign k v m

/-- The operation `std::set<char>::insert`. -/
def charSetInsert (x : Char) : List Char → List Char
  | [] => [x]
  | y :: ys =>
    if x.toNat < y.toNat then x :: y :: ys else if x = y then y :: ys else y :: charSetInsert x ys

/-- The set `inputSymbols` of lines 411-421. -/
def inputSymbols (states : List State) (nfaStates : List Nat) : List Char :=
  nfaStates.foldl
    (fun acc s =>
      (deref states s).transitions.foldl
        (fun acc1 t => if t.symbol ≠ Epsilon then charSetInsert t.symbol acc1 else acc1) acc)
    []

/-- The assignment `currentDFAState->transitions[symbol] = dfaStates[nextStateId]`;
both states must be in the vector. -/
def setDFATransition (t : DFATables) (cur : Nat) (symbol : Char) (next : Nat) :
    Option DFATables :=
  match t.dfaStates[cur]? with
  | none => none
  | some d =>
    if next < t.dfaStates.length then
      some ⟨t.dfaStates.set cur { d with transitions := mapAssign symbol next d.transitions },
        t.stateMap⟩
    else none

/-- The body of the loop over `inputSymbols` (lines 439-458) on the pair
(`processQueue`, tables). -/
def symbolStep (states : List State) (currentStateSet : List Nat) (cur : Nat)
    (s : List (List Nat) × DFATables) (symbol : Char) : Option (List (List Nat) × DFATables) :=
  if eClosureSet states (move states currentStateSet symbol) ≠ [] then
    match setDFATransition
        (getOrCreateDFAState states s.2 (eClosureSet states (move states currentStateSet symbol))).2
        cur symbol
        (getOrCreateDFAState states s.2 (eClosureSet states (move states currentStateSet symbol))).1 with
    | none => none
    | some t1 =>
      some (if s.2.stateMap.lookup (eClosureSet states (move states currentStateSet symbol)) = none
          then s.1 ++ [eClosureSet states (move states currentStateSet symbol)] else s.1, t1)
  else some s

/-- The loop over `inputSymbols` (lines 437-459). -/
def symbolsLoop (states : List State) (currentStateSet : List Nat) (cur : Nat) :
    List Char → List (List Nat) × DFATables → Option (List (List Nat) × DFATables)
  | [], s => some s
  | c :: cs, s =>
    match symbolStep states currentStateSet cur s c with
    | none => none
    | some s1 => symbolsLoop states currentStateSet cur cs s1

/-- The work-list loop of `constructDFAFromNFA` (lines 423-460). -/
def dfaLoop (states : List State) (symbols : List Char) :
    Nat → List (List Nat) → DFATables → Option DFATables
  | _, [], t => some t
  | 0, _ :: _, _ => none
  | fuel + 1, currentStateSet :: queue, t =>
    if (getOrCreateDFAState states t currentStateSet).1 <
        (getOrCreateDFAState states t currentStateSet).2.dfaStates.length then
      match symbolsLoop states currentStateSet (getOrCreateDFAState states t currentStateSet).1
          symbols (queue, (getOrCreateDFAState states t currentStateSet).2) with
      | none => none
      | some s1 => dfaLoop states symbols fuel s1.1 s1.2
    else none

/-- The function `constructDFAFromNFA`, started with tables `t`. The loop runs
at most once for each set of states of the arena. -/
def constructDFAFromNFA (states : List State) (t : DFATables) (nfa : NFA) (nfaStates : List Nat) :
    Option DFATables :=
  dfaLoop states (inputSymbols states nfaStates) (2 ^ states.length + 1)
    [eClosure states nfa.start] (getOrCreateDFAState states t (eClosure states nfa.start)).2

/-- Reading through a `DFAState*`. -/
def derefDFA (dfa : List DFAState) (p : Nat) : DFAState :=
  dfa.getD p ⟨0, false, [], []⟩

/-- The transition of DFA state `q` on `c`, if there is one. -/
def dfaStep (dfa : List DFAState) (q : Nat) (c : Char) : Option Nat :=
  (derefDFA dfa q).transitions.lookup c

/-- Running a DFA from state `q`: a missing transition rejects. -/
def dfaAccepts (dfa : List DFAState) (q : Nat) : List Char → Bool
  | [] => (derefDFA dfa q).isFinal
  | c :: w =>
    match dfaStep dfa q c with
    | none => false
    | some q1 => dfaAccepts dfa q1 w

/-! ## Minimization -/

/-- The search of lines 582-589 and 629-637: the index of the first block of
`partitions` that contains `target`. -/
def blockIndexOf : List (List Nat) → Nat → Option Nat
  | [], _ => none
  | part :: rest, target =>
    if target ∈ part then some 0 else (blockIndexOf rest target).map (fun i => i + 1)

/-- The signature of a state (lines 579-590): for each of its transitions, in
the order of the symbols, `std::to_string(i) + symbol` with `i` the index of
the block holding the target. -/
def signature (partitions : List (List Nat)) (st : DFAState) : List Char :=
  st.transitions.foldl
    (fun sig tr =>
      match blockIndexOf partitions tr.2 with
      | some i => sig ++ (Nat.repr i).toList ++ [tr.1]
      | none => sig)
    []

/-- The comparison `operator<` of `std::string`. -/
def strLt : List Char → List Char → Bool
  | _, [] => false
  | [], _ :: _ => true
  | a :: as, b :: bs => a.toNat < b.toNat || (a = b && strLt as bs)

/-- The statement `splitSets[signature].insert(state)` on the
`std::map<std::string, std::set<DFAState*>>` sorted by key. -/
def splitInsert (sig : List Char) (state : Nat) :
    List (List Char × List Nat) → List (List Char × List Nat)
  | [] => [(sig, [state])]
  | (k, v) :: m =>
    if strLt sig k then (sig, [state]) :: (k, v) :: m
    else if sig = k then (k, setInsert state v) :: m
    else (k, v) :: splitInsert sig state m

/-- The map `splitSets` built for one block (lines 575-592). -/
def splitBlock (dfa : List DFAState) (partitions : List (List Nat)) (part : List Nat) :
    List (List Char × List Nat) :=
  part.foldl
    (fun splitSets state => splitInsert (signature partitions (derefDFA dfa state)) state splitSets)
    []

/-- One refinement round (lines 571-598): the value of `newPartitions`. -/
def refineRound (dfa : List DFAState) (partitions : List (List Nat)) : List (List Nat) :=
  partitions.foldl
    (fun newPartitions part =>
      newPartitions ++ (splitBlock dfa partitions part).map (fun kv => kv.2))
    []

/-- The loop `while (partitioned)` of lines 568-605: rounds are repeated until
one leaves the number of blocks unchanged; the partition before that round is
kept. -/
def refineLoop (dfa : List DFAState) : Nat → List (List Nat) → Option (List (List Nat))
  | 0, _ => none
  | fuel + 1, partitions =>
    if (refineRound dfa partitions).length ≠ partitions.length then
      refineLoop dfa fuel (refineRound dfa partitions)
    else some partitions

/-- The initial blocks of lines 548-563: `accepting`, then `nonAccepting`. -/
def initialPartitions (dfa : List DFAState) : List (List Nat) :=
  [(List.range dfa.length).foldl
      (fun acc p => if (derefDFA dfa p).isFinal then setInsert p acc else acc) [],
    (List.range dfa.length).foldl
      (fun acc p => if (derefDFA dfa p).isFinal then acc else setInsert p acc) []]

/-- The partition with which the refinement loop of `minimizeDFA` ends. Every
round but the last changes the number of blocks, which is 2 at first and then
at most the number of states. -/
def finalPartitions (dfa : List DFAState) : Option (List (List Nat)) :=
  refineLoop dfa (dfa.length + 3) (initialPartitions dfa)

/-- The vector `newDFAStates` after lines 608-617: one state for each non-empty
block. -/
def createNewStates (partitions : List (List Nat)) : List DFAState :=
  partitions.foldl
    (fun acc part => if part ≠ [] then acc ++ [⟨acc.length, false, [], []⟩] else acc) []

/-- The loop of lines 627-638 over the transitions of the representative. An
index `i` outside `newDFAStates` is undefined behaviour. -/
def copyTransitions (partitions : List (List Nat)) (count : Nat) :
    List (Char × Nat) → List (Char × Nat) → Option (List (Char × Nat))
  | [], acc => some acc
  | (symbol, targetState) :: rest, acc =>
    match blockIndexOf partitions targetState with
    | none => copyTransitions partitions count rest acc
    | some i =>
      if i < count then copyTransitions partitions count rest (mapAssign symbol i acc) else none

/-- The loop of lines 620-639 from block `index` on. Here `newDFAStates[index]`
outside the vector and `*part.begin()` of an empty block are undefined
behaviour. -/
def rebuildLoop (dfa : List DFAState) (partitions : List (List Nat)) :
    List (List Nat) → Nat → List DFAState → Option (List DFAState)
  | [], _, newDFAStates => some newDFAStates
  | part :: rest, index, newDFAStates =>
    match newDFAStates[index]?, part with
    | some newState, representative :: _ =>
      match copyTransitions partitions newDFAStates.length
          (derefDFA dfa representative).transitions newState.transitions with
      | none => none
      | some ts =>
        rebuildLoop dfa partitions rest (index + 1)
          (newDFAStates.set index
            { newState with isFinal := (derefDFA dfa representative).isFinal, transitions := ts })
    | _, _ => none

/-- The rebuild of lines 607-639 from the final partition. -/
def rebuildDFA (dfa : List DFAState) (partitions : List (List Nat)) : Option (List DFAState) :=
  rebuildLoop dfa partitions partitions 0 (createNewStates partitions)

/-- The function `minimizeDFA`: the new value of `dfaStates`. -/
def minimizeDFA (dfa : List DFAState) : Option (List DFAState) :=
  match finalPartitions dfa with
  | none => none
  | some partitions => rebuildDFA dfa partitions

/-- The new state built for the block that contains the old state `q`. -/
def newStateOf (dfa : List DFAState) (q : Nat) : Option Nat :=
  match finalPartitions dfa with
  | none => none
  | some partitions => blockIndexOf partitions q

/-- The first three stages of the driver `main` for an expression `regex`:
`infixToPostfix`, `generateThompsonNFAFromPostfix`, `collectStatesFromNFA` and
`constructDFAFromNFA`, started with the state counter at 0 and empty tables. -/
def compileToDFA (regex : List Char) : Option DFATables :=
  match infixToPostfix regex with
  | none => none
  | some pf =>
    match generateThompsonNFAFromPostfix emptyArena pf with
    | none => none
    | some (nfa, arena) =>
      constructDFAFromNFA arena.states emptyTables nfa (collectStatesFromNFA arena.states nfa)

/-- The driver `main` for an expression `regex`: the value of `dfaStates` after
`minimizeDFA`. -/
def runPipeline (regex : List Char) : Option (List DFAState) :=
  match compileToDFA regex with
  | none => none
  | some t => minimizeDFA t.dfaStates

/-! ## Regular expression trees (specification side) -/

/-- A regular expression tree: literals, the blank atom, alternation,
concatenation and Kleene star. -/
inductive Regex where
  | lit (c : Char)
  | blank
  | alt (r s : Regex)
  | cat (r s : Regex)
  | star (r : Regex)
deriving DecidableEq, Repr

/-- The postfix serialisation: operands, then the operator after its
arguments. -/
def Regex.toPostfix : Regex → List Char
  | .lit c => [c]
  | .blank => [' ']
  | .alt r s => r.toPostfix ++ s.toPostfix ++ ['|']
  | .cat r s => r.toPostfix ++ s.toPostfix ++ ['.']
  | .star r => r.toPostfix ++ ['*']

/-- Every literal of the tree is alphabetic. -/
def Regex.alphabetic : Regex → Prop
  | .lit c => isalpha c = true
  | .blank => True
  | .alt r s => r.alphabetic ∧ s.alphabetic
  | .cat r s => r.alphabetic ∧ s.alphabetic
  | .star r => r.alphabetic

/-- The tree has no blank atom. -/
def Regex.noBlank : Regex → Prop
  | .lit _ => True
  | .blank => False
  | .alt r s => r.noBlank ∧ s.noBlank
  | .cat r s => r.noBlank ∧ s.noBlank
  | .star r => r.noBlank

/-- The language of a tree; the blank atom denotes the empty string. -/
inductive Matches : Regex → List Char → Prop
  | lit (c : Char) : Matches (.lit c) [c]
  | blank : Matches .blank []
  | altLeft {r s : Regex} {w : List Char} : Matches r w → Matches (.alt r s) w
  | altRight {r s : Regex} {w : List Char} : Matches s w → Matches (.alt r s) w
  | cat {r s : Regex} {u v : List Char} : Matches r u → Matches s v → Matches (.cat r s) (u ++ v)
  | starNil {r : Regex} : Matches (.star r) []
  | starCons {r : Regex} {u v : List Char} :
      Matches r u → Matches (.star r) v → Matches (.star r) (u ++ v)

/-- Infix renderings of a tree. `Render n r s`: the string `s` renders `r` as
an expression of precedence level at least `n` (0 alternation, 1
concatenation, 2 star and atoms). Alternation and concatenation associate to
the left: their right operand is rendered one level higher. Any rendering may
be put in parentheses, which gives an atom. -/
inductive Render : Nat → Regex → List Char → Prop
  | lit (c : Char) : Render 2 (.lit c) [c]
  | paren {n : Nat} {r : Regex} {s : List Char} : Render 0 r s → Render n r ('(' :: s ++ [')'])
  | star {r : Regex} {s : List Char} : Render 2 r s → Render 2 (.star r) (s ++ ['*'])
  | cat {r1 r2 : Regex} {s1 s2 : List Char} :
      Render 1 r1 s1 → Render 2 r2 s2 → Render 1 (.cat r1 r2) (s1 ++ s2)
  | alt {r1 r2 : Regex} {s1 s2 : List Char} :
      Render 0 r1 s1 → Render 1 r2 s2 → Render 0 (.alt r1 r2) (s1 ++ '|' :: s2)
  | weaken {n : Nat} {r : Regex} {s : List Char} : Render (n + 1) r s → Render n r s

/-- The nesting depth of parentheses after reading a string from depth `d`;
`none` when a `')'` has no `'('` to match. -/
def parenDepth : List Char → Nat → Option Nat
  | [], d => some d
  | c :: cs, d =>
    if c = '(' then parenDepth cs (d + 1)
    else if c = ')' then (if d = 0 then none else parenDepth cs (d - 1))
    else parenDepth cs d

/-- The precedence level of an operator character: 0 for alternation, 1 for
concatenation, 2 for star. -/
def opLevel (c : Char) : Option Nat :=
  if c = '|' then some 0 else if c = '.' then some 1 else if c = '*' then some 2 else none

/-- The operator stack `stack` does not give up its top to an operator of level
`n` or more: it is empty, or its top is '(' or an operator below level `n`. -/
def TopBelow (n : Nat) (stack : List Char) : Prop :=
  ∀ h rest, stack = h :: rest → h = '(' ∨ ∃ k, opLevel h = some k ∧ k < n

/-- Every character of `ops` is an operator of level `n` or more. -/
def OpsAtLeast (n : Nat) (ops : List Char) : Prop :=
  ∀ p ∈ ops, ∃ k, opLevel p = some k ∧ n ≤ k

/-- The string ends with an operand character, '*' or ')'. -/
def EndsOperand (s : List Char) : Prop :=
  ∃ xs a, s = xs ++ [a] ∧ (isalpha a = true ∨ a = '*' ∨ a = ')')

/-- The string starts with an operand character or '('. -/
def StartsOperand (s : List Char) : Prop :=
  ∃ b ys, s = b :: ys ∧ (isalpha b = true ∨ b = '(')

end Thompson

namespace Thompson

/-! ## Graph view of an arena (specification side) -/

/-- State `p` has a transition labelled `c` to `q`. -/
def Step (states : List State) (p : Nat) (c : Char) (q : Nat) : Prop :=
  ∃ t ∈ (deref states p).transitions, t.symbol = c ∧ t.target = q

/-- State `q` is reached from `p` by zero or more `Epsilon` transitions. -/
def EpsReach (states : List State) : Nat → Nat → Prop :=
  Relation.ReflTransGen (fun p q => Step states p Epsilon q)

/-- State `q` is reached from `p` by zero or more transitions. -/
def Reach (states : List State) : Nat → Nat → Prop :=
  Relation.ReflTransGen (fun p q => ∃ c, Step states p c q)

/-- A list that represents a `std::set`: strictly increasing. -/
def IsSet (l : List Nat) : Prop := l.Sorted (fun a b => a < b)

/-- The number of transitions of state `p`. -/
def outDegree (states : List State) (p : Nat) : Nat :=
  (deref states p).transitions.length

/-- The stack traversal shared by `eClosure(State*)` and `collectStatesFromNFA`:
`push result cur` are the states pushed when `cur` has just been inserted. -/
def traverse (push : List Nat → Nat → List Nat) : Nat → List Nat → List Nat → Option (List Nat)
  | _, [], result => some result
  | 0, _ :: _, _ => none
  | fuel + 1, cur :: stack, result =>
    if cur ∈ result then traverse push fuel stack result
    else traverse push fuel (push (setInsert cur result) cur ++ stack) (setInsert cur result)

/-- The bound on the remaining iterations of a traversal: the stack, and the
transitions of the states of the arena that are not yet in the result. -/
def traverseBound (states : List State) (stack result : List Nat) : Nat :=
  stack.length +
    ∑ i in (Finset.range states.length).filter (fun i => i ∉ result), outDegree states i

/-- The word spelled by a transition label: nothing for `Epsilon`. -/
def symWord (c : Char) : List Char := if c = Epsilon then [] else [c]

/-- A path from `p` to `q` in the arena spelling the word `w`. -/
inductive Path (states : List State) : Nat → List Char → Nat → Prop
  | refl (p : Nat) : Path states p [] p
  | step {p q r : Nat} {c : Char} {w : List Char} :
      Step states p c q → Path states q w r → Path states p (symWord c ++ w) r

/-- The simulation reads `w` from `p` to `q`: for each character a transition
with that label followed by `Epsilon` transitions. -/
inductive Reads (states : List State) : Nat → List Char → Nat → Prop
  | nil (p : Nat) : Reads states p [] p
  | cons {p p1 p2 q : Nat} {c : Char} {w : List Char} :
      Step states p c p1 → EpsReach states p1 p2 → Reads states p2 w q →
      Reads states p (c :: w) q

/-- All transitions of the arena lead to states of the arena. -/
def WellFormed (states : List State) : Prop :=
  ∀ p c q, Step states p c q → q < states.length

/-- The set `eClosure(move(S, c))`. -/
def nextSet (states : List State) (S : List Nat) (c : Char) : List Nat :=
  eClosureSet states (move states S c)

/-- Consistency of the tables during the subset construction from `start`. -/
structure TablesOk (states : List State) (start : Nat) (t : DFATables) : Prop where
  mapSound : ∀ S i, t.stateMap.lookup S = some i →
    ∃ d : DFAState, t.dfaStates[i]? = some d ∧ d.nfaStates = S
  mapComplete : ∀ (i : Nat) (d : DFAState), t.dfaStates[i]? = some d → t.stateMap.lookup d.nfaStates = some i
  final : ∀ (i : Nat) (d : DFAState), t.dfaStates[i]? = some d →
    d.isFinal = d.nfaStates.any (fun s => (deref states s).isFinal)
  trans : ∀ (i : Nat) (d : DFAState) (c : Char) (j : Nat), t.dfaStates[i]? = some d → d.transitions.lookup c = some j →
    ∃ d1 : DFAState, t.dfaStates[j]? = some d1 ∧ d1.nfaStates = nextSet states d.nfaStates c
  nonempty : ∀ (i : Nat) (d : DFAState), t.dfaStates[i]? = some d → d.nfaStates ≠ []
  reach : ∀ (i : Nat) (d : DFAState), t.dfaStates[i]? = some d →
    IsSet d.nfaStates ∧ ∀ x ∈ d.nfaStates, Reach states start x
  ids : ∀ (i : Nat) (d : DFAState), t.dfaStates[i]? = some d → d.id = i
  closed : ∀ (i : Nat) (d : DFAState), t.dfaStates[i]? = some d →
    ∀ x ∈ d.nfaStates, ∀ y, EpsReach states x y → y ∈ d.nfaStates
  sorted : ∀ (i : Nat) (d : DFAState), t.dfaStates[i]? = some d →
    (d.transitions.map (fun tr => tr.1.toNat)).Sorted (fun a b => a < b)

/-- Every DFA state whose set is not in `pend` has a transition for each symbol
of `syms` with a non-empty next set. -/
def Complete (states : List State) (syms : List Char) (t : DFATables)
    (pend : List (List Nat)) : Prop :=
  ∀ (i : Nat) (d : DFAState), t.dfaStates[i]? = some d → d.nfaStates ∉ pend →
    ∀ c ∈ syms, nextSet states d.nfaStates c ≠ [] → (d.transitions.lookup c).isSome = true

/-- Every set of the queue has a DFA state. -/
def Queued (t : DFATables) (queue : List (List Nat)) : Prop :=
  ∀ S ∈ queue, (t.stateMap.lookup S).isSome = true

/-- The tables `t1` extend `t`: every DFA state of `t` is in `t1` with the same
set, and keeps the transitions it has. -/
def Extends (t t1 : DFATables) : Prop :=
  ∀ (i : Nat) (d : DFAState), t.dfaStates[i]? = some d →
    ∃ d1 : DFAState, t1.dfaStates[i]? = some d1 ∧ d1.nfaStates = d.nfaStates ∧
      ∀ c, (d.transitions.lookup c).isSome = true → (d1.transitions.lookup c).isSome = true

/-- The states `lo ≤ p < hi` of the arena hold the Fragment `f` built for the
tree `e`: the transitions of these states stay among them and never lead to
the start state, the accept state has no transition, the paths from start to
accept spell the language of `e`, the accept state is the only accepting one,
every state reached from the start state reaches the accept state, and the
labels are `Epsilon` or alphabetic. -/
structure Frag (states : List State) (e : Regex) (f : NFA) (lo hi : Nat) : Prop where
  start_ge : lo ≤ f.start
  start_lt : f.start < hi
  accept_ge : lo ≤ f.accept
  accept_lt : f.accept < hi
  ne : f.start ≠ f.accept
  hi_le : hi ≤ states.length
  closed : ∀ p c q, lo ≤ p → p < hi → Step states p c q → lo ≤ q ∧ q < hi ∧ q ≠ f.start
  accept_out : ∀ c q, ¬ Step states f.accept c q
  lang : ∀ w, Path states f.start w f.accept ↔ Matches e w
  final : ∀ p, lo ≤ p → p < hi → ((deref states p).isFinal = true ↔ p = f.accept)
  live : ∀ p w, Path states f.start w p → ∃ w1, Path states p w1 f.accept
  labels : ∀ p c q, lo ≤ p → p < hi → Step states p c q → c = Epsilon ∨ isalpha c = true

/-- The Fragments on the builder's stack, from the top down, occupy adjacent
ranges of the arena that end at `hi`. -/
def Forest (states : List State) : List NFA → Nat → Prop
  | [], _ => True
  | f :: rest, hi => ∃ (e : Regex) (lo : Nat), Frag states e f lo hi ∧ Forest states rest lo

/-- The state of the builder's loop is sound: the transitions of the arena lead
to states of the arena and the Fragments on the stack point into the arena. -/
def BuildOk (s : List NFA × Arena) : Prop :=
  WellFormed s.2.states ∧
    ∀ f ∈ s.1, f.start < s.2.states.length ∧ f.accept < s.2.states.length

/-! ## Minimization (specification side) -/

/-- The pairs (index of the block of the target, symbol) that the signature of
a state writes out, in the order of its transitions. -/
def sigPairs (P : List (List Nat)) (ts : List (Char × Nat)) : List (Nat × Char) :=
  ts.filterMap (fun tr => (blockIndexOf P tr.2).map (fun i => (i, tr.1)))

/-- The text `std::to_string(i) + symbol` for the pairs of a signature. -/
def encodePairs (l : List (Nat × Char)) : List Char :=
  (l.map (fun ic => (Nat.repr ic.1).toList ++ [ic.2])).flatten

/-- The block reached from state `d` on `c`: the index of the block of the
target of the transition, if there is one. -/
def blockStep (P : List (List Nat)) (d : DFAState) (c : Char) : Option Nat :=
  (d.transitions.lookup c).bind (blockIndexOf P)

/-- The first pair of a signature with symbol `c`. -/
def findPair (c : Char) : List (Nat × Char) → Option Nat
  | [] => none
  | ic :: rest => if ic.2 = c then some ic.1 else findPair c rest

/-- The DFA is fit for minimization: transitions lead to states of the DFA, are
kept sorted by symbol, carry no decimal digit as symbol, and every state
accepts some word. -/
structure DFAOk (dfa : List DFAState) : Prop where
  targets : ∀ (i : Nat) (d : DFAState) (tr : Char × Nat), dfa[i]? = some d →
    tr ∈ d.transitions → tr.2 < dfa.length
  sorted : ∀ (i : Nat) (d : DFAState), dfa[i]? = some d →
    (d.transitions.map (fun tr => tr.1.toNat)).Sorted (fun a b => a < b)
  symbols : ∀ (i : Nat) (d : DFAState) (tr : Char × Nat), dfa[i]? = some d →
    tr ∈ d.transitions → tr.1.isDigit = false
  live : ∀ i, i < dfa.length → ∃ w, dfaAccepts dfa i w = true

/-- The states of the blocks `B1` and `B2` are pairwise distinguished by some
word. -/
def Separated (dfa : List DFAState) (B1 B2 : List Nat) : Prop :=
  ∀ p ∈ B1, ∀ q ∈ B2, ∃ w, dfaAccepts dfa p w ≠ dfaAccepts dfa q w

/-- The invariant of the refinement loop: the blocks hold states of the DFA,
every state is in a block, the states of a block agree on acceptance, and the
states of two different blocks are distinguished by some word. -/
structure PartOk (dfa : List DFAState) (P : List (List Nat)) : Prop where
  range : ∀ B ∈ P, ∀ p ∈ B, p < dfa.length
  cover : ∀ p, p < dfa.length → ∃ B ∈ P, p ∈ B
  homog : ∀ B ∈ P, ∀ p ∈ B, ∀ q ∈ B, (derefDFA dfa p).isFinal = (derefDFA dfa q).isFinal
  sep : P.Pairwise (Separated dfa)

/-- The invariant of the map `splitSets` while a block is split: the keys are
strictly increasing, every set is non-empty and holds states already seen
whose signature is its key, and every state seen is in the set of its
signature. -/
structure SplitInv (sigOf : Nat → List Char) (M : List (List Char × List Nat))
    (seen : Nat → Prop) : Prop where
  keys : (M.map (fun kv => kv.1)).Pairwise (fun a b => strLt a b = true)
  groups : ∀ kv ∈ M, kv.2 ≠ [] ∧ ∀ p ∈ kv.2, seen p ∧ sigOf p = kv.1
  all : ∀ p, seen p → ∃ kv ∈ M, kv.1 = sigOf p ∧ p ∈ kv.2

/-- The sets of the map `splitSets` of a block, in the order of their keys: the
blocks that a refinement round appends for the block. -/
def blockGroups (dfa : List DFAState) (P : List (List Nat)) (part : List Nat) :
    List (List Nat) :=
  (splitBlock dfa P part).map (fun kv => kv.2)

/-- The new state `d` stands for block `k` of the partition `P`: it has the
accepting flag of the first state of the block, and on each symbol it leads to
the block reached from that state. -/
def NewStateOk (dfa : List DFAState) (P : List (List Nat)) (k : Nat) (d : DFAState) : Prop :=
  ∃ (rep : Nat) (rest : List Nat), P[k]? = some (rep :: rest) ∧
    d.isFinal = (derefDFA dfa rep).isFinal ∧
    ∀ c, d.transitions.lookup c = blockStep P (derefDFA dfa rep) c

end Thompson

namespace Thompson

/-! ## The work-list of the subset construction, with its log -/

/-- The work-list loop of `constructDFAFromNFA` (lines 423-460) together with
the log of the sets taken from `processQueue` by `front()` and `pop()`, in that
order; the loop ends when the queue is empty, so these are the sets pushed. -/
def dfaLoopTrace (states : List State) (symbols : List Char) :
    Nat → List (List Nat) → DFATables → Option (List (List Nat) × DFATables)
  | _, [], t => some ([], t)
  | 0, _ :: _, _ => none
  | fuel + 1, currentStateSet :: queue, t =>
    if (getOrCreateDFAState states t currentStateSet).1 <
        (getOrCreateDFAState states t currentStateSet).2.dfaStates.length then
      match symbolsLoop states currentStateSet (getOrCreateDFAState states t currentStateSet).1
          symbols (queue, (getOrCreateDFAState states t currentStateSet).2) with
      | none => none
      | some s1 =>
        (dfaLoopTrace states symbols fuel s1.1 s1.2).map
          (fun r => (currentStateSet :: r.1, r.2))
    else none

/-- The function `constructDFAFromNFA` with the log of the sets taken from
`processQueue`. -/
def constructDFATrace (states : List State) (t : DFATables) (nfa : NFA)
    (nfaStates : List Nat) : Option (List (List Nat) × DFATables) :=
  dfaLoopTrace states (inputSymbols states nfaStates) (2 ^ states.length + 1)
    [eClosure states nfa.start] (getOrCreateDFAState states t (eClosure states nfa.start)).2

/-! ## Partitions (specification side) -/

/-- The blocks of `P` are pairwise disjoint and their union is the set of the
states of the DFA. -/
structure IsPartition (dfa : List DFAState) (P : List (List Nat)) : Prop where
  range : ∀ B ∈ P, ∀ p ∈ B, p < dfa.length
  cover : ∀ p, p < dfa.length → ∃ B ∈ P, p ∈ B
  disjoint : P.Pairwise (fun B1 B2 => ∀ p, p ∈ B1 → p ∉ B2)

/-! ## The Fragments on the builder's stack (specification side) -/

/-- No transition of the arena leads to the start state of a Fragment of the
stack. -/
def StartsFree (states : List State) (stack : List NFA) : Prop :=
  ∀ f ∈ stack, ∀ p c q, Step states p c q → q ≠ f.start

end Thompson

/-! # Theorems -/

namespace Thompson

/-! ## Scenarios -/

/-- C8. For the expression "a", started with the state counter at 0 and empty
DFA tables: the postfix form is "a"; the builder creates exactly 2 states, both
reachable; the subset construction creates exactly 2 DFA states, exactly one of
them accepting; `minimizeDFA` leaves exactly 2 states. -/
theorem scenario_a_state_counts :
    infixToPostfix ['a'] = some ['a'] ∧
    ∃ nfa arena t m,
      generateThompsonNFAFromPostfix emptyArena ['a'] = some (nfa, arena) ∧
      arena.states.length = 2 ∧ arena.stateCount = 2 ∧
      (collectStatesFromNFA arena.states nfa).length = 2 ∧
      constructDFAFromNFA arena.states emptyTables nfa
        (collectStatesFromNFA arena.states nfa) = some t ∧
      t.dfaStates.length = 2 ∧
      (t.dfaStates.filter (fun d => d.isFinal)).length = 1 ∧
      minimizeDFA t.dfaStates = some m ∧ m.length = 2 := by
  refine ⟨by decide, ⟨0, 1⟩, ⟨[⟨0, false, [⟨'a', 1⟩]⟩, ⟨1, true, []⟩], 2⟩,
    ⟨[⟨0, false, [0], [('a', 1)]⟩, ⟨1, true, [1], []⟩], [([0], 0), ([1], 1)]⟩,
    [⟨0, true, [], []⟩, ⟨1, false, [], [('a', 0)]⟩], ?_⟩
  decide

/-- C9 (failing input). For the driver's expression "a|(b|c|e) | |d*" the
postfix form is "abc|e| | |d*|" and the builder ends with two Fragments on its
stack: the one returned, for "(b|c|e) | |d*", and below it the Fragment of
the operand "a", which is left behind. -/
theorem driver_expression_leaves_two_fragments :
    infixToPostfix "a|(b|c|e) | |d*".toList = some "abc|e| | |d*|".toList ∧
    (buildLoop "abc|e| | |d*|".toList ([], emptyArena)).map (fun s => s.1) =
      some [⟨24, 25⟩, ⟨0, 1⟩] := by
  decide

/-- C3 (failing input). For "a*b*" the subset construction gives three DFA
states, all accepting; the first refinement round of `minimizeDFA` splits them
in two blocks, as many as the initial blocks (one of which is empty), so the
loop stops with the initial blocks; the rebuild then reads `newDFAStates[1]`
and `*part.begin()` of the empty block, and no automaton is produced. -/
theorem minimize_fails_on_astar_bstar :
    (compileToDFA "a*b*".toList).map
      (fun t => (t.dfaStates.map (fun d => (d.isFinal, d.transitions)),
        refineRound t.dfaStates (initialPartitions t.dfaStates),
        finalPartitions t.dfaStates, createNewStates [[0, 1, 2], []],
        minimizeDFA t.dfaStates)) =
    some ([(true, [('a', 1), ('b', 2)]), (true, [('a', 1), ('b', 2)]), (true, [('b', 2)])],
      [[0, 1], [2]], some [[0, 1, 2], []], [⟨0, false, [], []⟩], none) := by
  rfl

/-- C6 (failing input). The DFA for the language of the empty string and "a"
(state 0 accepting with a transition on 'a' to state 1, state 1 accepting
without transitions) is minimal: "a" is accepted from state 0 and rejected from
state 1, state 1 is reached from state 0, both states accept the empty string.
`minimizeDFA` produces no automaton for it: the loop stops with the initial
blocks, one of them empty, and the rebuild reads outside `newDFAStates`. -/
theorem minimize_fails_on_minimal_dfa :
    dfaAccepts [⟨0, true, [], [('a', 1)]⟩, ⟨1, true, [], []⟩] 0 ['a'] = true ∧
    dfaAccepts [⟨0, true, [], [('a', 1)]⟩, ⟨1, true, [], []⟩] 1 ['a'] = false ∧
    dfaStep [⟨0, true, [], [('a', 1)]⟩, ⟨1, true, [], []⟩] 0 'a' = some 1 ∧
    dfaAccepts [⟨0, true, [], [('a', 1)]⟩, ⟨1, true, [], []⟩] 0 [] = true ∧
    dfaAccepts [⟨0, true, [], [('a', 1)]⟩, ⟨1, true, [], []⟩] 1 [] = true ∧
    finalPartitions [⟨0, true, [], [('a', 1)]⟩, ⟨1, true, [], []⟩] = some [[0, 1], []] ∧
    minimizeDFA [⟨0, true, [], [('a', 1)]⟩, ⟨1, true, [], []⟩] = none := by
  decide

/-- The minimized automaton of "(a|b)*a": from either state, 'a' leads to the
accepting state 0 and 'b' to state 1. -/
theorem endsInA_dfa (w : List Char) (hw : ∀ c ∈ w, c = 'a' ∨ c = 'b') (q : Nat)
    (hq : q = 0 ∨ q = 1) :
    dfaAccepts [⟨0, true, [], [('a', 0), ('b', 1)]⟩, ⟨1, false, [], [('a', 0), ('b', 1)]⟩] q w
        = true ↔
      (w.getLast? = some 'a' ∨ (w = [] ∧ q = 0)) := by
  induction w generalizing q with
  | nil => rcases hq with rfl | rfl <;> simp [dfaAccepts, derefDFA]
  | cons c w ih =>
    have hw1 : ∀ c ∈ w, c = 'a' ∨ c = 'b' := fun d hd => hw d (List.mem_cons_of_mem _ hd)
    rcases hw c (List.mem_cons_self _ _) with rfl | rfl
    · have h0 := ih hw1 0 (Or.inl rfl)
      have hs : dfaStep [⟨0, true, [], [('a', 0), ('b', 1)]⟩,
          ⟨1, false, [], [('a', 0), ('b', 1)]⟩] q 'a' = some 0 := by
        rcases hq with rfl | rfl <;> decide
      simp only [dfaAccepts, hs, h0]
      cases w with
      | nil => simp
      | cons d w => simp [List.getLast?_cons_cons]
    · have h1 := ih hw1 1 (Or.inr rfl)
      have hs : dfaStep [⟨0, true, [], [('a', 0), ('b', 1)]⟩,
          ⟨1, false, [], [('a', 0), ('b', 1)]⟩] q 'b' = some 1 := by
        rcases hq with rfl | rfl <;> decide
      simp only [dfaAccepts, hs, h1]
      cases w with
      | nil => simp
      | cons d w => simp [List.getLast?_cons_cons]

/-- C7. For "(a|b)*a" the driver's pipeline produces a minimized automaton; the
initial state of the DFA lies in block 1, and from new state 1 the automaton
accepts a string over 'a', 'b' if and only if its last character is 'a' (so
the empty string and the strings ending in 'b' are rejected). -/
theorem scenario_e_accepts_iff_ends_in_a :
    (compileToDFA "(a|b)*a".toList).bind (fun t => newStateOf t.dfaStates 0) = some 1 ∧
    ∃ m, runPipeline "(a|b)*a".toList = some m ∧
      ∀ w : List Char, (∀ c ∈ w, c = 'a' ∨ c = 'b') →
        (dfaAccepts m 1 w = true ↔ w.getLast? = some 'a') := by
  refine ⟨by rfl,
    [⟨0, true, [], [('a', 0), ('b', 1)]⟩, ⟨1, false, [], [('a', 0), ('b', 1)]⟩], by rfl, ?_⟩
  intro w hw
  rw [endsInA_dfa w hw 1 (Or.inr rfl)]
  simp

/-- The witness of C7 on the strings "ba" and "ab". -/
theorem scenario_e_witness :
    ∃ m, runPipeline "(a|b)*a".toList = some m ∧
      dfaAccepts m 1 ['b', 'a'] = true ∧ dfaAccepts m 1 ['a', 'b'] = false ∧
      dfaAccepts m 1 [] = false := by
  obtain ⟨_, m, hm, h⟩ := scenario_e_accepts_iff_ends_in_a
  refine ⟨m, hm, (h ['b', 'a'] (by simp)).2 (by simp), ?_, ?_⟩
  · have := h ['a', 'b'] (by simp)
    simpa using this
  · have := h [] (by simp)
    simpa using this

/-! ## Parentheses in `infixToPostfix` -/

theorem parenDepth_cons_congr (c : Char) (xs ys : List Char)
    (h : ∀ d, parenDepth xs d = parenDepth ys d) (d : Nat) :
    parenDepth (c :: xs) d = parenDepth (c :: ys) d := by
  simp only [parenDepth, h]

theorem parenDepth_dot (xs : List Char) (d : Nat) :
    parenDepth ('.' :: xs) d = parenDepth xs d := by
  simp [parenDepth]

theorem parenDepth_scanConcat (r : List Char) (d : Nat) :
    parenDepth (scanConcat r) d = parenDepth r d := by
  induction r generalizing d with
  | nil => rfl
  | cons c cs ih =>
    cases cs with
    | nil => rfl
    | cons e es =>
      by_cases hc : concatBetween c e = true
      · simp only [scanConcat, hc, if_true]
        exact parenDepth_cons_congr c _ _ (fun d => by rw [parenDepth_dot, ih]) d
      · simp only [scanConcat, hc]
        exact parenDepth_cons_congr c _ _ ih d

theorem popOps_count (c : Char) (st out : List Char) :
    (popOps c st out).1.count '(' = st.count '(' ∧
      (popOps c st out).2.count '(' = out.count '(' := by
  induction st generalizing out with
  | nil => simp [popOps]
  | cons t st ih =>
    rw [popOps]
    split
    · rename_i h
      have ht : t ≠ '(' := by
        intro h1
        simp [h1] at h
      obtain ⟨h1, h2⟩ := ih (out ++ [t])
      refine ⟨?_, ?_⟩
      · rw [h1, List.count_cons_of_ne (Ne.symm ht)]
      · rw [h2]
        simp [List.count_cons_of_ne (Ne.symm ht), List.count_append]
    · simp

theorem popUntilParen_count (st out : List Char) (d : Nat) (h : st.count '(' = d + 1) :
    ∃ s, popUntilParen st out = some s ∧ s.1.count '(' = d ∧ s.2.count '(' = out.count '(' := by
  induction st generalizing out with
  | nil => simp at h
  | cons t st ih =>
    rw [popUntilParen]
    by_cases ht : t = '('
    · subst ht
      simp only [if_true]
      refine ⟨_, rfl, ?_, rfl⟩
      simpa using h
    · simp only [ht, if_false]
      rw [List.count_cons_of_ne (Ne.symm ht)] at h
      obtain ⟨s, hs, h1, h2⟩ := ih (out ++ [t]) h
      refine ⟨s, hs, h1, ?_⟩
      rw [h2]
      simp [List.count_cons_of_ne (Ne.symm ht), List.count_append]

theorem shuntLoop_paren (cs : List Char) (d e : Nat) (s : List Char × List Char)
    (hd : parenDepth cs d = some e) (hs : s.1.count '(' = d) :
    ∃ s1, shuntLoop cs s = some s1 ∧ s1.1.count '(' = e ∧ s1.2.count '(' = s.2.count '(' := by
  induction cs generalizing d s with
  | nil =>
    simp only [parenDepth, Option.some.injEq] at hd
    exact ⟨s, rfl, by omega, rfl⟩
  | cons c cs ih =>
    rw [parenDepth] at hd
    rw [shuntLoop, shuntStep]
    by_cases h1 : (isalpha c || c == ' ') = true
    · have hc1 : c ≠ '(' := by
        rintro rfl
        revert h1
        decide
      have hc2 : c ≠ ')' := by
        rintro rfl
        revert h1
        decide
      simp only [h1, if_true, hc1, hc2, if_false] at hd ⊢
      obtain ⟨s1, h2, h3, h4⟩ := ih d (s.1, s.2 ++ [c]) hd hs
      refine ⟨s1, h2, h3, ?_⟩
      rw [h4]
      simp [List.count_append, List.count_cons_of_ne (Ne.symm hc1)]
    · simp only [h1]
      by_cases h2 : c = '('
      · subst h2
        simp only [if_true] at hd
        simp only [beq_self_eq_true, if_true]
        obtain ⟨s1, h2, h3, h4⟩ := ih (d + 1) ('(' :: s.1, s.2) hd (by simp [hs])
        exact ⟨s1, h2, h3, h4⟩
      · by_cases h3 : c = ')'
        · subst h3
          simp only [h2, if_false, if_true] at hd
          have hb : ((')' : Char) == '(') = false := by decide
          simp only [hb, beq_self_eq_true, if_true]
          cases d with
          | zero => simp at hd
          | succ d1 =>
            simp only [Nat.add_one_ne_zero, if_false, Nat.add_sub_cancel] at hd
            obtain ⟨s0, h5, h6, h7⟩ := popUntilParen_count s.1 s.2 d1 hs
            rw [h5]
            obtain ⟨s1, h8, h9, h10⟩ := ih d1 s0 hd h6
            exact ⟨s1, h8, h9, by rw [h10, h7]⟩
        · simp only [h2, h3, if_false] at hd
          have hb1 : (c == '(') = false := by simpa using h2
          have hb2 : (c == ')') = false := by simpa using h3
          simp only [hb1, hb2]
          by_cases h4 : (c == '*' || c == '|' || c == '.') = true
          · simp only [h4, if_true]
            obtain ⟨p1, p2⟩ := popOps_count c s.1 s.2
            obtain ⟨s1, h8, h9, h10⟩ :=
              ih d (c :: (popOps c s.1 s.2).1, (popOps c s.1 s.2).2) hd
                (by simp [List.count_cons_of_ne (Ne.symm h2), p1, hs])
            exact ⟨s1, h8, h9, by rw [h10, p2]⟩
          · simp only [h4]
            obtain ⟨s1, h8, h9, h10⟩ := ih d s hd hs
            exact ⟨s1, h8, h9, h10⟩

/-- C10 (counterexample). For "(a", whose '(' is unmatched, `infixToPostfix`
returns the string "a(". -/
theorem unmatched_open_returns_string :
    infixToPostfix ['(', 'a'] = some ['a', '('] := by
  decide

/-- C10 (amended). For every non-empty expression without an unmatched ')',
`infixToPostfix` returns a string, in which '(' occurs once for each unmatched
'(' of the expression (`d` of them). -/
theorem unmatched_open_is_emitted (regex : List Char) (d : Nat) (hne : regex ≠ [])
    (hd : parenDepth regex 0 = some d) :
    ∃ p, infixToPostfix regex = some p ∧ p.count '(' = d := by
  cases regex with
  | nil => exact absurd rfl hne
  | cons c cs =>
    rw [← parenDepth_scanConcat] at hd
    obtain ⟨s1, h1, h2, h3⟩ := shuntLoop_paren (scanConcat (c :: cs)) 0 d ([], []) hd rfl
    refine ⟨s1.2 ++ s1.1, ?_, ?_⟩
    · simp only [infixToPostfix, h1]
    · rw [List.count_append, h2, h3]
      simp

/-- The witness of C10 (amended): "((a|b)" has one unmatched '('. -/
theorem unmatched_open_is_emitted_witness :
    ∃ p, infixToPostfix "((a|b)".toList = some p ∧ p.count '(' = 1 :=
  unmatched_open_is_emitted "((a|b)".toList 1 (by decide) (by decide)

/-! ## `infixToPostfix` on renderings of a tree -/

theorem opLevel_cases {c : Char} {j : Nat} (h : opLevel c = some j) :
    (c = '|' ∧ j = 0) ∨ (c = '.' ∧ j = 1) ∨ (c = '*' ∧ j = 2) := by
  unfold opLevel at h
  split at h
  · left; exact ⟨‹_›, by simpa using h.symm⟩
  · split at h
    · right; left; exact ⟨‹_›, by simpa using h.symm⟩
    · split at h
      · right; right; exact ⟨‹_›, by simpa using h.symm⟩
      · simp at h

theorem shouldPop_iff {c t : Char} {j : Nat} (h : opLevel c = some j) :
    (t != '(' && shouldPop c t) = true ↔ ∃ k, opLevel t = some k ∧ j ≤ k := by
  rcases opLevel_cases h with ⟨rfl, rfl⟩ | ⟨rfl, rfl⟩ | ⟨rfl, rfl⟩
  · constructor
    · intro h1
      simp [shouldPop] at h1
      rcases h1.2 with (rfl | rfl) | rfl
      · exact ⟨1, by decide, by omega⟩
      · exact ⟨2, by decide, by omega⟩
      · exact ⟨0, by decide, by omega⟩
    · rintro ⟨k, hk, -⟩
      rcases opLevel_cases hk with ⟨rfl, rfl⟩ | ⟨rfl, rfl⟩ | ⟨rfl, rfl⟩ <;> decide
  · constructor
    · intro h1
      simp [shouldPop] at h1
      rcases h1.2 with rfl | rfl
      · exact ⟨1, by decide, by omega⟩
      · exact ⟨2, by decide, by omega⟩
    · rintro ⟨k, hk, hle⟩
      rcases opLevel_cases hk with ⟨rfl, rfl⟩ | ⟨rfl, rfl⟩ | ⟨rfl, rfl⟩
      · omega
      · decide
      · decide
  · constructor
    · intro h1
      simp [shouldPop] at h1
      rcases h1.2 with rfl
      exact ⟨2, by decide, by omega⟩
    · rintro ⟨k, hk, hle⟩
      rcases opLevel_cases hk with ⟨rfl, rfl⟩ | ⟨rfl, rfl⟩ | ⟨rfl, rfl⟩
      · omega
      · omega
      · decide

theorem opLevel_ne_paren {p : Char} {k : Nat} (h : opLevel p = some k) : p ≠ '(' := by
  rcases opLevel_cases h with ⟨rfl, -⟩ | ⟨rfl, -⟩ | ⟨rfl, -⟩ <;> decide

/-- An incoming operator of level `j` pops the pending operators of level `j`
or more and stops at a stack whose top is below `j`. -/
theorem popOps_pending (c : Char) (j : Nat) (hc : opLevel c = some j) (ops stack out : List Char)
    (hops : OpsAtLeast j ops) (hst : TopBelow j stack) :
    popOps c (ops ++ stack) out = (stack, out ++ ops) := by
  induction ops generalizing out with
  | nil =>
    cases stack with
    | nil => simp [popOps]
    | cons h rest =>
      have hno : ¬ ((h != '(' && shouldPop c h) = true) := by
        intro hp
        obtain ⟨k, hk, hle⟩ := (shouldPop_iff hc).1 hp
        rcases hst h rest rfl with h1 | ⟨k1, hk1, hlt⟩
        · exact opLevel_ne_paren hk h1
        · rw [hk] at hk1
          injection hk1 with hk1
          omega
      rw [List.nil_append, popOps, if_neg hno, List.append_nil]
  | cons p ops ih =>
    have hp : (p != '(' && shouldPop c p) = true :=
      (shouldPop_iff hc).2 (hops p (List.mem_cons_self _ _))
    rw [List.cons_append, popOps, if_pos hp,
      ih (out ++ [p]) (fun q hq => hops q (List.mem_cons_of_mem _ hq))]
    simp

/-- The loop for ')' pops the pending operators and discards the '('. -/
theorem popUntilParen_pending (n : Nat) (ops stack out : List Char) (hops : OpsAtLeast n ops) :
    popUntilParen (ops ++ '(' :: stack) out = some (stack, out ++ ops) := by
  induction ops generalizing out with
  | nil => simp [popUntilParen]
  | cons p ops ih =>
    obtain ⟨k, hk, -⟩ := hops p (List.mem_cons_self _ _)
    have hp : p ≠ '(' := opLevel_ne_paren hk
    rw [List.cons_append, popUntilParen, if_neg hp,
      ih (out ++ [p]) (fun q hq => hops q (List.mem_cons_of_mem _ hq))]
    simp

theorem shuntLoop_append (xs ys : List Char) (s : List Char × List Char) :
    shuntLoop (xs ++ ys) s =
      match shuntLoop xs s with
      | none => none
      | some s1 => shuntLoop ys s1 := by
  induction xs generalizing s with
  | nil => simp [shuntLoop]
  | cons c cs ih =>
    simp only [List.cons_append, shuntLoop]
    cases shuntStep s c with
    | none => rfl
    | some s1 => exact ih s1

theorem scanConcat_cons_cons (c d : Char) (ds : List Char) :
    scanConcat (c :: d :: ds) =
      c :: ((if concatBetween c d then ['.'] else []) ++ scanConcat (d :: ds)) := by
  by_cases h : concatBetween c d = true <;> simp [scanConcat, h]

theorem scanConcat_append (xs : List Char) (a b : Char) (ys : List Char) :
    scanConcat (xs ++ a :: b :: ys) =
      scanConcat (xs ++ [a]) ++
        ((if concatBetween a b then ['.'] else []) ++ scanConcat (b :: ys)) := by
  induction xs with
  | nil =>
    rw [List.nil_append, List.nil_append, scanConcat_cons_cons]
    rfl
  | cons c cs ih =>
    cases cs with
    | nil =>
      show scanConcat (c :: a :: b :: ys) = scanConcat (c :: [a]) ++ _
      rw [scanConcat_cons_cons, scanConcat_cons_cons, scanConcat_cons_cons]
      simp [scanConcat]
    | cons d ds =>
      show scanConcat (c :: d :: (ds ++ a :: b :: ys)) = scanConcat (c :: d :: (ds ++ [a])) ++ _
      rw [scanConcat_cons_cons, scanConcat_cons_cons]
      have ih1 : scanConcat (d :: (ds ++ a :: b :: ys)) =
          scanConcat (d :: (ds ++ [a])) ++
            ((if concatBetween a b then ['.'] else []) ++ scanConcat (b :: ys)) := ih
      rw [ih1]
      simp

theorem render_shape {n : Nat} {r : Regex} {s : List Char} (h : Render n r s)
    (hr : r.alphabetic) : StartsOperand s ∧ EndsOperand s := by
  induction h with
  | lit c => exact ⟨⟨c, [], rfl, Or.inl hr⟩, ⟨[], c, rfl, Or.inl hr⟩⟩
  | paren _ _ => exact ⟨⟨'(', _, rfl, Or.inr rfl⟩, ⟨'(' :: _, ')', rfl, Or.inr (Or.inr rfl)⟩⟩
  | star _ ih =>
    obtain ⟨⟨b, ys, rfl, hb⟩, -⟩ := ih hr
    exact ⟨⟨b, ys ++ ['*'], rfl, hb⟩, ⟨_, '*', rfl, Or.inr (Or.inl rfl)⟩⟩
  | cat _ _ ih1 ih2 =>
    obtain ⟨⟨b, ys, rfl, hb⟩, -⟩ := ih1 hr.1
    obtain ⟨-, ⟨xs, a, rfl, ha⟩⟩ := ih2 hr.2
    exact ⟨⟨b, ys ++ (xs ++ [a]), rfl, hb⟩, ⟨b :: ys ++ xs, a, by simp, ha⟩⟩
  | alt _ _ ih1 ih2 =>
    obtain ⟨⟨b, ys, rfl, hb⟩, -⟩ := ih1 hr.1
    obtain ⟨-, ⟨xs, a, rfl, ha⟩⟩ := ih2 hr.2
    exact ⟨⟨b, ys ++ '|' :: (xs ++ [a]), rfl, hb⟩, ⟨b :: ys ++ '|' :: xs, a, by simp, ha⟩⟩
  | weaken _ ih => exact ih hr

theorem concatBetween_right_false (a x : Char) (h : (isalpha x || x == '(') = false) :
    concatBetween a x = false := by
  simp only [concatBetween, h, Bool.and_false]

theorem concatBetween_left_false (x b : Char) (h : (isalpha x || x == '*' || x == ')') = false) :
    concatBetween x b = false := by
  simp only [concatBetween, h, Bool.false_and]

theorem concatBetween_operands {a b : Char} (ha : isalpha a = true ∨ a = '*' ∨ a = ')')
    (hb : isalpha b = true ∨ b = '(') : concatBetween a b = true := by
  have h1 : (isalpha a || a == '*' || a == ')') = true := by
    rcases ha with h | rfl | rfl
    · simp [h]
    · simp
    · simp
  have h2 : (isalpha b || b == '(') = true := by
    rcases hb with h | rfl
    · simp [h]
    · simp
  simp only [concatBetween, h1, h2, Bool.and_self]

/-- No '.' is inserted before a character that is neither an operand nor '('. -/
theorem scanConcat_snoc (s : List Char) (x : Char) (hs : s ≠ [])
    (hx : (isalpha x || x == '(') = false) : scanConcat (s ++ [x]) = scanConcat s ++ [x] := by
  obtain ⟨xs, a, rfl⟩ : ∃ xs a, s = xs ++ [a] :=
    ⟨s.dropLast, s.getLast hs, (List.dropLast_append_getLast hs).symm⟩
  have h := scanConcat_append xs a x []
  rw [concatBetween_right_false a x hx] at h
  simpa [scanConcat] using h

/-- A '.' is inserted where a rendering that ends an operand meets one that
starts an operand. -/
theorem scanConcat_juxtapose {s1 s2 : List Char} (h1 : EndsOperand s1) (h2 : StartsOperand s2) :
    scanConcat (s1 ++ s2) = scanConcat s1 ++ '.' :: scanConcat s2 := by
  obtain ⟨xs, a, rfl, ha⟩ := h1
  obtain ⟨b, ys, rfl, hb⟩ := h2
  have h := scanConcat_append xs a b ys
  rw [concatBetween_operands ha hb] at h
  simpa using h

/-- No '.' is inserted around an explicit '|'. -/
theorem scanConcat_bar {s1 s2 : List Char} (h1 : s1 ≠ []) (h2 : s2 ≠ []) :
    scanConcat (s1 ++ '|' :: s2) = scanConcat s1 ++ '|' :: scanConcat s2 := by
  obtain ⟨xs, a, rfl⟩ : ∃ xs a, s1 = xs ++ [a] :=
    ⟨s1.dropLast, s1.getLast h1, (List.dropLast_append_getLast h1).symm⟩
  obtain ⟨b, ys, rfl⟩ : ∃ b ys, s2 = b :: ys := List.exists_cons_of_ne_nil h2
  have h := scanConcat_append xs a '|' (b :: ys)
  rw [concatBetween_right_false a '|' (by decide), scanConcat_cons_cons,
    concatBetween_left_false '|' b (by decide)] at h
  simpa using h

/-- No '.' is inserted after '('. -/
theorem scanConcat_open (s : List Char) (hs : s ≠ []) :
    scanConcat ('(' :: s) = '(' :: scanConcat s := by
  obtain ⟨b, ys, rfl⟩ : ∃ b ys, s = b :: ys := List.exists_cons_of_ne_nil hs
  rw [scanConcat_cons_cons, concatBetween_left_false '(' b (by decide)]
  rfl

theorem shuntStep_operand (s : List Char × List Char) (c : Char) (hc : isalpha c = true) :
    shuntStep s c = some (s.1, s.2 ++ [c]) := by
  simp [shuntStep, hc]

theorem shuntStep_open (s : List Char × List Char) :
    shuntStep s '(' = some ('(' :: s.1, s.2) := by
  have h : isalpha '(' = false := by decide
  simp [shuntStep, h]

theorem shuntStep_close (s : List Char × List Char) :
    shuntStep s ')' = popUntilParen s.1 s.2 := by
  have h : isalpha ')' = false := by decide
  have h1 : ((')' : Char) == '(') = false := by decide
  simp [shuntStep, h, h1]

theorem shuntStep_operator (s : List Char × List Char) (c : Char) (j : Nat)
    (hc : opLevel c = some j) :
    shuntStep s c = some (c :: (popOps c s.1 s.2).1, (popOps c s.1 s.2).2) := by
  rcases opLevel_cases hc with ⟨rfl, -⟩ | ⟨rfl, -⟩ | ⟨rfl, -⟩
  · have h : isalpha '|' = false := by decide
    have h1 : (('|' : Char) == '(') = false := by decide
    have h2 : (('|' : Char) == ')') = false := by decide
    simp [shuntStep, h, h1, h2]
  · have h : isalpha '.' = false := by decide
    have h1 : (('.' : Char) == '(') = false := by decide
    have h2 : (('.' : Char) == ')') = false := by decide
    simp [shuntStep, h, h1, h2]
  · have h : isalpha '*' = false := by decide
    have h1 : (('*' : Char) == '(') = false := by decide
    have h2 : (('*' : Char) == ')') = false := by decide
    simp [shuntStep, h, h1, h2]

/-- The step for an operator of level `j` on pending operators of level `j` or
more over a stack whose top is below `j`. -/
theorem shuntStep_pending (c : Char) (j : Nat) (hc : opLevel c = some j)
    (ops stack out : List Char) (hops : OpsAtLeast j ops) (hst : TopBelow j stack) :
    shuntStep (ops ++ stack, out) c = some (c :: stack, out ++ ops) := by
  rw [shuntStep_operator _ c j hc]
  simp only [popOps_pending c j hc ops stack out hops hst]

theorem shuntLoop_cons (c : Char) (cs : List Char) (s s1 : List Char × List Char)
    (h : shuntStep s c = some s1) : shuntLoop (c :: cs) s = shuntLoop cs s1 := by
  simp only [shuntLoop, h]

theorem shuntLoop_append_some (xs ys : List Char) (s s1 : List Char × List Char)
    (h : shuntLoop xs s = some s1) : shuntLoop (xs ++ ys) s = shuntLoop ys s1 := by
  rw [shuntLoop_append, h]

/-- The operator loop on a rendering of `r`, started on a stack whose top is
below the level of the rendering: the output grows to the postfix form of `r`
except for the operators that are still pending on top of the stack. -/
theorem shuntLoop_render {n : Nat} {r : Regex} {s : List Char} (h : Render n r s)
    (hr : r.alphabetic) :
    ∀ stack out, TopBelow n stack →
      ∃ ops out1, shuntLoop (scanConcat s) (stack, out) = some (ops ++ stack, out1) ∧
        out1 ++ ops = out ++ r.toPostfix ∧ OpsAtLeast n ops := by
  induction h with
  | lit c =>
    intro stack out _
    refine ⟨[], out ++ [c], ?_, by simp [Regex.toPostfix], fun p hp => by simp at hp⟩
    show shuntLoop [c] (stack, out) = _
    rw [shuntLoop_cons c [] _ _ (shuntStep_operand _ c hr)]
    rfl
  | @paren n r s hs ih =>
    intro stack out _
    have hne : s ≠ [] := by
      obtain ⟨⟨b, ys, rfl, -⟩, -⟩ := render_shape hs hr
      simp
    obtain ⟨ops, out1, h1, h2, h3⟩ := ih hr ('(' :: stack) out
      (fun h rest he => Or.inl (by injection he with he1 _; exact he1.symm))
    refine ⟨[], out ++ r.toPostfix, ?_, by simp, fun p hp => by simp at hp⟩
    have hscan : scanConcat ('(' :: s ++ [')']) = '(' :: (scanConcat s ++ [')']) := by
      have : '(' :: s ++ [')'] = '(' :: (s ++ [')']) := rfl
      rw [this, scanConcat_open _ (by simp), scanConcat_snoc s ')' hne (by decide)]
    rw [hscan, shuntLoop_cons _ _ _ _ (shuntStep_open _), shuntLoop_append_some _ _ _ _ h1,
      shuntLoop_cons ')' [] _ (stack, out1 ++ ops)
        (by rw [shuntStep_close]; exact popUntilParen_pending 0 ops stack out1 h3), h2]
    rfl
  | @star r s hs ih =>
    intro stack out hst
    have hne : s ≠ [] := by
      obtain ⟨⟨b, ys, rfl, -⟩, -⟩ := render_shape hs hr
      simp
    obtain ⟨ops, out1, h1, h2, h3⟩ := ih hr stack out hst
    refine ⟨['*'], out ++ r.toPostfix, ?_, by simp [Regex.toPostfix], ?_⟩
    · rw [scanConcat_snoc s '*' hne (by decide), shuntLoop_append_some _ _ _ _ h1,
        shuntLoop_cons '*' [] _ ('*' :: stack, out1 ++ ops)
          (shuntStep_pending '*' 2 (by decide) ops stack out1 h3 hst), h2]
      rfl
    · intro p hp
      simp only [List.mem_singleton] at hp
      subst hp
      exact ⟨2, by decide, le_refl _⟩
  | @cat r1 r2 s1 s2 hs1 hs2 ih1 ih2 =>
    intro stack out hst
    obtain ⟨ops1, out1, h1, h2, h3⟩ := ih1 hr.1 stack out hst
    have htop : TopBelow 2 ('.' :: stack) := by
      intro h rest he
      injection he with he1 _
      subst he1
      exact Or.inr ⟨1, by decide, by omega⟩
    obtain ⟨ops2, out2, h4, h5, h6⟩ := ih2 hr.2 ('.' :: stack) (out1 ++ ops1) htop
    refine ⟨ops2 ++ ['.'], out2, ?_, ?_, ?_⟩
    · rw [scanConcat_juxtapose (render_shape hs1 hr.1).2 (render_shape hs2 hr.2).1,
        shuntLoop_append_some _ _ _ _ h1,
        shuntLoop_cons '.' _ _ ('.' :: stack, out1 ++ ops1)
          (shuntStep_pending '.' 1 (by decide) ops1 stack out1 h3 hst), h4]
      simp
    · rw [← List.append_assoc, h5, h2]
      simp [Regex.toPostfix]
    · intro p hp
      rcases List.mem_append.1 hp with hp | hp
      · obtain ⟨k, hk, hle⟩ := h6 p hp
        exact ⟨k, hk, by omega⟩
      · simp only [List.mem_singleton] at hp
        subst hp
        exact ⟨1, by decide, le_refl _⟩
  | @alt r1 r2 s1 s2 hs1 hs2 ih1 ih2 =>
    intro stack out hst
    obtain ⟨ops1, out1, h1, h2, h3⟩ := ih1 hr.1 stack out hst
    have htop : TopBelow 1 ('|' :: stack) := by
      intro h rest he
      injection he with he1 _
      subst he1
      exact Or.inr ⟨0, by decide, by omega⟩
    obtain ⟨ops2, out2, h4, h5, h6⟩ := ih2 hr.2 ('|' :: stack) (out1 ++ ops1) htop
    have hne1 : s1 ≠ [] := by
      obtain ⟨⟨b, ys, rfl, -⟩, -⟩ := render_shape hs1 hr.1
      simp
    have hne2 : s2 ≠ [] := by
      obtain ⟨⟨b, ys, rfl, -⟩, -⟩ := render_shape hs2 hr.2
      simp
    refine ⟨ops2 ++ ['|'], out2, ?_, ?_, ?_⟩
    · rw [scanConcat_bar hne1 hne2, shuntLoop_append_some _ _ _ _ h1,
        shuntLoop_cons '|' _ _ ('|' :: stack, out1 ++ ops1)
          (shuntStep_pending '|' 0 (by decide) ops1 stack out1 h3 hst), h4]
      simp
    · rw [← List.append_assoc, h5, h2]
      simp [Regex.toPostfix]
    · intro p hp
      rcases List.mem_append.1 hp with hp | hp
      · obtain ⟨k, hk, hle⟩ := h6 p hp
        exact ⟨k, hk, by omega⟩
      · simp only [List.mem_singleton] at hp
        subst hp
        exact ⟨0, by decide, le_refl _⟩
  | @weaken n r s hs ih =>
    intro stack out hst
    have hst1 : TopBelow (n + 1) stack := by
      intro h rest he
      rcases hst h rest he with h1 | ⟨k, hk, hlt⟩
      · exact Or.inl h1
      · exact Or.inr ⟨k, hk, by omega⟩
    obtain ⟨ops, out1, h1, h2, h3⟩ := ih hr stack out hst1
    refine ⟨ops, out1, h1, h2, ?_⟩
    intro p hp
    obtain ⟨k, hk, hle⟩ := h3 p hp
    exact ⟨k, hk, by omega⟩

/-- C5. For every tree `r` over alphabetic literals and every infix rendering
`s` of it (juxtaposition for concatenation, parentheses consistent with the
precedence of '|' below concatenation below '*' and with left associativity),
`infixToPostfix` returns exactly the postfix serialisation of `r`. -/
theorem infixToPostfix_of_render (n : Nat) (r : Regex) (s : List Char) (hr : r.alphabetic)
    (h : Render n r s) : infixToPostfix s = some r.toPostfix := by
  obtain ⟨ops, out1, h1, h2, -⟩ :=
    shuntLoop_render h hr [] [] (fun _ _ he => by simp at he)
  obtain ⟨⟨b, ys, rfl, -⟩, -⟩ := render_shape h hr
  simp only [infixToPostfix, h1]
  simpa using h2

/-- The witness of C5: "(a|b)*a" renders the tree of the star of `a|b`
followed by `a`, and the result is "ab|*a.". -/
theorem infixToPostfix_of_render_witness :
    infixToPostfix "(a|b)*a".toList = some "ab|*a.".toList :=
  infixToPostfix_of_render 1 (.cat (.star (.alt (.lit 'a') (.lit 'b'))) (.lit 'a'))
    "(a|b)*a".toList
    ⟨⟨(rfl : isalpha 'a' = true), (rfl : isalpha 'b' = true)⟩, (rfl : isalpha 'a' = true)⟩
    (Render.cat
      (Render.weaken
        (Render.star
          (Render.paren
            (Render.alt (Render.weaken (Render.weaken (Render.lit 'a')))
              (Render.weaken (Render.lit 'b'))))))
      (Render.lit 'a'))

end Thompson

namespace Thompson

/-! ## Sets as strictly increasing lists -/

theorem mem_setInsert (x y : Nat) (l : List Nat) : y ∈ setInsert x l ↔ y = x ∨ y ∈ l := by
  induction l with
  | nil => simp [setInsert]
  | cons z zs ih =>
    rw [setInsert]
    split
    · simp
    · split
      · rename_i h
        subst h
        simp
      · simp only [List.mem_cons, ih]
        tauto

theorem isSet_nil : IsSet [] := List.sorted_nil

theorem isSet_setInsert (x : Nat) (l : List Nat) (h : IsSet l) : IsSet (setInsert x l) := by
  induction l with
  | nil => simp [setInsert, IsSet]
  | cons z zs ih =>
    have hz : ∀ b ∈ zs, z < b := (List.sorted_cons.1 h).1
    have hzs : IsSet zs := (List.sorted_cons.1 h).2
    rw [setInsert]
    split
    · rename_i hlt
      refine List.sorted_cons.2 ⟨?_, h⟩
      intro b hb
      rcases List.mem_cons.1 hb with rfl | hb
      · exact hlt
      · exact lt_trans hlt (hz b hb)
    · split
      · exact h
      · rename_i h1 h2
        refine List.sorted_cons.2 ⟨?_, ih hzs⟩
        intro b hb
        rcases (mem_setInsert x b zs).1 hb with rfl | hb
        · omega
        · exact hz b hb

theorem isSet_ext {a b : List Nat} (ha : IsSet a) (hb : IsSet b) (h : ∀ x, x ∈ a ↔ x ∈ b) :
    a = b :=
  List.eq_of_perm_of_sorted ((List.perm_ext_iff_of_nodup ha.nodup hb.nodup).2 h) ha hb

theorem mem_setUnion (x : Nat) (result temp : List Nat) :
    x ∈ setUnion result temp ↔ x ∈ result ∨ x ∈ temp := by
  unfold setUnion
  induction temp generalizing result with
  | nil => simp
  | cons t ts ih =>
    rw [List.foldl_cons, ih, mem_setInsert]
    simp only [List.mem_cons]
    tauto

theorem isSet_setUnion (result temp : List Nat) (h : IsSet result) :
    IsSet (setUnion result temp) := by
  unfold setUnion
  induction temp generalizing result with
  | nil => exact h
  | cons t ts ih =>
    rw [List.foldl_cons]
    exact ih _ (isSet_setInsert t result h)

/-! ## The stack traversals -/

theorem outDegree_of_length_le (states : List State) (p : Nat) (h : states.length ≤ p) :
    outDegree states p = 0 := by
  simp [outDegree, deref, List.getD, List.getElem?_eq_none h]

theorem traverseBound_insert (states : List State) (stack result : List Nat) (cur : Nat)
    (push : List Nat) (hcur : cur ∉ result) (hpush : push.length ≤ outDegree states cur) :
    traverseBound states (push ++ stack) (setInsert cur result) + 1 ≤
      traverseBound states (cur :: stack) result := by
  unfold traverseBound
  have hfilter : (Finset.range states.length).filter (fun i => i ∉ setInsert cur result) =
      ((Finset.range states.length).filter (fun i => i ∉ result)).erase cur := by
    ext i
    simp only [Finset.mem_filter, Finset.mem_range, Finset.mem_erase, mem_setInsert]
    tauto
  rw [hfilter]
  by_cases hlt : cur < states.length
  · have hmem : cur ∈ (Finset.range states.length).filter (fun i => i ∉ result) := by
      simp [hlt, hcur]
    have := Finset.add_sum_erase _ (outDegree states) hmem
    simp only [List.length_append, List.length_cons]
    omega
  · have hnot : cur ∉ (Finset.range states.length).filter (fun i => i ∉ result) := by
      simp [hlt]
    rw [Finset.erase_eq_of_not_mem hnot]
    have := outDegree_of_length_le states cur (by omega)
    simp only [List.length_append, List.length_cons]
    omega

/-- A traversal whose pushes are bounded by the number of transitions of the
state ends before the fuel `traverseBound` runs out. -/
theorem traverse_terminates (states : List State) (push : List Nat → Nat → List Nat)
    (hpush : ∀ r p, (push r p).length ≤ outDegree states p) (fuel : Nat)
    (stack result : List Nat) (h : traverseBound states stack result ≤ fuel) :
    ∃ out, traverse push fuel stack result = some out := by
  induction fuel generalizing stack result with
  | zero =>
    cases stack with
    | nil => exact ⟨result, by simp [traverse]⟩
    | cons c cs => simp [traverseBound] at h
  | succ fuel ih =>
    cases stack with
    | nil => exact ⟨result, by simp [traverse]⟩
    | cons cur stack =>
      rw [traverse]
      split
      · apply ih
        simp only [traverseBound, List.length_cons] at h ⊢
        omega
      · rename_i hcur
        apply ih
        have := traverseBound_insert states stack result cur _ hcur (hpush (setInsert cur result) cur)
        omega

/-- What a traversal returns, for pushes that are sound and complete for a
successor relation `R`. -/
theorem traverse_spec (R : Nat → Nat → Prop) (push : List Nat → Nat → List Nat)
    (hsound : ∀ r p x, x ∈ push r p → R p x)
    (hcompl : ∀ r p x, R p x → x ∈ push r p ∨ x ∈ r)
    (fuel : Nat) (stack result out : List Nat)
    (h : traverse push fuel stack result = some out) :
    (∀ x ∈ out, x ∈ result ∨ ∃ y ∈ stack, Relation.ReflTransGen R y x) ∧
    (∀ x, x ∈ result ∨ x ∈ stack → x ∈ out) ∧
    ((∀ x ∈ result, ∀ y, R x y → y ∈ result ∨ y ∈ stack) → ∀ x ∈ out, ∀ y, R x y → y ∈ out) ∧
    (IsSet result → IsSet out) := by
  induction fuel generalizing stack result with
  | zero =>
    cases stack with
    | nil =>
      simp only [traverse, Option.some.injEq] at h
      subst h
      refine ⟨fun x hx => Or.inl hx, ?_, ?_, id⟩
      · rintro x (hx | hx)
        · exact hx
        · simp at hx
      · intro hc x hx y hy
        rcases hc x hx y hy with h1 | h1
        · exact h1
        · simp at h1
    | cons c cs => simp [traverse] at h
  | succ fuel ih =>
    cases stack with
    | nil =>
      simp only [traverse, Option.some.injEq] at h
      subst h
      refine ⟨fun x hx => Or.inl hx, ?_, ?_, id⟩
      · rintro x (hx | hx)
        · exact hx
        · simp at hx
      · intro hc x hx y hy
        rcases hc x hx y hy with h1 | h1
        · exact h1
        · simp at h1
    | cons cur stack =>
      rw [traverse] at h
      split at h
      · rename_i hcur
        obtain ⟨h1, h2, h3, h4⟩ := ih stack result h
        refine ⟨?_, ?_, ?_, h4⟩
        · intro x hx
          rcases h1 x hx with h5 | ⟨y, hy, hr⟩
          · exact Or.inl h5
          · exact Or.inr ⟨y, List.mem_cons_of_mem _ hy, hr⟩
        · rintro x (hx | hx)
          · exact h2 x (Or.inl hx)
          · rcases List.mem_cons.1 hx with rfl | hx
            · exact h2 x (Or.inl hcur)
            · exact h2 x (Or.inr hx)
        · intro hc
          apply h3
          intro x hx y hy
          rcases hc x hx y hy with h5 | h5
          · exact Or.inl h5
          · rcases List.mem_cons.1 h5 with rfl | h5
            · exact Or.inl hcur
            · exact Or.inr h5
      · rename_i hcur
        obtain ⟨h1, h2, h3, h4⟩ := ih _ _ h
        refine ⟨?_, ?_, ?_, fun hs => h4 (isSet_setInsert cur result hs)⟩
        · intro x hx
          rcases h1 x hx with h5 | ⟨y, hy, hr⟩
          · rcases (mem_setInsert cur x result).1 h5 with rfl | h5
            · exact Or.inr ⟨x, List.mem_cons_self _ _, Relation.ReflTransGen.refl⟩
            · exact Or.inl h5
          · rcases List.mem_append.1 hy with hy | hy
            · exact Or.inr ⟨cur, List.mem_cons_self _ _,
                Relation.ReflTransGen.head (hsound _ _ _ hy) hr⟩
            · exact Or.inr ⟨y, List.mem_cons_of_mem _ hy, hr⟩
        · rintro x (hx | hx)
          · exact h2 x (Or.inl ((mem_setInsert cur x result).2 (Or.inr hx)))
          · rcases List.mem_cons.1 hx with rfl | hx
            · exact h2 x (Or.inl ((mem_setInsert x x result).2 (Or.inl rfl)))
            · exact h2 x (Or.inr (List.mem_append.2 (Or.inr hx)))
        · intro hc
          apply h3
          intro x hx y hy
          rcases (mem_setInsert cur x result).1 hx with rfl | hx
          · rcases hcompl (setInsert x result) x y hy with h5 | h5
            · exact Or.inr (List.mem_append.2 (Or.inl h5))
            · exact Or.inl h5
          · rcases hc x hx y hy with h5 | h5
            · exact Or.inl ((mem_setInsert cur y result).2 (Or.inr h5))
            · rcases List.mem_cons.1 h5 with rfl | h5
              · exact Or.inl ((mem_setInsert y y result).2 (Or.inl rfl))
              · exact Or.inr (List.mem_append.2 (Or.inr h5))

/-- A traversal from a single state with an empty result returns exactly the
states reachable through `R`. -/
theorem traverse_start (R : Nat → Nat → Prop) (push : List Nat → Nat → List Nat)
    (hsound : ∀ r p x, x ∈ push r p → R p x)
    (hcompl : ∀ r p x, R p x → x ∈ push r p ∨ x ∈ r)
    (fuel : Nat) (s : Nat) (out : List Nat) (h : traverse push fuel [s] [] = some out) :
    IsSet out ∧ ∀ x, x ∈ out ↔ Relation.ReflTransGen R s x := by
  obtain ⟨h1, h2, h3, h4⟩ := traverse_spec R push hsound hcompl fuel [s] [] out h
  refine ⟨h4 isSet_nil, fun x => ⟨?_, ?_⟩⟩
  · intro hx
    rcases h1 x hx with h5 | ⟨y, hy, hr⟩
    · simp at h5
    · simp only [List.mem_singleton] at hy
      subst hy
      exact hr
  · intro hr
    have hclosed := h3 (fun x hx => by simp at hx)
    induction hr with
    | refl => exact h2 s (Or.inr (List.mem_singleton_self s))
    | tail _ hstep ih => exact hclosed _ ih _ hstep

theorem deref_append_left (l : List State) (a : List State) (i : Nat) (h : i < l.length) :
    deref (l ++ a) i = deref l i := by
  simp [deref, List.getD, List.getElem?_append_left h]

theorem sum_outDegree (states : List State) :
    ∑ i in Finset.range states.length, outDegree states i =
      (states.map (fun s => s.transitions.length)).sum := by
  induction states using List.reverseRecOn with
  | nil => simp
  | append_singleton l a ih =>
    rw [List.length_append, List.length_singleton, Finset.sum_range_succ, List.map_append,
      List.sum_append, ← ih]
    congr 1
    · apply Finset.sum_congr rfl
      intro i hi
      simp only [outDegree, deref_append_left l [a] i (Finset.mem_range.1 hi)]
    · simp [outDegree, deref, List.getD]

theorem traverseBound_start (states : List State) (s : Nat) :
    traverseBound states [s] [] = traversalFuel states := by
  simp [traverseBound, traversalFuel, sum_outDegree]
  omega

/-- The states pushed by `eClosure(State*)` for a state just inserted. -/
theorem pushEpsilonTargets_eq (ts : List Transition) (result stack : List Nat) :
    pushEpsilonTargets ts result stack = pushEpsilonTargets ts result [] ++ stack := by
  unfold pushEpsilonTargets
  induction ts generalizing stack with
  | nil => simp
  | cons t ts ih =>
    rw [List.foldl_cons, List.foldl_cons, ih]
    by_cases h : t.symbol = Epsilon ∧ t.target ∉ result
    · rw [if_pos h, if_pos h, ih [t.target]]
      simp
    · rw [if_neg h, if_neg h]

theorem mem_pushEpsilonTargets (ts : List Transition) (result : List Nat) (x : Nat) :
    x ∈ pushEpsilonTargets ts result [] ↔
      ∃ t ∈ ts, t.symbol = Epsilon ∧ t.target ∉ result ∧ t.target = x := by
  induction ts with
  | nil => simp [pushEpsilonTargets]
  | cons t ts ih =>
    have h1 : pushEpsilonTargets (t :: ts) result [] =
        pushEpsilonTargets ts result
          (if t.symbol = Epsilon ∧ t.target ∉ result then [t.target] else []) := by
      simp only [pushEpsilonTargets, List.foldl_cons]
    rw [h1, pushEpsilonTargets_eq, List.mem_append, ih]
    by_cases h : t.symbol = Epsilon ∧ t.target ∉ result
    · rw [if_pos h]
      constructor
      · rintro (⟨u, hu, h3⟩ | h2)
        · exact ⟨u, List.mem_cons_of_mem _ hu, h3⟩
        · exact ⟨t, List.mem_cons_self _ _, h.1, h.2, (List.mem_singleton.1 h2).symm⟩
      · rintro ⟨u, hu, h3, h4, h5⟩
        rcases List.mem_cons.1 hu with rfl | hu
        · exact Or.inr (List.mem_singleton.2 h5.symm)
        · exact Or.inl ⟨u, hu, h3, h4, h5⟩
    · rw [if_neg h]
      constructor
      · rintro (⟨u, hu, h3⟩ | h2)
        · exact ⟨u, List.mem_cons_of_mem _ hu, h3⟩
        · simp at h2
      · rintro ⟨u, hu, h3, h4, h5⟩
        rcases List.mem_cons.1 hu with rfl | hu
        · exact absurd ⟨h3, h4⟩ h
        · exact Or.inl ⟨u, hu, h3, h4, h5⟩

theorem length_pushEpsilonTargets (ts : List Transition) (result : List Nat) :
    (pushEpsilonTargets ts result []).length ≤ ts.length := by
  induction ts with
  | nil => simp [pushEpsilonTargets]
  | cons t ts ih =>
    have h1 : pushEpsilonTargets (t :: ts) result [] =
        pushEpsilonTargets ts result
          (if t.symbol = Epsilon ∧ t.target ∉ result then [t.target] else []) := by
      simp only [pushEpsilonTargets, List.foldl_cons]
    rw [h1, pushEpsilonTargets_eq, List.length_append]
    split <;> simp <;> omega

theorem eClosureLoop_eq_traverse (states : List State) (fuel : Nat) (stack result : List Nat) :
    eClosureLoop states fuel stack result =
      traverse (fun r p => pushEpsilonTargets (deref states p).transitions r []) fuel stack
        result := by
  induction fuel generalizing stack result with
  | zero => cases stack <;> simp [eClosureLoop, traverse]
  | succ fuel ih =>
    cases stack with
    | nil => simp [eClosureLoop, traverse]
    | cons cur stack =>
      rw [eClosureLoop, traverse, ih, ih, pushEpsilonTargets_eq]

/-- The loop of `eClosure(State*)` ends with the fuel of the model. -/
theorem eClosureLoop_terminates (states : List State) (state : Nat) :
    ∃ out, eClosureLoop states (traversalFuel states) [state] [] = some out := by
  rw [eClosureLoop_eq_traverse]
  apply traverse_terminates states
  · intro r p
    exact length_pushEpsilonTargets _ _
  · rw [traverseBound_start]

/-- The set `eClosure(state)` holds exactly the states reached from `state` by
`Epsilon` transitions. -/
theorem eClosure_spec (states : List State) (state : Nat) :
    IsSet (eClosure states state) ∧
      ∀ x, x ∈ eClosure states state ↔ EpsReach states state x := by
  obtain ⟨out, hout⟩ := eClosureLoop_terminates states state
  have h : eClosure states state = out := by simp [eClosure, hout]
  rw [h]
  rw [eClosureLoop_eq_traverse] at hout
  refine traverse_start (fun p q => Step states p Epsilon q) _ ?_ ?_ _ state out hout
  · intro r p x hx
    obtain ⟨t, ht, h1, -, h3⟩ := (mem_pushEpsilonTargets _ _ _).1 hx
    exact ⟨t, ht, h1, h3⟩
  · rintro r p x ⟨t, ht, h1, h3⟩
    by_cases hr : x ∈ r
    · exact Or.inr hr
    · exact Or.inl ((mem_pushEpsilonTargets _ _ _).2 ⟨t, ht, h1, h3 ▸ hr, h3⟩)

theorem isSet_eClosure (states : List State) (state : Nat) : IsSet (eClosure states state) :=
  (eClosure_spec states state).1

theorem mem_eClosure (states : List State) (state x : Nat) :
    x ∈ eClosure states state ↔ EpsReach states state x :=
  (eClosure_spec states state).2 x

theorem eClosureSet_spec (states : List State) (stateSet : List Nat) :
    IsSet (eClosureSet states stateSet) ∧
      ∀ x, x ∈ eClosureSet states stateSet ↔ ∃ p ∈ stateSet, EpsReach states p x := by
  unfold eClosureSet
  have key : ∀ (l init : List Nat), IsSet init →
      IsSet (l.foldl (fun result s => setUnion result (eClosure states s)) init) ∧
      ∀ x, x ∈ l.foldl (fun result s => setUnion result (eClosure states s)) init ↔
        x ∈ init ∨ ∃ p ∈ l, EpsReach states p x := by
    intro l
    induction l with
    | nil => intro init hi; simp [hi]
    | cons a l ih =>
      intro init hi
      rw [List.foldl_cons]
      obtain ⟨h1, h2⟩ := ih (setUnion init (eClosure states a)) (isSet_setUnion _ _ hi)
      refine ⟨h1, fun x => ?_⟩
      rw [h2, mem_setUnion, mem_eClosure]
      simp only [List.mem_cons, exists_eq_or_imp]
      tauto
  obtain ⟨h1, h2⟩ := key stateSet [] isSet_nil
  exact ⟨h1, fun x => by rw [h2]; simp⟩

theorem move_spec (states : List State) (stateSet : List Nat) (symbol : Char) :
    IsSet (move states stateSet symbol) ∧
      ∀ x, x ∈ move states stateSet symbol ↔ ∃ p ∈ stateSet, Step states p symbol x := by
  unfold move
  have inner : ∀ (ts : List Transition) (init : List Nat), IsSet init →
      IsSet (ts.foldl (fun r t => if t.symbol = symbol then setInsert t.target r else r) init) ∧
      ∀ x, x ∈ ts.foldl (fun r t => if t.symbol = symbol then setInsert t.target r else r) init ↔
        x ∈ init ∨ ∃ t ∈ ts, t.symbol = symbol ∧ t.target = x := by
    intro ts
    induction ts with
    | nil => intro init hi; simp [hi]
    | cons t ts ih =>
      intro init hi
      rw [List.foldl_cons]
      by_cases h : t.symbol = symbol
      · rw [if_pos h]
        obtain ⟨h1, h2⟩ := ih _ (isSet_setInsert t.target init hi)
        refine ⟨h1, fun x => ?_⟩
        rw [h2, mem_setInsert]
        simp only [List.mem_cons, exists_eq_or_imp]
        constructor
        · rintro ((h3 | h3) | h3)
          · exact Or.inr (Or.inl ⟨h, h3.symm⟩)
          · exact Or.inl h3
          · exact Or.inr (Or.inr h3)
        · rintro (h3 | ⟨-, h3⟩ | h3)
          · exact Or.inl (Or.inr h3)
          · exact Or.inl (Or.inl h3.symm)
          · exact Or.inr h3
      · rw [if_neg h]
        obtain ⟨h1, h2⟩ := ih _ hi
        refine ⟨h1, fun x => ?_⟩
        rw [h2]
        simp only [List.mem_cons, exists_eq_or_imp]
        constructor
        · rintro (h3 | h3)
          · exact Or.inl h3
          · exact Or.inr (Or.inr h3)
        · rintro (h3 | ⟨h4, -⟩ | h3)
          · exact Or.inl h3
          · exact absurd h4 h
          · exact Or.inr h3
  have key : ∀ (l init : List Nat), IsSet init →
      IsSet (l.foldl (fun result s => (deref states s).transitions.foldl
        (fun r t => if t.symbol = symbol then setInsert t.target r else r) result) init) ∧
      ∀ x, x ∈ l.foldl (fun result s => (deref states s).transitions.foldl
        (fun r t => if t.symbol = symbol then setInsert t.target r else r) result) init ↔
        x ∈ init ∨ ∃ p ∈ l, Step states p symbol x := by
    intro l
    induction l with
    | nil => intro init hi; simp [hi]
    | cons a l ih =>
      intro init hi
      rw [List.foldl_cons]
      obtain ⟨i1, i2⟩ := inner (deref states a).transitions init hi
      obtain ⟨h1, h2⟩ := ih _ i1
      refine ⟨h1, fun x => ?_⟩
      rw [h2, i2]
      constructor
      · rintro ((h3 | h3) | ⟨p, hp, h3⟩)
        · exact Or.inl h3
        · exact Or.inr ⟨a, List.mem_cons_self _ _, h3⟩
        · exact Or.inr ⟨p, List.mem_cons_of_mem _ hp, h3⟩
      · rintro (h3 | ⟨p, hp, h3⟩)
        · exact Or.inl (Or.inl h3)
        · rcases List.mem_cons.1 hp with rfl | hp
          · exact Or.inl (Or.inr h3)
          · exact Or.inr ⟨p, hp, h3⟩
  obtain ⟨h1, h2⟩ := key stateSet [] isSet_nil
  exact ⟨h1, fun x => by rw [h2]; simp⟩

theorem collectLoop_eq_traverse (states : List State) (fuel : Nat) (stack acc : List Nat) :
    collectLoop states fuel stack acc =
      traverse (fun _ p => (deref states p).transitions.foldl (fun st t => t.target :: st) [])
        fuel stack acc := by
  have hpush : ∀ (ts : List Transition) (st : List Nat),
      ts.foldl (fun st t => t.target :: st) st =
        ts.foldl (fun st t => t.target :: st) [] ++ st := by
    intro ts
    induction ts with
    | nil => intro st; rfl
    | cons t ts ih =>
      intro st
      rw [List.foldl_cons, List.foldl_cons, ih, ih [t.target]]
      simp
  induction fuel generalizing stack acc with
  | zero => cases stack <;> simp [collectLoop, traverse]
  | succ fuel ih =>
    cases stack with
    | nil => simp [collectLoop, traverse]
    | cons cur stack =>
      rw [collectLoop, traverse, ih, ih, hpush]
      by_cases h : cur ∈ acc
      · simp [h]
      · simp [h]

theorem mem_foldl_targets (ts : List Transition) (x : Nat) :
    x ∈ ts.foldl (fun st t => t.target :: st) [] ↔ ∃ t ∈ ts, t.target = x := by
  have key : ∀ (ts : List Transition) (st : List Nat),
      x ∈ ts.foldl (fun st t => t.target :: st) st ↔ x ∈ st ∨ ∃ t ∈ ts, t.target = x := by
    intro ts
    induction ts with
    | nil => intro st; simp
    | cons t ts ih =>
      intro st
      rw [List.foldl_cons, ih]
      constructor
      · rintro (h | ⟨u, hu, h⟩)
        · rcases List.mem_cons.1 h with rfl | h
          · exact Or.inr ⟨t, List.mem_cons_self _ _, rfl⟩
          · exact Or.inl h
        · exact Or.inr ⟨u, List.mem_cons_of_mem _ hu, h⟩
      · rintro (h | ⟨u, hu, h⟩)
        · exact Or.inl (List.mem_cons_of_mem _ h)
        · rcases List.mem_cons.1 hu with rfl | hu
          · exact Or.inl (h ▸ List.mem_cons_self _ _)
          · exact Or.inr ⟨u, hu, h⟩
  rw [key]
  simp

theorem length_foldl_targets (ts : List Transition) :
    (ts.foldl (fun st t => t.target :: st) []).length = ts.length := by
  have key : ∀ (ts : List Transition) (st : List Nat),
      (ts.foldl (fun st t => t.target :: st) st).length = st.length + ts.length := by
    intro ts
    induction ts with
    | nil => intro st; rfl
    | cons t ts ih =>
      intro st
      rw [List.foldl_cons, ih]
      simp
      omega
  rw [key]
  simp

/-- The loop of `collectStatesFromNFA` ends with the fuel of the model, and the
set returned holds exactly the states reached from `nfa.start`. -/
theorem collectStatesFromNFA_spec (states : List State) (nfa : NFA) :
    (∃ out, collectLoop states (traversalFuel states) [nfa.start] [] = some out) ∧
    IsSet (collectStatesFromNFA states nfa) ∧
      ∀ x, x ∈ collectStatesFromNFA states nfa ↔ Reach states nfa.start x := by
  have hterm : ∃ out, collectLoop states (traversalFuel states) [nfa.start] [] = some out := by
    rw [collectLoop_eq_traverse]
    apply traverse_terminates states
    · intro r p
      rw [length_foldl_targets]
      exact le_refl _
    · rw [traverseBound_start]
  refine ⟨hterm, ?_⟩
  obtain ⟨out, hout⟩ := hterm
  have h : collectStatesFromNFA states nfa = out := by simp [collectStatesFromNFA, hout]
  rw [h]
  rw [collectLoop_eq_traverse] at hout
  refine traverse_start (fun p q => ∃ c, Step states p c q) _ ?_ ?_ _ nfa.start out hout
  · intro r p x hx
    obtain ⟨t, ht, h1⟩ := (mem_foldl_targets _ _).1 hx
    exact ⟨t.symbol, t, ht, rfl, h1⟩
  · rintro r p x ⟨c, t, ht, -, h3⟩
    exact Or.inl ((mem_foldl_targets _ _).2 ⟨t, ht, h3⟩)

/-! ## The simulation of the NFA -/

theorem mem_nextSet (states : List State) (S : List Nat) (c : Char) (x : Nat) :
    x ∈ nextSet states S c ↔ ∃ p ∈ S, ∃ p1, Step states p c p1 ∧ EpsReach states p1 x := by
  unfold nextSet
  rw [(eClosureSet_spec states _).2]
  constructor
  · rintro ⟨p1, h1, h2⟩
    obtain ⟨p, hp, h3⟩ := ((move_spec states S c).2 p1).1 h1
    exact ⟨p, hp, p1, h3, h2⟩
  · rintro ⟨p, hp, p1, h3, h2⟩
    exact ⟨p1, ((move_spec states S c).2 p1).2 ⟨p, hp, h3⟩, h2⟩

theorem isSet_nextSet (states : List State) (S : List Nat) (c : Char) :
    IsSet (nextSet states S c) :=
  (eClosureSet_spec states _).1

theorem nextSet_nil (states : List State) (c : Char) : nextSet states [] c = [] := by
  simp [nextSet, move, eClosureSet]

theorem foldl_nextSet_nil (states : List State) (w : List Char) :
    w.foldl (fun cur c => nextSet states cur c) [] = [] := by
  induction w with
  | nil => rfl
  | cons c w ih => rw [List.foldl_cons, nextSet_nil, ih]

/-- The states of the simulation after reading `w` from the set `S`. -/
theorem mem_foldl_nextSet (states : List State) (w : List Char) (S : List Nat) (x : Nat) :
    x ∈ w.foldl (fun cur c => nextSet states cur c) S ↔ ∃ p ∈ S, Reads states p w x := by
  induction w generalizing S with
  | nil =>
    constructor
    · intro h
      exact ⟨x, h, Reads.nil x⟩
    · rintro ⟨p, hp, hr⟩
      cases hr
      exact hp
  | cons c w ih =>
    rw [List.foldl_cons, ih]
    constructor
    · rintro ⟨p2, hp2, hr⟩
      obtain ⟨p, hp, p1, h1, h2⟩ := (mem_nextSet states S c p2).1 hp2
      exact ⟨p, hp, Reads.cons h1 h2 hr⟩
    · rintro ⟨p, hp, hr⟩
      cases hr with
      | cons h1 h2 h3 => exact ⟨_, (mem_nextSet states S c _).2 ⟨p, hp, _, h1, h2⟩, h3⟩

theorem nfaRun_eq (states : List State) (start : Nat) (w : List Char) :
    nfaRun states start w = w.foldl (fun cur c => nextSet states cur c) (eClosure states start) :=
  rfl

theorem Path.of_epsReach {states : List State} {a b q : Nat} {w : List Char}
    (h : EpsReach states a b) (hp : Path states b w q) : Path states a w q := by
  induction h using Relation.ReflTransGen.head_induction_on with
  | refl => exact hp
  | head hstep _ ih =>
    have := Path.step hstep ih
    simpa [symWord] using this

theorem Path.of_reads {states : List State} {p q : Nat} {w : List Char}
    (hw : Epsilon ∉ w) (h : Reads states p w q) : Path states p w q := by
  induction h with
  | nil p => exact Path.refl p
  | @cons p p1 p2 q c w h1 h2 _ ih =>
    have hc : c ≠ Epsilon := fun hc => hw (hc ▸ List.mem_cons_self _ _)
    have hw1 : Epsilon ∉ w := fun h => hw (List.mem_cons_of_mem _ h)
    have := Path.step h1 (Path.of_epsReach h2 (ih hw1))
    simpa [symWord, hc] using this

theorem Path.to_reads {states : List State} {s q : Nat} {w : List Char}
    (h : Path states s w q) : ∃ p, EpsReach states s p ∧ Reads states p w q := by
  induction h with
  | refl p => exact ⟨p, Relation.ReflTransGen.refl, Reads.nil p⟩
  | @step p q r c w h1 _ ih =>
    obtain ⟨p1, h2, h3⟩ := ih
    by_cases hc : c = Epsilon
    · subst hc
      exact ⟨p1, Relation.ReflTransGen.head h1 h2, by simpa [symWord] using h3⟩
    · exact ⟨p, Relation.ReflTransGen.refl, by simpa [symWord, hc] using Reads.cons h1 h2 h3⟩

/-- The simulation with `eClosure` and `move` accepts a word without the
`Epsilon` marker exactly when a path spelling it leads from the start state to
an accepting state. -/
theorem nfaAccepts_iff_path (states : List State) (start : Nat) (w : List Char)
    (hw : Epsilon ∉ w) :
    nfaAccepts states start w = true ↔
      ∃ q, Path states start w q ∧ (deref states q).isFinal = true := by
  unfold nfaAccepts
  rw [List.any_eq_true]
  constructor
  · rintro ⟨q, hq, hf⟩
    rw [nfaRun_eq, mem_foldl_nextSet] at hq
    obtain ⟨p, hp, hr⟩ := hq
    exact ⟨q, Path.of_epsReach ((mem_eClosure states start p).1 hp) (Path.of_reads hw hr), hf⟩
  · rintro ⟨q, hq, hf⟩
    obtain ⟨p, h1, h2⟩ := hq.to_reads
    refine ⟨q, ?_, hf⟩
    rw [nfaRun_eq, mem_foldl_nextSet]
    exact ⟨p, (mem_eClosure states start p).2 h1, h2⟩

end Thompson

namespace Thompson

/-! ## Subset construction -/

theorem lookup_cons_ite {α β : Type} [BEq α] [LawfulBEq α] [DecidableEq α] (a k : α) (b : β)
    (es : List (α × β)) :
    List.lookup a ((k, b) :: es) = if a = k then some b else List.lookup a es := by
  rw [List.lookup_cons]
  by_cases h : a = k
  · simp [h]
  · have : (a == k) = false := by simpa using h
    simp [this, h]

theorem lookup_mapAssign (k : Char) (v : Nat) (m : List (Char × Nat)) (k1 : Char) :
    (mapAssign k v m).lookup k1 = if k1 = k then some v else m.lookup k1 := by
  induction m with
  | nil => simp [mapAssign, lookup_cons_ite]
  | cons e m ih =>
    obtain ⟨k2, v2⟩ := e
    rw [mapAssign]
    split
    · simp only [lookup_cons_ite]
    · split
      · rename_i h2
        subst h2
        simp only [lookup_cons_ite]
        split <;> rfl
      · rename_i h1 h2
        simp only [lookup_cons_ite, ih]
        by_cases h : k1 = k
        · have h3 : ¬ k1 = k2 := fun h3 => h2 (h ▸ h3)
          simp [h, h3]
          intro h4
          exact absurd h4 h2
        · simp [h]

theorem getElem?_snoc {α : Type} (l : List α) (a x : α) (i : Nat) :
    (l ++ [a])[i]? = some x ↔ l[i]? = some x ∨ (i = l.length ∧ x = a) := by
  by_cases h : i < l.length
  · rw [List.getElem?_append_left h]
    constructor
    · exact Or.inl
    · rintro (h1 | ⟨h1, -⟩)
      · exact h1
      · omega
  · rw [List.getElem?_append_right (by omega), List.getElem?_eq_none (l := l) (by omega)]
    by_cases h2 : i = l.length
    · subst h2
      simp [eq_comm]
    · have : i - l.length ≠ 0 := by omega
      obtain ⟨k, hk⟩ := Nat.exists_eq_succ_of_ne_zero this
      rw [hk]
      simp [h2]

theorem getElem?_set_iff {α : Type} (l : List α) (a x : α) (i j : Nat) (hi : i < l.length) :
    (l.set i a)[j]? = some x ↔ (j = i ∧ x = a) ∨ (j ≠ i ∧ l[j]? = some x) := by
  rw [List.getElem?_set]
  by_cases h : i = j
  · subst h
    simp [hi, eq_comm]
  · simp [h, Ne.symm h]

theorem lt_length_of_getElem? {α : Type} {l : List α} {i : Nat} {x : α} (h : l[i]? = some x) :
    i < l.length := by
  obtain ⟨h1, -⟩ := List.getElem?_eq_some.1 h
  exact h1

theorem char_toNat_injective {a b : Char} (h : a.toNat = b.toNat) : a = b := by
  rw [← Char.ofNat_toNat a, ← Char.ofNat_toNat b, h]

theorem mapAssign_keys (k : Char) (v : Nat) (m : List (Char × Nat)) :
    ∀ x ∈ (mapAssign k v m).map (fun tr => tr.1.toNat),
      x = k.toNat ∨ x ∈ m.map (fun tr => tr.1.toNat) := by
  induction m with
  | nil => simp [mapAssign]
  | cons kv m ih =>
    obtain ⟨k1, v1⟩ := kv
    rw [mapAssign]
    split
    · intro x hx
      simp only [List.map_cons, List.mem_cons] at hx ⊢
      tauto
    · split
      · intro x hx
        simp only [List.map_cons, List.mem_cons] at hx ⊢
        tauto
      · intro x hx
        simp only [List.map_cons, List.mem_cons] at hx ⊢
        rcases hx with hx | hx
        · exact Or.inr (Or.inl hx)
        · rcases ih x hx with h | h
          · exact Or.inl h
          · exact Or.inr (Or.inr h)

/-- The assignment `transitions[symbol] = target` keeps the map sorted by
symbol. -/
theorem mapAssign_sorted (k : Char) (v : Nat) (m : List (Char × Nat))
    (h : (m.map (fun tr => tr.1.toNat)).Sorted (fun a b => a < b)) :
    ((mapAssign k v m).map (fun tr => tr.1.toNat)).Sorted (fun a b => a < b) := by
  unfold List.Sorted at h ⊢
  induction m with
  | nil => simp [mapAssign]
  | cons kv m ih =>
    obtain ⟨k1, v1⟩ := kv
    rw [List.map_cons, List.pairwise_cons] at h
    rw [mapAssign]
    split
    · rename_i hlt
      rw [List.map_cons, List.pairwise_cons]
      refine ⟨?_, by rw [List.map_cons, List.pairwise_cons]; exact h⟩
      intro b hb
      rcases List.mem_cons.1 hb with rfl | hb
      · exact hlt
      · exact lt_trans hlt (h.1 b hb)
    · split
      · rename_i he
        subst he
        rw [List.map_cons, List.pairwise_cons]
        exact h
      · rename_i hnlt hne
        rw [List.map_cons, List.pairwise_cons]
        refine ⟨?_, ih h.2⟩
        intro b hb
        rcases mapAssign_keys k v m b hb with rfl | hb
        · have : k.toNat ≠ k1.toNat := fun e => hne (char_toNat_injective e)
          show k1.toNat < k.toNat
          omega
        · exact h.1 b hb

/-- The tables after `getOrCreateDFAState` for a set that is not a key yet. -/
theorem tablesOk_create (states : List State) (start : Nat) (t : DFATables) (S : List Nat)
    (ht : TablesOk states start t) (hnone : t.stateMap.lookup S = none) (hne : S ≠ [])
    (hset : IsSet S) (hreach : ∀ x ∈ S, Reach states start x)
    (hclosed : ∀ x ∈ S, ∀ y, EpsReach states x y → y ∈ S) :
    TablesOk states start
      ⟨t.dfaStates ++ [⟨t.dfaStates.length,
          S.any (fun s => (deref states s).isFinal), S, []⟩],
        t.stateMap ++ [(S, t.dfaStates.length)]⟩ := by
  constructor
  · intro S1 i h
    rw [List.lookup_append] at h
    cases h1 : t.stateMap.lookup S1 with
    | some i0 =>
      rw [h1] at h
      simp only [Option.or_some, Option.some.injEq] at h
      subst h
      obtain ⟨d, hd, hS⟩ := ht.mapSound S1 i0 h1
      exact ⟨d, (getElem?_snoc _ _ _ _).2 (Or.inl hd), hS⟩
    | none =>
      rw [h1, Option.none_or, lookup_cons_ite] at h
      by_cases h2 : S1 = S
      · subst h2
        rw [if_pos rfl] at h
        injection h with h
        subst h
        exact ⟨_, (getElem?_snoc _ _ _ _).2 (Or.inr ⟨rfl, rfl⟩), rfl⟩
      · rw [if_neg h2] at h
        simp at h
  · intro i d h
    rw [List.lookup_append]
    rcases (getElem?_snoc _ _ _ _).1 h with h1 | ⟨h1, h2⟩
    · rw [ht.mapComplete i d h1]
      rfl
    · subst h1 h2
      simp [hnone, lookup_cons_ite]
  · intro i d h
    rcases (getElem?_snoc _ _ _ _).1 h with h1 | ⟨h1, h2⟩
    · exact ht.final i d h1
    · subst h2
      rfl
  · intro i d c j h hl
    rcases (getElem?_snoc _ _ _ _).1 h with h1 | ⟨h1, h2⟩
    · obtain ⟨d1, hd1, hS⟩ := ht.trans i d c j h1 hl
      exact ⟨d1, (getElem?_snoc _ _ _ _).2 (Or.inl hd1), hS⟩
    · subst h2
      simp at hl
  · intro i d h
    rcases (getElem?_snoc _ _ _ _).1 h with h1 | ⟨h1, h2⟩
    · exact ht.nonempty i d h1
    · subst h2
      exact hne
  · intro i d h
    rcases (getElem?_snoc _ _ _ _).1 h with h1 | ⟨h1, h2⟩
    · exact ht.reach i d h1
    · subst h2
      exact ⟨hset, hreach⟩
  · intro i d h
    rcases (getElem?_snoc _ _ _ _).1 h with h1 | ⟨h1, h2⟩
    · exact ht.ids i d h1
    · subst h2
      exact h1.symm
  · intro i d h
    rcases (getElem?_snoc _ _ _ _).1 h with h1 | ⟨h1, h2⟩
    · exact ht.closed i d h1
    · subst h2
      exact hclosed
  · intro i d h
    rcases (getElem?_snoc _ _ _ _).1 h with h1 | ⟨h1, h2⟩
    · exact ht.sorted i d h1
    · subst h2
      exact List.sorted_nil

/-- The tables after the assignment of a transition to the state for the next
set. -/
theorem tablesOk_setTransition (states : List State) (start : Nat) (t : DFATables)
    (cur j : Nat) (c : Char) (d dj : DFAState) (ht : TablesOk states start t)
    (hd : t.dfaStates[cur]? = some d) (hdj : t.dfaStates[j]? = some dj)
    (hj : dj.nfaStates = nextSet states d.nfaStates c) :
    TablesOk states start
      ⟨t.dfaStates.set cur { d with transitions := mapAssign c j d.transitions },
        t.stateMap⟩ := by
  have hcur : cur < t.dfaStates.length := lt_length_of_getElem? hd
  have keep : ∀ (i : Nat) (X : List Nat), (∃ d1 : DFAState, t.dfaStates[i]? = some d1 ∧ d1.nfaStates = X) →
      ∃ d1 : DFAState, (t.dfaStates.set cur
        { d with transitions := mapAssign c j d.transitions })[i]? = some d1 ∧
        d1.nfaStates = X := by
    rintro i X ⟨d1, h1, h2⟩
    by_cases hi : i = cur
    · subst hi
      rw [hd] at h1
      injection h1 with h1
      subst h1
      exact ⟨_, (getElem?_set_iff _ _ _ _ _ hcur).2 (Or.inl ⟨rfl, rfl⟩), h2⟩
    · exact ⟨d1, (getElem?_set_iff _ _ _ _ _ hcur).2 (Or.inr ⟨hi, h1⟩), h2⟩
  constructor
  · intro S i h
    exact keep i S (ht.mapSound S i h)
  · intro i x h
    rcases (getElem?_set_iff _ _ _ _ _ hcur).1 h with ⟨h1, h2⟩ | ⟨-, h2⟩
    · subst h1 h2
      exact ht.mapComplete _ d hd
    · exact ht.mapComplete i x h2
  · intro i x h
    rcases (getElem?_set_iff _ _ _ _ _ hcur).1 h with ⟨h1, h2⟩ | ⟨-, h2⟩
    · subst h1 h2
      exact ht.final _ d hd
    · exact ht.final i x h2
  · intro i x c1 j1 h hl
    rcases (getElem?_set_iff _ _ _ _ _ hcur).1 h with ⟨h1, h2⟩ | ⟨-, h2⟩
    · subst h1 h2
      simp only [lookup_mapAssign] at hl
      by_cases hc : c1 = c
      · subst hc
        simp only [if_true, Option.some.injEq] at hl
        subst hl
        exact keep _ _ ⟨dj, hdj, hj⟩
      · simp only [hc, if_false] at hl
        exact keep _ _ (ht.trans _ d c1 j1 hd hl)
    · exact keep _ _ (ht.trans i x c1 j1 h2 hl)
  · intro i x h
    rcases (getElem?_set_iff _ _ _ _ _ hcur).1 h with ⟨h1, h2⟩ | ⟨-, h2⟩
    · subst h1 h2
      exact ht.nonempty _ d hd
    · exact ht.nonempty i x h2
  · intro i x h
    rcases (getElem?_set_iff _ _ _ _ _ hcur).1 h with ⟨h1, h2⟩ | ⟨-, h2⟩
    · subst h1 h2
      exact ht.reach _ d hd
    · exact ht.reach i x h2
  · intro i x h
    rcases (getElem?_set_iff _ _ _ _ _ hcur).1 h with ⟨h1, h2⟩ | ⟨-, h2⟩
    · subst h1 h2
      exact ht.ids _ d hd
    · exact ht.ids i x h2
  · intro i x h
    rcases (getElem?_set_iff _ _ _ _ _ hcur).1 h with ⟨h1, h2⟩ | ⟨-, h2⟩
    · subst h1 h2
      exact ht.closed _ d hd
    · exact ht.closed i x h2
  · intro i x h
    rcases (getElem?_set_iff _ _ _ _ _ hcur).1 h with ⟨h1, h2⟩ | ⟨-, h2⟩
    · subst h1 h2
      exact mapAssign_sorted c j d.transitions (ht.sorted _ d hd)
    · exact ht.sorted i x h2

theorem Extends.refl (t : DFATables) : Extends t t :=
  fun _ d h => ⟨d, h, rfl, fun _ hc => hc⟩

theorem Extends.trans {t t1 t2 : DFATables} (h1 : Extends t t1) (h2 : Extends t1 t2) :
    Extends t t2 := by
  intro i d h
  obtain ⟨d1, hd1, hS1, hl1⟩ := h1 i d h
  obtain ⟨d2, hd2, hS2, hl2⟩ := h2 i d1 hd1
  exact ⟨d2, hd2, hS2.trans hS1, fun c hc => hl2 c (hl1 c hc)⟩

theorem reach_of_epsReach {states : List State} {a b : Nat} (h : EpsReach states a b) :
    Reach states a b := by
  induction h with
  | refl => exact Relation.ReflTransGen.refl
  | tail _ hstep ih => exact Relation.ReflTransGen.tail ih ⟨Epsilon, hstep⟩

theorem closed_nextSet (states : List State) (S : List Nat) (c : Char) :
    ∀ x ∈ nextSet states S c, ∀ y, EpsReach states x y → y ∈ nextSet states S c := by
  intro x hx y hy
  obtain ⟨p, hp, p1, h1, h2⟩ := (mem_nextSet states S c x).1 hx
  exact (mem_nextSet states S c y).2 ⟨p, hp, p1, h1, h2.trans hy⟩

theorem reach_nextSet (states : List State) (start : Nat) (S : List Nat) (c : Char)
    (h : ∀ x ∈ S, Reach states start x) : ∀ x ∈ nextSet states S c, Reach states start x := by
  intro x hx
  obtain ⟨p, hp, p1, h1, h2⟩ := (mem_nextSet states S c x).1 hx
  exact ((h p hp).tail ⟨c, h1⟩).trans (reach_of_epsReach h2)

/-- The assignment `currentDFAState->transitions[symbol] = dfaStates[nextStateId]` when
both states exist. -/
theorem setDFATransition_spec (states : List State) (start : Nat) (t : DFATables)
    (cur j : Nat) (c : Char) (d dj : DFAState) (ht : TablesOk states start t)
    (hd : t.dfaStates[cur]? = some d) (hdj : t.dfaStates[j]? = some dj)
    (hj : dj.nfaStates = nextSet states d.nfaStates c) :
    ∃ t1 d1, setDFATransition t cur c j = some t1 ∧ TablesOk states start t1 ∧
      t1.stateMap = t.stateMap ∧ t1.dfaStates.length = t.dfaStates.length ∧
      t1.dfaStates[cur]? = some d1 ∧ d1.nfaStates = d.nfaStates ∧
      (d1.transitions.lookup c).isSome = true ∧
      (∀ c1, (d.transitions.lookup c1).isSome = true → (d1.transitions.lookup c1).isSome = true) ∧
      (∀ i x, i ≠ cur → (t1.dfaStates[i]? = some x ↔ t.dfaStates[i]? = some x)) := by
  have hcur : cur < t.dfaStates.length := lt_length_of_getElem? hd
  have hjlt : j < t.dfaStates.length := lt_length_of_getElem? hdj
  refine ⟨⟨t.dfaStates.set cur { d with transitions := mapAssign c j d.transitions },
      t.stateMap⟩, { d with transitions := mapAssign c j d.transitions }, ?_,
    tablesOk_setTransition states start t cur j c d dj ht hd hdj hj, rfl, by simp,
    (getElem?_set_iff _ _ _ _ _ hcur).2 (Or.inl ⟨rfl, rfl⟩), rfl, ?_, ?_, ?_⟩
  · simp only [setDFATransition, hd, hjlt, if_true]
  · simp [lookup_mapAssign]
  · intro c1 h1
    simp only [lookup_mapAssign]
    split
    · rfl
    · exact h1
  · intro i x hi
    rw [getElem?_set_iff _ _ _ _ _ hcur]
    constructor
    · rintro (⟨h1, -⟩ | ⟨-, h1⟩)
      · exact absurd h1 hi
      · exact h1
    · intro h1
      exact Or.inr ⟨hi, h1⟩

/-- The effect of one pass of the loop over `inputSymbols`. -/
theorem symbolStep_spec (states : List State) (start : Nat) (syms : List Char) (t : DFATables)
    (queue : List (List Nat)) (cur : Nat) (d : DFAState) (c : Char)
    (ht : TablesOk states start t) (hd : t.dfaStates[cur]? = some d)
    (hc : Complete states syms t (d.nfaStates :: queue)) (hq : Queued t queue) :
    ∃ queue1 t1 d1, symbolStep states d.nfaStates cur (queue, t) c = some (queue1, t1) ∧
      TablesOk states start t1 ∧ t1.dfaStates[cur]? = some d1 ∧ d1.nfaStates = d.nfaStates ∧
      Complete states syms t1 (d.nfaStates :: queue1) ∧ Queued t1 queue1 ∧ Extends t t1 ∧
      queue1.length + t.dfaStates.length = queue.length + t1.dfaStates.length ∧
      (nextSet states d.nfaStates c ≠ [] → (d1.transitions.lookup c).isSome = true) := by
  have hcur : cur < t.dfaStates.length := lt_length_of_getElem? hd
  by_cases hne : nextSet states d.nfaStates c = []
  · refine ⟨queue, t, d, ?_, ht, hd, rfl, hc, hq, Extends.refl t, rfl, fun h => absurd hne h⟩
    have : eClosureSet states (move states d.nfaStates c) = [] := hne
    simp only [symbolStep, this, ne_eq, not_true_eq_false, if_false]
  · have hne1 : eClosureSet states (move states d.nfaStates c) ≠ [] := hne
    have hset := isSet_nextSet states d.nfaStates c
    have hreach := reach_nextSet states start d.nfaStates c (ht.reach cur d hd).2
    cases hl : t.stateMap.lookup (nextSet states d.nfaStates c) with
    | none =>
      have hl1 : t.stateMap.lookup (eClosureSet states (move states d.nfaStates c)) = none := hl
      have htn := tablesOk_create states start t _ ht hl hne hset hreach
        (closed_nextSet states d.nfaStates c)
      have hdn := (getElem?_snoc t.dfaStates
        ⟨t.dfaStates.length, (nextSet states d.nfaStates c).any
          (fun s => (deref states s).isFinal), nextSet states d.nfaStates c, []⟩
        d cur).2 (Or.inl hd)
      have hdj := (getElem?_snoc t.dfaStates
        ⟨t.dfaStates.length, (nextSet states d.nfaStates c).any
          (fun s => (deref states s).isFinal), nextSet states d.nfaStates c, []⟩
        _ t.dfaStates.length).2 (Or.inr ⟨rfl, rfl⟩)
      obtain ⟨t1, d1, h1, h2, h3, h4, h5, h6, h7, h8, h9⟩ :=
        setDFATransition_spec states start _ cur t.dfaStates.length c d _ htn hdn hdj rfl
      refine ⟨queue ++ [nextSet states d.nfaStates c], t1, d1, ?_, h2, h5, h6, ?_, ?_, ?_, ?_,
        fun _ => h7⟩
      · simp only [symbolStep, hne1, ne_eq, not_false_eq_true, if_true, getOrCreateDFAState, hl1]
        have h1a : setDFATransition
            ⟨t.dfaStates ++ [⟨t.dfaStates.length,
              (eClosureSet states (move states d.nfaStates c)).any
                (fun s => (deref states s).isFinal),
              eClosureSet states (move states d.nfaStates c), []⟩],
              t.stateMap ++ [(eClosureSet states (move states d.nfaStates c),
                t.dfaStates.length)]⟩ cur c t.dfaStates.length = some t1 := h1
        rw [h1a]
        rfl
      · intro i x hx hp c1 hc1 hn1
        by_cases hi : i = cur
        · subst hi
          rw [h5] at hx
          injection hx with hx
          subst hx
          exact absurd (h6 ▸ List.mem_cons_self _ _) hp
        · have hx1 := (h9 i x hi).1 hx
          rcases (getElem?_snoc _ _ _ _).1 hx1 with h10 | ⟨-, h10⟩
          · apply hc i x h10 _ c1 hc1 hn1
            intro hm
            apply hp
            rcases List.mem_cons.1 hm with hm | hm
            · exact hm ▸ List.mem_cons_self _ _
            · exact List.mem_cons_of_mem _ (List.mem_append.2 (Or.inl hm))
          · subst h10
            exact absurd (List.mem_cons_of_mem _ (List.mem_append.2
              (Or.inr (List.mem_singleton_self _)))) hp
      · intro S hS
        rw [h3]
        show ((t.stateMap ++ [(nextSet states d.nfaStates c, t.dfaStates.length)]).lookup S).isSome
          = true
        rw [List.lookup_append]
        rcases List.mem_append.1 hS with hS | hS
        · have := hq S hS
          cases h11 : t.stateMap.lookup S with
          | none => rw [h11] at this; simp at this
          | some v => rfl
        · rw [List.mem_singleton.1 hS, hl]
          simp [lookup_cons_ite]
      · intro i x hx
        have hx1 := (getElem?_snoc t.dfaStates
          ⟨t.dfaStates.length, (nextSet states d.nfaStates c).any
            (fun s => (deref states s).isFinal), nextSet states d.nfaStates c, []⟩
          x i).2 (Or.inl hx)
        by_cases hi : i = cur
        · subst hi
          rw [hd] at hx
          injection hx with hx
          subst hx
          exact ⟨d1, h5, h6, h8⟩
        · exact ⟨x, (h9 i x hi).2 hx1, rfl, fun _ h => h⟩
      · rw [h4]
        simp
        omega
    | some j =>
      have hl1 : t.stateMap.lookup (eClosureSet states (move states d.nfaStates c)) = some j := hl
      obtain ⟨dj, hdj, hj⟩ := ht.mapSound _ j hl
      obtain ⟨t1, d1, h1, h2, h3, h4, h5, h6, h7, h8, h9⟩ :=
        setDFATransition_spec states start t cur j c d dj ht hd hdj hj
      refine ⟨queue, t1, d1, ?_, h2, h5, h6, ?_, ?_, ?_, by rw [h4], fun _ => h7⟩
      · simp only [symbolStep, hne1, ne_eq, not_false_eq_true, if_true, getOrCreateDFAState, hl1,
          h1]
        simp
      · intro i x hx hp c1 hc1 hn1
        by_cases hi : i = cur
        · subst hi
          rw [h5] at hx
          injection hx with hx
          subst hx
          exact absurd (h6 ▸ List.mem_cons_self _ _) hp
        · exact hc i x ((h9 i x hi).1 hx) hp c1 hc1 hn1
      · intro S hS
        rw [h3]
        exact hq S hS
      · intro i x hx
        by_cases hi : i = cur
        · subst hi
          rw [hd] at hx
          injection hx with hx
          subst hx
          exact ⟨d1, h5, h6, h8⟩
        · exact ⟨x, (h9 i x hi).2 hx, rfl, fun _ h => h⟩

theorem tablesOk_index_eq (states : List State) (start : Nat) (t : DFATables)
    (ht : TablesOk states start t) (i j : Nat) (x y : DFAState) (hx : t.dfaStates[i]? = some x)
    (hy : t.dfaStates[j]? = some y) (h : x.nfaStates = y.nfaStates) : i = j := by
  have h1 := ht.mapComplete i x hx
  have h2 := ht.mapComplete j y hy
  rw [h, h2] at h1
  injection h1 with h1
  exact h1.symm

/-- The effect of the loop over `inputSymbols` for the DFA state `cur`. -/
theorem symbolsLoop_spec (states : List State) (start : Nat) (syms : List Char) (cs : List Char)
    (t : DFATables) (queue : List (List Nat)) (cur : Nat) (d : DFAState)
    (ht : TablesOk states start t) (hd : t.dfaStates[cur]? = some d)
    (hc : Complete states syms t (d.nfaStates :: queue)) (hq : Queued t queue) :
    ∃ queue1 t1 d1, symbolsLoop states d.nfaStates cur cs (queue, t) = some (queue1, t1) ∧
      TablesOk states start t1 ∧ t1.dfaStates[cur]? = some d1 ∧ d1.nfaStates = d.nfaStates ∧
      Complete states syms t1 (d.nfaStates :: queue1) ∧ Queued t1 queue1 ∧ Extends t t1 ∧
      queue1.length + t.dfaStates.length = queue.length + t1.dfaStates.length ∧
      (∀ c ∈ cs, nextSet states d.nfaStates c ≠ [] →
        (d1.transitions.lookup c).isSome = true) := by
  induction cs generalizing t queue d with
  | nil =>
    exact ⟨queue, t, d, rfl, ht, hd, rfl, hc, hq, Extends.refl t, rfl,
      fun c hc => absurd hc (List.not_mem_nil c)⟩
  | cons c cs ih =>
    obtain ⟨q1, t1, d1, h1, h2, h3, h4, h5, h6, h7, h8, h9⟩ :=
      symbolStep_spec states start syms t queue cur d c ht hd hc hq
    obtain ⟨q2, t2, d2, g1, g2, g3, g4, g5, g6, g7, g8, g9⟩ :=
      ih t1 q1 d1 h2 h3 (h4 ▸ h5) h6
    rw [h4] at g1 g4 g5 g9
    refine ⟨q2, t2, d2, ?_, g2, g3, g4, g5, g6, h7.trans g7, by omega, ?_⟩
    · simp only [symbolsLoop, h1, g1]
    · intro c1 hc1 hn
      rcases List.mem_cons.1 hc1 with rfl | hc1
      · obtain ⟨d3, hd3, -, hl⟩ := g7 cur d1 h3
        rw [g3] at hd3
        injection hd3 with hd3
        subst hd3
        exact hl c1 (h9 hn)
      · exact g9 c1 hc1 hn

/-- The number of DFA states is bounded by the number of sets of states of the
arena. -/
theorem tablesOk_length_le (states : List State) (start : Nat) (t : DFATables)
    (hwf : WellFormed states) (hstart : start < states.length) (ht : TablesOk states start t) :
    t.dfaStates.length ≤ 2 ^ states.length := by
  have hlt : ∀ x, Reach states start x → x < states.length := by
    intro x hx
    induction hx with
    | refl => exact hstart
    | tail _ hstep _ =>
      obtain ⟨c, hc⟩ := hstep
      exact hwf _ c _ hc
  have hnodup : (t.dfaStates.map (fun d => d.nfaStates)).Nodup := by
    rw [List.nodup_iff_getElem?_ne_getElem?]
    intro i j hij hj heq
    rw [List.length_map] at hj
    have hi : i < t.dfaStates.length := by omega
    rw [List.getElem?_map, List.getElem?_map, List.getElem?_eq_getElem hi,
      List.getElem?_eq_getElem hj] at heq
    simp only [Option.map_some', Option.some.injEq] at heq
    have h1 := ht.mapComplete i _ (List.getElem?_eq_getElem hi)
    have h2 := ht.mapComplete j _ (List.getElem?_eq_getElem hj)
    rw [heq, h2] at h1
    injection h1 with h1
    omega
  have hinj : ∀ x ∈ t.dfaStates.map (fun d => d.nfaStates),
      ∀ y ∈ t.dfaStates.map (fun d => d.nfaStates), x.toFinset = y.toFinset → x = y := by
    intro x hx y hy hxy
    obtain ⟨dx, hdx, rfl⟩ := List.mem_map.1 hx
    obtain ⟨dy, hdy, rfl⟩ := List.mem_map.1 hy
    obtain ⟨i, hi⟩ := List.getElem?_of_mem hdx
    obtain ⟨j, hj⟩ := List.getElem?_of_mem hdy
    apply isSet_ext (ht.reach i dx hi).1 (ht.reach j dy hj).1
    intro z
    rw [← List.mem_toFinset, hxy, List.mem_toFinset]
  have hnodup2 := List.Nodup.map_on hinj hnodup
  have hsub : ((t.dfaStates.map (fun d => d.nfaStates)).map List.toFinset).toFinset ⊆
      (Finset.range states.length).powerset := by
    intro F hF
    rw [List.mem_toFinset] at hF
    obtain ⟨S, hS, rfl⟩ := List.mem_map.1 hF
    obtain ⟨dx, hdx, rfl⟩ := List.mem_map.1 hS
    obtain ⟨i, hi⟩ := List.getElem?_of_mem hdx
    rw [Finset.mem_powerset]
    intro z hz
    rw [List.mem_toFinset] at hz
    exact Finset.mem_range.2 (hlt z ((ht.reach i dx hi).2 z hz))
  have hcard := Finset.card_le_card hsub
  rw [List.toFinset_card_of_nodup hnodup2, Finset.card_powerset, Finset.card_range,
    List.length_map, List.length_map] at hcard
  exact hcard

/-- The work-list loop ends before its fuel runs out, with consistent tables in
which every DFA state is complete. -/
theorem dfaLoop_spec (states : List State) (start : Nat) (syms : List Char)
    (hwf : WellFormed states) (hstart : start < states.length) (fuel : Nat)
    (queue : List (List Nat)) (t : DFATables) (ht : TablesOk states start t)
    (hc : Complete states syms t queue) (hq : Queued t queue)
    (hf : queue.length + 2 ^ states.length + 1 ≤ fuel + t.dfaStates.length) :
    ∃ t1, dfaLoop states syms fuel queue t = some t1 ∧ TablesOk states start t1 ∧
      Complete states syms t1 [] ∧ Extends t t1 := by
  induction fuel generalizing queue t with
  | zero =>
    cases queue with
    | nil => exact ⟨t, by simp [dfaLoop], ht, hc, Extends.refl t⟩
    | cons S rest =>
      have := tablesOk_length_le states start t hwf hstart ht
      simp only [List.length_cons] at hf
      omega
  | succ fuel ih =>
    cases queue with
    | nil => exact ⟨t, by simp [dfaLoop], ht, hc, Extends.refl t⟩
    | cons S rest =>
      have hS := hq S (List.mem_cons_self _ _)
      obtain ⟨cur, hcur⟩ := Option.isSome_iff_exists.1 hS
      obtain ⟨d, hd, hdS⟩ := ht.mapSound S cur hcur
      subst hdS
      have hget : getOrCreateDFAState states t d.nfaStates = (cur, t) := by
        simp only [getOrCreateDFAState, hcur]
      obtain ⟨q1, t1, d1, h1, h2, h3, h4, h5, h6, h7, h8, h9⟩ :=
        symbolsLoop_spec states start syms syms t rest cur d ht hd hc
          (fun S hS => hq S (List.mem_cons_of_mem _ hS))
      have hc1 : Complete states syms t1 q1 := by
        intro i x hx hp c hcs hn
        by_cases hx1 : x.nfaStates = d.nfaStates
        · have e1 := tablesOk_index_eq states start t1 h2 i cur x d1 hx h3 (hx1.trans h4.symm)
          subst e1
          rw [h3] at hx
          injection hx with hx
          subst hx
          exact h9 c hcs (hx1 ▸ hn)
        · apply h5 i x hx _ c hcs hn
          intro hm
          rcases List.mem_cons.1 hm with hm | hm
          · exact hx1 hm
          · exact hp hm
      obtain ⟨t2, g1, g2, g3, g4⟩ := ih q1 t1 h2 hc1 h6 (by
        simp only [List.length_cons] at hf
        omega)
      refine ⟨t2, ?_, g2, g3, h7.trans g4⟩
      have hlt : cur < t.dfaStates.length := lt_length_of_getElem? hd
      simp only [dfaLoop, hget, hlt, if_true, h1, g1]

theorem mem_charSetInsert (x y : Char) (l : List Char) :
    y ∈ charSetInsert x l ↔ y = x ∨ y ∈ l := by
  induction l with
  | nil => simp [charSetInsert]
  | cons z zs ih =>
    rw [charSetInsert]
    split
    · simp
    · split
      · rename_i h
        subst h
        simp
      · simp only [List.mem_cons, ih]
        tauto

/-- Every label other than `Epsilon` on a transition of a state of `nfaStates`
is in `inputSymbols`. -/
theorem mem_inputSymbols (states : List State) (nfaStates : List Nat) (p q : Nat) (c : Char)
    (hp : p ∈ nfaStates) (hstep : Step states p c q) (hc : c ≠ Epsilon) :
    c ∈ inputSymbols states nfaStates := by
  unfold inputSymbols
  have inner : ∀ (ts : List Transition) (init : List Char),
      c ∈ init ∨ (∃ t ∈ ts, t.symbol = c) →
      c ∈ ts.foldl
        (fun acc1 t => if t.symbol ≠ Epsilon then charSetInsert t.symbol acc1 else acc1) init := by
    intro ts
    induction ts with
    | nil =>
      rintro init (h | ⟨t, ht, -⟩)
      · exact h
      · simp at ht
    | cons t ts ih =>
      intro init h
      rw [List.foldl_cons]
      apply ih
      rcases h with h | ⟨u, hu, h⟩
      · left
        split
        · exact (mem_charSetInsert _ _ _).2 (Or.inr h)
        · exact h
      · rcases List.mem_cons.1 hu with rfl | hu
        · left
          rw [if_pos (h ▸ hc)]
          exact (mem_charSetInsert _ _ _).2 (Or.inl h.symm)
        · exact Or.inr ⟨u, hu, h⟩
  have outer : ∀ (l : List Nat) (init : List Char), c ∈ init ∨ p ∈ l →
      c ∈ l.foldl (fun acc s => (deref states s).transitions.foldl
        (fun acc1 t => if t.symbol ≠ Epsilon then charSetInsert t.symbol acc1 else acc1) acc)
        init := by
    intro l
    induction l with
    | nil =>
      rintro init (h | h)
      · exact h
      · simp at h
    | cons a l ih =>
      intro init h
      rw [List.foldl_cons]
      apply ih
      rcases h with h | h
      · exact Or.inl (inner _ _ (Or.inl h))
      · rcases List.mem_cons.1 h with rfl | h
        · obtain ⟨t, ht, h1, -⟩ := hstep
          exact Or.inl (inner _ _ (Or.inr ⟨t, ht, h1⟩))
        · exact Or.inr h
  exact outer nfaStates [] (Or.inr hp)

theorem derefDFA_of_getElem? {dfa : List DFAState} {i : Nat} {d : DFAState}
    (h : dfa[i]? = some d) : derefDFA dfa i = d := by
  simp [derefDFA, List.getD, h]

/-- In consistent and complete tables the DFA run from state `i` follows the
simulation of the NFA from the set of `i`. -/
theorem dfaAccepts_eq_fold (states : List State) (start : Nat) (syms : List Char)
    (t : DFATables) (ht : TablesOk states start t) (hc : Complete states syms t [])
    (hcover : ∀ p c q, Reach states start p → Step states p c q → c ≠ Epsilon → c ∈ syms)
    (w : List Char) (hw : Epsilon ∉ w) (i : Nat) (d : DFAState)
    (hd : t.dfaStates[i]? = some d) :
    dfaAccepts t.dfaStates i w =
      (w.foldl (fun cur c => nextSet states cur c) d.nfaStates).any
        (fun s => (deref states s).isFinal) := by
  induction w generalizing i d with
  | nil =>
    simp only [dfaAccepts, List.foldl_nil, derefDFA_of_getElem? hd]
    exact ht.final i d hd
  | cons c w ih =>
    have hw1 : Epsilon ∉ w := fun h => hw (List.mem_cons_of_mem _ h)
    have hce : c ≠ Epsilon := fun h => hw (h ▸ List.mem_cons_self _ _)
    rw [dfaAccepts, dfaStep, derefDFA_of_getElem? hd, List.foldl_cons]
    cases hl : d.transitions.lookup c with
    | some j =>
      obtain ⟨d1, hd1, hS⟩ := ht.trans i d c j hd hl
      simp only
      rw [ih hw1 j d1 hd1, hS]
    | none =>
      have hnil : nextSet states d.nfaStates c = [] := by
        by_contra hne
        obtain ⟨x, hx⟩ := List.exists_mem_of_ne_nil _ hne
        obtain ⟨p, hp, p1, h1, -⟩ := (mem_nextSet states d.nfaStates c x).1 hx
        have hcs : c ∈ syms := hcover p c p1 ((ht.reach i d hd).2 p hp) h1 hce
        have := hc i d hd (List.not_mem_nil _) c hcs hne
        rw [hl] at this
        simp at this
      simp only
      rw [hnil, foldl_nextSet_nil]
      rfl

theorem tablesOk_empty (states : List State) (start : Nat) :
    TablesOk states start emptyTables := by
  constructor <;> intros <;> simp_all [emptyTables]

/-- The subset construction from empty tables on a well-formed arena: the
work-list loop ends, state 0 stands for the closure of the start state, and the
DFA run from state 0 agrees with the simulation of the NFA on every word
without the `Epsilon` marker. -/
theorem constructDFA_correct (states : List State) (nfa : NFA) (hwf : WellFormed states)
    (hstart : nfa.start < states.length) :
    ∃ t, constructDFAFromNFA states emptyTables nfa (collectStatesFromNFA states nfa) = some t ∧
      TablesOk states nfa.start t ∧
      Complete states (inputSymbols states (collectStatesFromNFA states nfa)) t [] ∧
      (∃ d0 : DFAState, t.dfaStates[0]? = some d0 ∧ d0.nfaStates = eClosure states nfa.start) ∧
      ∀ w, Epsilon ∉ w → dfaAccepts t.dfaStates 0 w = nfaAccepts states nfa.start w := by
  have hS0set := isSet_eClosure states nfa.start
  have hS0mem : nfa.start ∈ eClosure states nfa.start :=
    (mem_eClosure states nfa.start nfa.start).2 Relation.ReflTransGen.refl
  have hS0ne : eClosure states nfa.start ≠ [] := List.ne_nil_of_mem hS0mem
  have hS0reach : ∀ x ∈ eClosure states nfa.start, Reach states nfa.start x :=
    fun x hx => reach_of_epsReach ((mem_eClosure states nfa.start x).1 hx)
  have ht0 := tablesOk_create states nfa.start emptyTables (eClosure states nfa.start)
    (tablesOk_empty states nfa.start) rfl hS0ne hS0set hS0reach
    (fun x hx y hy => (mem_eClosure states nfa.start y).2
      (((mem_eClosure states nfa.start x).1 hx).trans hy))
  have hget : (getOrCreateDFAState states emptyTables (eClosure states nfa.start)).2 =
      ⟨[] ++ [⟨0, (eClosure states nfa.start).any (fun s => (deref states s).isFinal),
          eClosure states nfa.start, []⟩],
        [] ++ [(eClosure states nfa.start, 0)]⟩ := rfl
  have hc0 : Complete states (inputSymbols states (collectStatesFromNFA states nfa))
      (getOrCreateDFAState states emptyTables (eClosure states nfa.start)).2
      [eClosure states nfa.start] := by
    intro i d hd hp
    rw [hget] at hd
    rcases (getElem?_snoc _ _ _ _).1 hd with h | ⟨-, h⟩
    · simp at h
    · subst h
      exact absurd (List.mem_singleton_self _) hp
  have hq0 : Queued (getOrCreateDFAState states emptyTables (eClosure states nfa.start)).2
      [eClosure states nfa.start] := by
    intro S hS
    rw [List.mem_singleton.1 hS, hget]
    simp [lookup_cons_ite]
  obtain ⟨t, h1, h2, h3, h4⟩ := dfaLoop_spec states nfa.start
    (inputSymbols states (collectStatesFromNFA states nfa)) hwf hstart
    (2 ^ states.length + 1) [eClosure states nfa.start]
    (getOrCreateDFAState states emptyTables (eClosure states nfa.start)).2
    (hget ▸ ht0) hc0 hq0 (by rw [hget]; simp; omega)
  have hd0 : ∃ d0 : DFAState, t.dfaStates[0]? = some d0 ∧
      d0.nfaStates = eClosure states nfa.start := by
    obtain ⟨d1, hd1, hS1, -⟩ := h4 0 _ (by rw [hget]; rfl)
    exact ⟨d1, hd1, hS1⟩
  refine ⟨t, h1, h2, h3, hd0, ?_⟩
  intro w hw
  obtain ⟨d0, hd0a, hd0b⟩ := hd0
  rw [dfaAccepts_eq_fold states nfa.start _ t h2 h3 _ w hw 0 d0 hd0a, hd0b]
  · rfl
  · intro p c q hp hstep hc
    exact mem_inputSymbols states _ p q c
      (((collectStatesFromNFA_spec states nfa).2.2 p).2 hp) hstep hc

end Thompson

namespace Thompson

/-! ## The arena under the builder's operations -/

theorem deref_eq (states : List State) (i : Nat) :
    deref states i = (states[i]?).getD ⟨0, false, []⟩ := by
  simp [deref, List.getD_eq_getElem?_getD]

theorem deref_of_length_le (states : List State) (i : Nat) (h : states.length ≤ i) :
    deref states i = ⟨0, false, []⟩ := by
  rw [deref_eq, List.getElem?_eq_none h]
  rfl

theorem deref_snoc (states : List State) (s : State) (i : Nat) :
    deref (states ++ [s]) i = if i = states.length then s else deref states i := by
  by_cases h : i < states.length
  · have h1 : i ≠ states.length := by omega
    rw [if_neg h1, deref_eq, deref_eq, List.getElem?_append_left h]
  · by_cases h2 : i = states.length
    · subst h2
      rw [if_pos rfl, deref_eq]
      simp
    · rw [if_neg h2, deref_of_length_le _ _ (by simp; omega),
        deref_of_length_le _ _ (by omega)]

theorem deref_modifyState (states : List State) (p : Nat) (f : State → State) (i : Nat) :
    deref (modifyState states p f) i =
      if i = p ∧ p < states.length then f (deref states p) else deref states i := by
  unfold modifyState
  rw [deref_eq, List.getElem?_set]
  by_cases h : p = i
  · subst h
    by_cases h1 : p < states.length
    · simp [h1]
    · simp [h1, deref_eq, List.getElem?_eq_none (Nat.le_of_not_lt h1)]
  · have h2 : ¬ (i = p ∧ p < states.length) := fun h3 => h h3.1.symm
    simp [h, h2, deref_eq]

theorem length_modifyState (states : List State) (p : Nat) (f : State → State) :
    (modifyState states p f).length = states.length := by
  simp [modifyState]

theorem step_snoc (states : List State) (id : Nat) (fin : Bool) (p : Nat) (c : Char) (q : Nat) :
    Step (states ++ [⟨id, fin, []⟩]) p c q ↔ Step states p c q := by
  unfold Step
  rw [deref_snoc]
  split
  · rename_i h
    subst h
    simp [deref_of_length_le states states.length (le_refl _)]
  · rfl

theorem step_addTransition (a : Arena) (src dst : Nat) (symbol : Char) (hsrc : src < a.states.length)
    (p : Nat) (c : Char) (q : Nat) :
    Step (addTransition a src dst symbol).states p c q ↔
      Step a.states p c q ∨ (p = src ∧ c = symbol ∧ q = dst) := by
  unfold Step addTransition
  simp only [deref_modifyState]
  by_cases h : p = src
  · subst h
    simp only [hsrc, and_self, if_true, List.mem_append, List.mem_singleton, true_and]
    constructor
    · rintro ⟨t, ht | ht, h1, h2⟩
      · exact Or.inl ⟨t, ht, h1, h2⟩
      · subst ht
        exact Or.inr ⟨h1.symm, h2.symm⟩
    · rintro (⟨t, ht, h1, h2⟩ | ⟨h1, h2⟩)
      · exact ⟨t, Or.inl ht, h1, h2⟩
      · exact ⟨⟨symbol, dst⟩, Or.inr rfl, h1.symm, h2.symm⟩
  · simp [h]

theorem step_clearFinal (a : Arena) (x : Nat) (p : Nat) (c : Char) (q : Nat) :
    Step (clearFinal a x).states p c q ↔ Step a.states p c q := by
  unfold Step clearFinal
  simp only [deref_modifyState]
  split
  · rename_i h
    rw [h.1]
  · rfl

theorem isFinal_clearFinal (a : Arena) (x : Nat) (p : Nat) :
    (deref (clearFinal a x).states p).isFinal =
      if p = x then false else (deref a.states p).isFinal := by
  unfold clearFinal
  simp only [deref_modifyState]
  by_cases h : p = x
  · subst h
    by_cases h1 : p < a.states.length
    · simp [h1]
    · simp [h1, deref_of_length_le a.states p (by omega)]
  · simp [h]

theorem isFinal_addTransition (a : Arena) (src dst : Nat) (symbol : Char) (p : Nat) :
    (deref (addTransition a src dst symbol).states p).isFinal = (deref a.states p).isFinal := by
  unfold addTransition
  simp only [deref_modifyState]
  split
  · rename_i h
    rw [h.1]
  · rfl

theorem length_addTransition (a : Arena) (src dst : Nat) (symbol : Char) :
    (addTransition a src dst symbol).states.length = a.states.length := by
  simp [addTransition, length_modifyState]

theorem length_clearFinal (a : Arena) (x : Nat) :
    (clearFinal a x).states.length = a.states.length := by
  simp [clearFinal, length_modifyState]

/-! ## Paths -/

theorem Path.append {S : List State} {p q r : Nat} {w1 w2 : List Char} (h1 : Path S p w1 q)
    (h2 : Path S q w2 r) : Path S p (w1 ++ w2) r := by
  induction h1 with
  | refl p => exact h2
  | step hs _ ih =>
    rw [List.append_assoc]
    exact Path.step hs (ih h2)

theorem Path.single {S : List State} {p q : Nat} {c : Char} (h : Step S p c q) :
    Path S p (symWord c) q := by
  have := Path.step h (Path.refl q)
  simpa using this

theorem Path.eps_step {S : List State} {p q r : Nat} {w : List Char} (h : Step S p Epsilon q)
    (h2 : Path S q w r) : Path S p w r := by
  have := Path.step h h2
  simpa [symWord] using this

theorem Path.inv {S : List State} {p q : Nat} {w : List Char} (h : Path S p w q) :
    (w = [] ∧ q = p) ∨
      ∃ x p1 w1, Step S p x p1 ∧ Path S p1 w1 q ∧ w = symWord x ++ w1 := by
  cases h with
  | refl => exact Or.inl ⟨rfl, rfl⟩
  | step hs hrest => exact Or.inr ⟨_, _, _, hs, hrest, rfl⟩

/-- A state without transitions is only the start of the empty path. -/
theorem Path.of_no_step {S : List State} {p q : Nat} {w : List Char}
    (hno : ∀ c r, ¬ Step S p c r) (h : Path S p w q) : w = [] ∧ q = p := by
  cases h with
  | refl => exact ⟨rfl, rfl⟩
  | step hs _ => exact absurd hs (hno _ _)

/-- Paths do not leave a region closed under the transitions. -/
theorem Path.stays {S : List State} (Y : Nat → Prop)
    (hclosed : ∀ p c q, Y p → Step S p c q → Y q) {p q : Nat} {w : List Char}
    (h : Path S p w q) (hp : Y p) : Y q := by
  induction h with
  | refl p => exact hp
  | step hs _ ih => exact ih (hclosed _ _ _ hp hs)

/-- Two arenas with the same transitions inside a closed region have the same
paths from the states of the region. -/
theorem path_frame (S S1 : List State) (Y : Nat → Prop)
    (hclosed : ∀ p c q, Y p → Step S p c q → Y q)
    (hagree : ∀ p c q, Y p → (Step S1 p c q ↔ Step S p c q))
    (p : Nat) (w : List Char) (q : Nat) (hp : Y p) : Path S1 p w q ↔ Path S p w q := by
  constructor
  · intro h
    induction h with
    | refl p => exact Path.refl p
    | step hs _ ih =>
      have hs1 := (hagree _ _ _ hp).1 hs
      exact Path.step hs1 (ih (hclosed _ _ _ hp hs1))
  · intro h
    induction h with
    | refl p => exact Path.refl p
    | step hs _ ih => exact Path.step ((hagree _ _ _ hp).2 hs) (ih (hclosed _ _ _ hp hs))

/-- When the new arena `S1` changes, inside a closed region, only the
transitions of the state `a`, a path of `S1` from the region is a path of `S`
or passes through `a`. -/
theorem path_through (S S1 : List State) (X : Nat → Prop) (a : Nat)
    (hclosed : ∀ p c q, X p → Step S p c q → X q)
    (hagree : ∀ p c q, X p → p ≠ a → (Step S1 p c q ↔ Step S p c q))
    (p : Nat) (w : List Char) (q : Nat) (hp : X p) (h : Path S1 p w q) :
    Path S p w q ∨ ∃ w1 w2, w = w1 ++ w2 ∧ Path S p w1 a ∧ Path S1 a w2 q := by
  induction h with
  | refl p => exact Or.inl (Path.refl p)
  | @step p p1 r c w hs hrest ih =>
    by_cases hpa : p = a
    · subst hpa
      exact Or.inr ⟨[], symWord c ++ w, rfl, Path.refl p, Path.step hs hrest⟩
    · have hs1 := (hagree _ _ _ hp hpa).1 hs
      rcases ih (hclosed _ _ _ hp hs1) with h1 | ⟨w1, w2, hw, h1, h2⟩
      · exact Or.inl (Path.step hs1 h1)
      · exact Or.inr ⟨symWord c ++ w1, w2, by rw [hw, List.append_assoc], Path.step hs1 h1, h2⟩

/-- The paths of `S` from the region remain paths of `S1` when `a` has no
transitions in `S`. -/
theorem path_keep (S S1 : List State) (X : Nat → Prop) (a : Nat)
    (hclosed : ∀ p c q, X p → Step S p c q → X q)
    (hagree : ∀ p c q, X p → p ≠ a → (Step S1 p c q ↔ Step S p c q))
    (hnoout : ∀ c q, ¬ Step S a c q)
    (p : Nat) (w : List Char) (q : Nat) (hp : X p) (h : Path S p w q) : Path S1 p w q := by
  induction h with
  | refl p => exact Path.refl p
  | @step p p1 r c w hs _ ih =>
    have hpa : p ≠ a := fun h => hnoout c p1 (h ▸ hs)
    exact Path.step ((hagree _ _ _ hp hpa).2 hs) (ih (hclosed _ _ _ hp hs))

/-! ## Fragments -/

theorem step_congr {S S1 : List State} {p : Nat} (h : deref S1 p = deref S p) (c : Char)
    (q : Nat) : Step S1 p c q ↔ Step S p c q := by
  unfold Step
  rw [h]

/-- A Fragment is not affected by changes to states outside of it. -/
theorem Frag.frame {S S1 : List State} {e : Regex} {f : NFA} {lo hi : Nat}
    (h : Frag S e f lo hi) (hlen : hi ≤ S1.length)
    (hagree : ∀ p, lo ≤ p → p < hi → deref S1 p = deref S p) : Frag S1 e f lo hi := by
  have hstep : ∀ p c q, (lo ≤ p ∧ p < hi) → (Step S1 p c q ↔ Step S p c q) :=
    fun p c q hp => step_congr (hagree p hp.1 hp.2) c q
  have hclosed : ∀ p c q, (lo ≤ p ∧ p < hi) → Step S p c q → (lo ≤ q ∧ q < hi) :=
    fun p c q hp hs => ⟨(h.closed p c q hp.1 hp.2 hs).1, (h.closed p c q hp.1 hp.2 hs).2.1⟩
  have hpath : ∀ p w q, (lo ≤ p ∧ p < hi) → (Path S1 p w q ↔ Path S p w q) :=
    path_frame S S1 (fun p => lo ≤ p ∧ p < hi) hclosed hstep
  constructor
  · exact h.start_ge
  · exact h.start_lt
  · exact h.accept_ge
  · exact h.accept_lt
  · exact h.ne
  · exact hlen
  · intro p c q h1 h2 hs
    exact h.closed p c q h1 h2 ((hstep p c q ⟨h1, h2⟩).1 hs)
  · intro c q hs
    exact h.accept_out c q ((hstep _ c q ⟨h.accept_ge, h.accept_lt⟩).1 hs)
  · intro w
    rw [hpath _ _ _ ⟨h.start_ge, h.start_lt⟩]
    exact h.lang w
  · intro p h1 h2
    rw [hagree p h1 h2]
    exact h.final p h1 h2
  · intro p w hp
    have hp0 := (hpath _ _ _ ⟨h.start_ge, h.start_lt⟩).1 hp
    obtain ⟨w1, hw1⟩ := h.live p w hp0
    have hin : lo ≤ p ∧ p < hi :=
      Path.stays (fun p => lo ≤ p ∧ p < hi) hclosed hp0 ⟨h.start_ge, h.start_lt⟩
    exact ⟨w1, (hpath _ _ _ hin).2 hw1⟩
  · intro p c q h1 h2 hs
    exact h.labels p c q h1 h2 ((hstep p c q ⟨h1, h2⟩).1 hs)

theorem Frag.region_closed {S : List State} {e : Regex} {f : NFA} {lo hi : Nat}
    (h : Frag S e f lo hi) : ∀ p c q, (lo ≤ p ∧ p < hi) → Step S p c q → (lo ≤ q ∧ q < hi) :=
  fun p c q hp hs => ⟨(h.closed p c q hp.1 hp.2 hs).1, (h.closed p c q hp.1 hp.2 hs).2.1⟩

theorem step_of_length_le (S : List State) (p : Nat) (h : S.length ≤ p) (c : Char) (q : Nat) :
    ¬ Step S p c q := by
  rintro ⟨t, ht, -⟩
  rw [deref_of_length_le S p h] at ht
  simp at ht

theorem matches_lit (c : Char) (w : List Char) : Matches (.lit c) w ↔ w = [c] := by
  constructor
  · intro h
    cases h
    rfl
  · rintro rfl
    exact Matches.lit c

theorem matches_blank (w : List Char) : Matches .blank w ↔ w = [] := by
  constructor
  · intro h
    cases h
    rfl
  · rintro rfl
    exact Matches.blank

theorem matches_alt (r s : Regex) (w : List Char) :
    Matches (.alt r s) w ↔ Matches r w ∨ Matches s w := by
  constructor
  · intro h
    cases h with
    | altLeft h => exact Or.inl h
    | altRight h => exact Or.inr h
  · rintro (h | h)
    · exact Matches.altLeft h
    · exact Matches.altRight h

theorem matches_cat (r s : Regex) (w : List Char) :
    Matches (.cat r s) w ↔ ∃ u v, w = u ++ v ∧ Matches r u ∧ Matches s v := by
  constructor
  · intro h
    cases h with
    | cat h1 h2 => exact ⟨_, _, rfl, h1, h2⟩
  · rintro ⟨u, v, rfl, h1, h2⟩
    exact Matches.cat h1 h2

/-- The label of the transition made by `thompsonConstruction`. -/
theorem thompsonConstruction_eq (a : Arena) (c : Char) :
    thompsonConstruction a c =
      (⟨a.states.length, a.states.length + 1⟩,
        addTransition
          ⟨a.states ++ [⟨a.stateCount, false, []⟩] ++ [⟨a.stateCount + 1, true, []⟩],
            a.stateCount + 1 + 1⟩
          a.states.length (a.states.length + 1) (if c = ' ' then Epsilon else c)) := by
  unfold thompsonConstruction createState
  by_cases h : c = ' '
  · simp [h]
  · simp [h]

theorem step_thompsonConstruction (a : Arena) (c : Char) (p : Nat) (x : Char) (q : Nat) :
    Step (thompsonConstruction a c).2.states p x q ↔
      Step a.states p x q ∨
        (p = a.states.length ∧ x = (if c = ' ' then Epsilon else c) ∧
          q = a.states.length + 1) := by
  rw [thompsonConstruction_eq]
  rw [step_addTransition _ _ _ _ (by simp), step_snoc, step_snoc]

theorem deref_thompsonConstruction_lt (a : Arena) (c : Char) (i : Nat)
    (h : i < a.states.length) : deref (thompsonConstruction a c).2.states i = deref a.states i := by
  rw [thompsonConstruction_eq]
  simp only [addTransition, deref_modifyState]
  rw [if_neg (by omega), deref_snoc, if_neg (by simp; omega), deref_snoc, if_neg (by omega)]

theorem length_thompsonConstruction (a : Arena) (c : Char) :
    (thompsonConstruction a c).2.states.length = a.states.length + 2 := by
  rw [thompsonConstruction_eq]
  simp [length_addTransition]

theorem isFinal_thompsonConstruction (a : Arena) (c : Char) :
    (deref (thompsonConstruction a c).2.states a.states.length).isFinal = false ∧
    (deref (thompsonConstruction a c).2.states (a.states.length + 1)).isFinal = true := by
  rw [thompsonConstruction_eq]
  simp only [isFinal_addTransition]
  constructor
  · rw [deref_snoc, if_neg (by simp), deref_snoc, if_pos rfl]
  · rw [deref_snoc, if_pos (by simp)]

/-- The Fragment of an atom. -/
theorem frag_atom (a : Arena) (c : Char) (e : Regex)
    (he : (e = .lit c ∧ isalpha c = true) ∨ (e = .blank ∧ c = ' ')) :
    Frag (thompsonConstruction a c).2.states e (thompsonConstruction a c).1 a.states.length
      (a.states.length + 2) := by
  have hf : (thompsonConstruction a c).1 = ⟨a.states.length, a.states.length + 1⟩ := by
    rw [thompsonConstruction_eq]
  have hold : ∀ p x q, a.states.length ≤ p → ¬ Step a.states p x q :=
    fun p x q hp => step_of_length_le a.states p hp x q
  have hstep : ∀ p x q, a.states.length ≤ p → (Step (thompsonConstruction a c).2.states p x q ↔
      (p = a.states.length ∧ x = (if c = ' ' then Epsilon else c) ∧
        q = a.states.length + 1)) := by
    intro p x q hp
    rw [step_thompsonConstruction]
    constructor
    · rintro (h | h)
      · exact absurd h (hold p x q hp)
      · exact h
    · exact Or.inr
  have hacc : ∀ x q, ¬ Step (thompsonConstruction a c).2.states (a.states.length + 1) x q := by
    intro x q hs
    have := (hstep _ x q (by omega)).1 hs
    omega
  have hword : symWord (if c = ' ' then Epsilon else c) = [] ∧ e = .blank ∨
      symWord (if c = ' ' then Epsilon else c) = [c] ∧ e = .lit c := by
    rcases he with ⟨h1, h2⟩ | ⟨h1, h2⟩
    · right
      have hc1 : c ≠ ' ' := by
        rintro rfl
        revert h2
        decide
      have hc2 : c ≠ Epsilon := by
        rintro rfl
        revert h2
        decide
      simp [symWord, hc1, hc2, h1]
    · left
      simp [symWord, h2, h1]
  have hpath : ∀ w q, Path (thompsonConstruction a c).2.states a.states.length w q →
      (w = [] ∧ q = a.states.length) ∨
      (w = symWord (if c = ' ' then Epsilon else c) ∧ q = a.states.length + 1) := by
    intro w q h
    cases h with
    | refl => exact Or.inl ⟨rfl, rfl⟩
    | step hs hrest =>
      obtain ⟨-, h2, h3⟩ := (hstep _ _ _ (le_refl _)).1 hs
      subst h2 h3
      obtain ⟨h4, h5⟩ := Path.of_no_step hacc hrest
      subst h4 h5
      exact Or.inr ⟨by simp, rfl⟩
  have hfirst : Path (thompsonConstruction a c).2.states a.states.length
      (symWord (if c = ' ' then Epsilon else c)) (a.states.length + 1) :=
    Path.single ((hstep _ _ _ (le_refl _)).2 ⟨rfl, rfl, rfl⟩)
  rw [hf]
  constructor
  · exact le_refl _
  · show a.states.length < a.states.length + 2
    omega
  · show a.states.length ≤ a.states.length + 1
    omega
  · show a.states.length + 1 < a.states.length + 2
    omega
  · show a.states.length ≠ a.states.length + 1
    omega
  · rw [length_thompsonConstruction]
  · intro p x q h1 h2 hs
    obtain ⟨-, -, h3⟩ := (hstep p x q h1).1 hs
    subst h3
    exact ⟨by omega, by omega, by show a.states.length + 1 ≠ a.states.length; omega⟩
  · exact hacc
  · intro w
    show Path _ a.states.length w (a.states.length + 1) ↔ _
    constructor
    · intro h
      rcases hpath w _ h with ⟨-, h2⟩ | ⟨h1, -⟩
      · omega
      · rcases hword with ⟨h3, h4⟩ | ⟨h3, h4⟩
        · rw [h4, h1, h3]
          exact Matches.blank
        · rw [h4, h1, h3]
          exact Matches.lit c
    · intro h
      rcases hword with ⟨h3, h4⟩ | ⟨h3, h4⟩
      · rw [h4, matches_blank] at h
        rw [h, ← h3]
        exact hfirst
      · rw [h4, matches_lit] at h
        rw [h, ← h3]
        exact hfirst
  · intro p h1 h2
    show _ ↔ p = a.states.length + 1
    obtain ⟨h3, h4⟩ := isFinal_thompsonConstruction a c
    by_cases hp : p = a.states.length
    · subst hp
      rw [h3]
      simp
    · have hp1 : p = a.states.length + 1 := by omega
      subst hp1
      rw [h4]
      simp
  · intro p w h
    show ∃ w1, Path _ p w1 (a.states.length + 1)
    rcases hpath w p h with ⟨-, h2⟩ | ⟨-, h2⟩
    · subst h2
      exact ⟨_, hfirst⟩
    · subst h2
      exact ⟨[], Path.refl _⟩
  · intro p x q h1 h2 hs
    obtain ⟨-, h3, -⟩ := (hstep p x q h1).1 hs
    subst h3
    rcases he with ⟨-, h5⟩ | ⟨-, h5⟩
    · have hc1 : c ≠ ' ' := by
        rintro rfl
        revert h5
        decide
      rw [if_neg hc1]
      exact Or.inr h5
    · rw [if_pos h5]
      exact Or.inl rfl

/-- The arena after the two `createState` calls of `alternate` and
`kleeneStar`. -/
theorem step_twoNew (a : Arena) (p : Nat) (x : Char) (q : Nat) :
    Step (a.states ++ [⟨a.stateCount, false, []⟩] ++ [⟨a.stateCount + 1, true, []⟩]) p x q ↔
      Step a.states p x q := by
  rw [step_snoc, step_snoc]

theorem step_alternate (a : Arena) (f1 f2 : NFA) (h1 : f1.accept < a.states.length)
    (h2 : f2.accept < a.states.length) (p : Nat) (x : Char) (q : Nat) :
    Step (alternate a f1 f2).2.states p x q ↔
      Step a.states p x q ∨
      (p = a.states.length ∧ x = Epsilon ∧ (q = f1.start ∨ q = f2.start)) ∨
      ((p = f1.accept ∨ p = f2.accept) ∧ x = Epsilon ∧ q = a.states.length + 1) := by
  unfold alternate createState
  simp only
  rw [step_clearFinal, step_clearFinal,
    step_addTransition _ _ _ _ (by simp [length_addTransition]; omega),
    step_addTransition _ _ _ _ (by simp [length_addTransition]; omega),
    step_addTransition _ _ _ _ (by simp [length_addTransition]),
    step_addTransition _ _ _ _ (by simp), step_twoNew]
  simp only [List.length_append, List.length_singleton]
  tauto

theorem isFinal_alternate (a : Arena) (f1 f2 : NFA) (p : Nat) :
    (deref (alternate a f1 f2).2.states p).isFinal =
      if p = f2.accept then false else if p = f1.accept then false
      else if p = a.states.length + 1 then true
      else if p = a.states.length then false else (deref a.states p).isFinal := by
  unfold alternate createState
  simp only
  rw [isFinal_clearFinal, isFinal_clearFinal, isFinal_addTransition, isFinal_addTransition,
    isFinal_addTransition, isFinal_addTransition, deref_snoc, deref_snoc]
  simp only [List.length_append, List.length_singleton]
  split_ifs <;> rfl

theorem length_alternate (a : Arena) (f1 f2 : NFA) :
    (alternate a f1 f2).2.states.length = a.states.length + 2 := by
  unfold alternate createState
  simp [length_clearFinal, length_addTransition]

theorem fst_alternate (a : Arena) (f1 f2 : NFA) :
    (alternate a f1 f2).1 = ⟨a.states.length, a.states.length + 1⟩ := by
  unfold alternate createState
  simp

theorem deref_alternate_lt (a : Arena) (f1 f2 : NFA) (i : Nat) (h : i < a.states.length)
    (h1 : i ≠ f1.accept) (h2 : i ≠ f2.accept) :
    deref (alternate a f1 f2).2.states i = deref a.states i := by
  unfold alternate createState
  simp only [clearFinal, addTransition, deref_modifyState]
  rw [if_neg (fun hh => h2 hh.1), if_neg (fun hh => h1 hh.1), if_neg (fun hh => h2 hh.1),
    if_neg (fun hh => h1 hh.1), if_neg (by omega), if_neg (by omega), deref_snoc,
    if_neg (by simp; omega), deref_snoc, if_neg (by omega)]

theorem symWord_epsilon : symWord Epsilon = [] := by
  simp [symWord]

/-- A Fragment whose accept state has received a single `Epsilon` transition to
a state `acc` without transitions: the paths of the new arena `S1` from the
Fragment are the old ones, possibly followed by the new transition. -/
theorem exit_paths (S S1 : List State) (e : Regex) (f : NFA) (lo hi acc : Nat)
    (hF : Frag S e f lo hi)
    (hagree : ∀ p x q, lo ≤ p → p < hi → p ≠ f.accept → (Step S1 p x q ↔ Step S p x q))
    (hacc : ∀ x q, Step S1 f.accept x q ↔ x = Epsilon ∧ q = acc)
    (hnew : ∀ x q, ¬ Step S1 acc x q) :
    (∀ p w q, lo ≤ p → p < hi → Path S1 p w q →
        Path S p w q ∨ (Path S p w f.accept ∧ q = acc)) ∧
    (∀ p w, lo ≤ p → p < hi → Path S p w f.accept → Path S1 p w acc) ∧
    (∀ p w q, lo ≤ p → p < hi → Path S p w q → Path S1 p w q) := by
  have hkeep : ∀ p w q, lo ≤ p → p < hi → Path S p w q → Path S1 p w q := by
    intro p w q h1 h2 hp
    exact path_keep S S1 (fun p => lo ≤ p ∧ p < hi) f.accept hF.region_closed
      (fun p x q hp hne => hagree p x q hp.1 hp.2 hne) hF.accept_out p w q ⟨h1, h2⟩ hp
  refine ⟨?_, ?_, hkeep⟩
  · intro p w q h1 h2 hp
    rcases path_through S S1 (fun p => lo ≤ p ∧ p < hi) f.accept hF.region_closed
      (fun p x q hp hne => hagree p x q hp.1 hp.2 hne) p w q ⟨h1, h2⟩ hp with
      h3 | ⟨w1, w2, hw, h3, h4⟩
    · exact Or.inl h3
    · cases h4 with
      | refl =>
        rw [hw, List.append_nil]
        exact Or.inl h3
      | step hs hrest =>
        obtain ⟨hx, hq⟩ := (hacc _ _).1 hs
        subst hx hq
        obtain ⟨h5, h6⟩ := Path.of_no_step hnew hrest
        subst h5 h6
        rw [hw, symWord_epsilon, List.append_nil, List.append_nil]
        exact Or.inr ⟨h3, rfl⟩
  · intro p w h1 h2 hp
    have h3 := Path.append (hkeep p w _ h1 h2 hp)
      (Path.single ((hacc Epsilon acc).2 ⟨rfl, rfl⟩))
    rw [symWord_epsilon, List.append_nil] at h3
    exact h3

/-- The Fragment made by `alternate` from the Fragments of `e1` and `e2` that
occupy adjacent ranges at the end of the arena. -/
theorem frag_alternate (a : Arena) (e1 e2 : Regex) (f1 f2 : NFA) (lo mid : Nat)
    (h1 : Frag a.states e1 f1 lo mid) (h2 : Frag a.states e2 f2 mid a.states.length) :
    Frag (alternate a f1 f2).2.states (.alt e1 e2) (alternate a f1 f2).1 lo
      (a.states.length + 2) := by
  have hmid : mid ≤ a.states.length := h1.hi_le
  have hlo : lo ≤ mid := le_trans h1.start_ge (le_of_lt h1.start_lt)
  have ha1 := h1.accept_lt
  have ha1g := h1.accept_ge
  have ha2 := h2.accept_lt
  have ha2g := h2.accept_ge
  have hs1 := h1.start_lt
  have hs1g := h1.start_ge
  have hs2 := h2.start_lt
  have hs2g := h2.start_ge
  have hstep := step_alternate a f1 f2 (by omega) ha2
  have hold : ∀ p x q, a.states.length ≤ p → ¬ Step a.states p x q :=
    fun p x q hp => step_of_length_le a.states p hp x q
  have hnew : ∀ x q, ¬ Step (alternate a f1 f2).2.states (a.states.length + 1) x q := by
    intro x q hs
    rcases (hstep _ x q).1 hs with h | ⟨h, -⟩ | ⟨h, -⟩
    · exact hold _ x q (by omega) h
    · omega
    · omega
  have hstart : ∀ x q, Step (alternate a f1 f2).2.states a.states.length x q ↔
      x = Epsilon ∧ (q = f1.start ∨ q = f2.start) := by
    intro x q
    rw [hstep]
    constructor
    · rintro (h | ⟨-, h⟩ | ⟨h, -⟩)
      · exact absurd h (hold _ x q (le_refl _))
      · exact h
      · omega
    · intro h
      exact Or.inr (Or.inl ⟨rfl, h⟩)
  have hagree1 : ∀ p x q, lo ≤ p → p < mid → p ≠ f1.accept →
      (Step (alternate a f1 f2).2.states p x q ↔ Step a.states p x q) := by
    intro p x q hp1 hp2 hp3
    rw [hstep]
    constructor
    · rintro (h | ⟨h, -⟩ | ⟨h, -⟩)
      · exact h
      · omega
      · omega
    · exact Or.inl
  have hagree2 : ∀ p x q, mid ≤ p → p < a.states.length → p ≠ f2.accept →
      (Step (alternate a f1 f2).2.states p x q ↔ Step a.states p x q) := by
    intro p x q hp1 hp2 hp3
    rw [hstep]
    constructor
    · rintro (h | ⟨h, -⟩ | ⟨h, -⟩)
      · exact h
      · omega
      · omega
    · exact Or.inl
  have hacc1 : ∀ x q, Step (alternate a f1 f2).2.states f1.accept x q ↔
      x = Epsilon ∧ q = a.states.length + 1 := by
    intro x q
    rw [hstep]
    constructor
    · rintro (h | ⟨h, -⟩ | ⟨-, h⟩)
      · exact absurd h (h1.accept_out x q)
      · omega
      · exact h
    · intro h
      exact Or.inr (Or.inr ⟨Or.inl rfl, h⟩)
  have hacc2 : ∀ x q, Step (alternate a f1 f2).2.states f2.accept x q ↔
      x = Epsilon ∧ q = a.states.length + 1 := by
    intro x q
    rw [hstep]
    constructor
    · rintro (h | ⟨h, -⟩ | ⟨-, h⟩)
      · exact absurd h (h2.accept_out x q)
      · omega
      · exact h
    · intro h
      exact Or.inr (Or.inr ⟨Or.inr rfl, h⟩)
  obtain ⟨p1a, p1b, p1c⟩ := exit_paths a.states _ e1 f1 lo mid _ h1 hagree1 hacc1 hnew
  obtain ⟨p2a, p2b, p2c⟩ := exit_paths a.states _ e2 f2 mid _ _ h2 hagree2 hacc2 hnew
  have hstay1 : ∀ w q, Path a.states f1.start w q → lo ≤ q ∧ q < mid := fun w q hp =>
    Path.stays (fun p => lo ≤ p ∧ p < mid) h1.region_closed hp ⟨hs1g, hs1⟩
  have hstay2 : ∀ w q, Path a.states f2.start w q → mid ≤ q ∧ q < a.states.length :=
    fun w q hp =>
      Path.stays (fun p => mid ≤ p ∧ p < a.states.length) h2.region_closed hp ⟨hs2g, hs2⟩
  -- paths of the new arena from the new start state
  have hfrom : ∀ w q, Path (alternate a f1 f2).2.states a.states.length w q →
      (w = [] ∧ q = a.states.length) ∨ Path a.states f1.start w q ∨
      Path a.states f2.start w q ∨
      ((Path a.states f1.start w f1.accept ∨ Path a.states f2.start w f2.accept) ∧
        q = a.states.length + 1) := by
    intro w q hp
    cases hp with
    | refl => exact Or.inl ⟨rfl, rfl⟩
    | step hs hrest =>
      obtain ⟨hx, hq⟩ := (hstart _ _).1 hs
      subst hx
      rw [symWord_epsilon, List.nil_append]
      rcases hq with hq | hq
      · subst hq
        rcases p1a _ _ _ hs1g hs1 hrest with h | ⟨h, h3⟩
        · exact Or.inr (Or.inl h)
        · exact Or.inr (Or.inr (Or.inr ⟨Or.inl h, h3⟩))
      · subst hq
        rcases p2a _ _ _ hs2g hs2 hrest with h | ⟨h, h3⟩
        · exact Or.inr (Or.inr (Or.inl h))
        · exact Or.inr (Or.inr (Or.inr ⟨Or.inr h, h3⟩))
  have hin1 : ∀ w, Path a.states f1.start w f1.accept →
      Path (alternate a f1 f2).2.states a.states.length w (a.states.length + 1) :=
    fun w hp => Path.eps_step ((hstart _ _).2 ⟨rfl, Or.inl rfl⟩) (p1b _ w hs1g hs1 hp)
  have hin2 : ∀ w, Path a.states f2.start w f2.accept →
      Path (alternate a f1 f2).2.states a.states.length w (a.states.length + 1) :=
    fun w hp => Path.eps_step ((hstart _ _).2 ⟨rfl, Or.inr rfl⟩) (p2b _ w hs2g hs2 hp)
  rw [fst_alternate]
  constructor
  · show lo ≤ a.states.length
    omega
  · show a.states.length < a.states.length + 2
    omega
  · show lo ≤ a.states.length + 1
    omega
  · show a.states.length + 1 < a.states.length + 2
    omega
  · show a.states.length ≠ a.states.length + 1
    omega
  · rw [length_alternate]
  · intro p x q hp1 hp2 hs
    show lo ≤ q ∧ q < a.states.length + 2 ∧ q ≠ a.states.length
    rcases (hstep p x q).1 hs with h | ⟨-, -, h | h⟩ | ⟨-, -, h⟩
    · have hp3 : p < a.states.length := by
        by_contra hge
        exact hold p x q (by omega) h
      by_cases hp4 : p < mid
      · have := h1.closed p x q hp1 hp4 h
        omega
      · have := h2.closed p x q (by omega) hp3 h
        omega
    · omega
    · omega
    · omega
  · exact hnew
  · intro w
    show Path _ a.states.length w (a.states.length + 1) ↔ _
    rw [matches_alt, ← h1.lang, ← h2.lang]
    constructor
    · intro hp
      rcases hfrom w _ hp with ⟨-, h⟩ | h | h | ⟨h, -⟩
      · omega
      · have := hstay1 _ _ h
        omega
      · have := hstay2 _ _ h
        omega
      · exact h
    · rintro (h | h)
      · exact hin1 w h
      · exact hin2 w h
  · intro p hp1 hp2
    show _ ↔ p = a.states.length + 1
    rw [isFinal_alternate]
    by_cases e2a : p = f2.accept
    · rw [if_pos e2a]
      simp
      omega
    · rw [if_neg e2a]
      by_cases e1a : p = f1.accept
      · rw [if_pos e1a]
        simp
        omega
      · rw [if_neg e1a]
        by_cases e3 : p = a.states.length + 1
        · rw [if_pos e3]
          simp [e3]
        · rw [if_neg e3]
          by_cases e4 : p = a.states.length
          · rw [if_pos e4]
            simp [e3]
          · rw [if_neg e4]
            have hp3 : p < a.states.length := by omega
            by_cases hp4 : p < mid
            · rw [h1.final p hp1 hp4]
              simp [e1a, e3]
            · rw [h2.final p (by omega) hp3]
              simp [e2a, e3]
  · intro p w hp
    show ∃ w1, Path _ p w1 (a.states.length + 1)
    rcases hfrom w p hp with ⟨-, h⟩ | h | h | ⟨-, h⟩
    · subst h
      obtain ⟨w1, hw1⟩ := h1.live f1.start [] (Path.refl _)
      exact ⟨w1, hin1 w1 hw1⟩
    · obtain ⟨w1, hw1⟩ := h1.live p w h
      have := hstay1 _ _ h
      exact ⟨w1, p1b p w1 this.1 this.2 hw1⟩
    · obtain ⟨w1, hw1⟩ := h2.live p w h
      have := hstay2 _ _ h
      exact ⟨w1, p2b p w1 this.1 this.2 hw1⟩
    · subst h
      exact ⟨[], Path.refl _⟩
  · intro p x q hp1 hp2 hs
    rcases (hstep p x q).1 hs with h | ⟨-, h, -⟩ | ⟨-, h, -⟩
    · have hp3 : p < a.states.length := by
        by_contra hge
        exact hold p x q (by omega) h
      by_cases hp4 : p < mid
      · exact h1.labels p x q hp1 hp4 h
      · exact h2.labels p x q (by omega) hp3 h
    · exact Or.inl h
    · exact Or.inl h

theorem step_kleeneStar (a : Arena) (f : NFA) (h1 : f.accept < a.states.length)
    (p : Nat) (x : Char) (q : Nat) :
    Step (kleeneStar a f).2.states p x q ↔
      Step a.states p x q ∨
      ((p = a.states.length ∨ p = f.accept) ∧ x = Epsilon ∧
        (q = a.states.length + 1 ∨ q = f.start)) := by
  unfold kleeneStar createState
  simp only
  rw [step_clearFinal,
    step_addTransition _ _ _ _ (by simp [length_addTransition]; omega),
    step_addTransition _ _ _ _ (by simp [length_addTransition]; omega),
    step_addTransition _ _ _ _ (by simp [length_addTransition]),
    step_addTransition _ _ _ _ (by simp), step_twoNew]
  simp only [List.length_append, List.length_singleton]
  tauto

theorem isFinal_kleeneStar (a : Arena) (f : NFA) (p : Nat) :
    (deref (kleeneStar a f).2.states p).isFinal =
      if p = f.accept then false
      else if p = a.states.length + 1 then true
      else if p = a.states.length then false else (deref a.states p).isFinal := by
  unfold kleeneStar createState
  simp only
  rw [isFinal_clearFinal, isFinal_addTransition, isFinal_addTransition,
    isFinal_addTransition, isFinal_addTransition, deref_snoc, deref_snoc]
  simp only [List.length_append, List.length_singleton]
  split_ifs <;> rfl

theorem length_kleeneStar (a : Arena) (f : NFA) :
    (kleeneStar a f).2.states.length = a.states.length + 2 := by
  unfold kleeneStar createState
  simp [length_clearFinal, length_addTransition]

theorem fst_kleeneStar (a : Arena) (f : NFA) :
    (kleeneStar a f).1 = ⟨a.states.length, a.states.length + 1⟩ := by
  unfold kleeneStar createState
  simp

theorem deref_kleeneStar_lt (a : Arena) (f : NFA) (i : Nat) (h : i < a.states.length)
    (h1 : i ≠ f.accept) : deref (kleeneStar a f).2.states i = deref a.states i := by
  unfold kleeneStar createState
  simp only [clearFinal, addTransition, deref_modifyState]
  rw [if_neg (fun hh => h1 hh.1), if_neg (fun hh => h1 hh.1), if_neg (fun hh => h1 hh.1),
    if_neg (by omega), if_neg (by omega), deref_snoc,
    if_neg (by simp; omega), deref_snoc, if_neg (by omega)]

/-- The Fragment made by `kleeneStar` from the Fragment of `e` at the end of
the arena. -/
theorem frag_kleeneStar (a : Arena) (e : Regex) (f : NFA) (lo : Nat)
    (h1 : Frag a.states e f lo a.states.length) :
    Frag (kleeneStar a f).2.states (.star e) (kleeneStar a f).1 lo (a.states.length + 2) := by
  have ha1 := h1.accept_lt
  have ha1g := h1.accept_ge
  have hs1 := h1.start_lt
  have hs1g := h1.start_ge
  have hstep := step_kleeneStar a f ha1
  have hold : ∀ p x q, a.states.length ≤ p → ¬ Step a.states p x q :=
    fun p x q hp => step_of_length_le a.states p hp x q
  have hnew : ∀ x q, ¬ Step (kleeneStar a f).2.states (a.states.length + 1) x q := by
    intro x q hs
    rcases (hstep _ x q).1 hs with h | ⟨h, -⟩
    · exact hold _ x q (by omega) h
    · omega
  have hstart : ∀ x q, Step (kleeneStar a f).2.states a.states.length x q ↔
      x = Epsilon ∧ (q = a.states.length + 1 ∨ q = f.start) := by
    intro x q
    rw [hstep]
    constructor
    · rintro (h | ⟨-, h⟩)
      · exact absurd h (hold _ x q (le_refl _))
      · exact h
    · intro h
      exact Or.inr ⟨Or.inl rfl, h⟩
  have hacc : ∀ x q, Step (kleeneStar a f).2.states f.accept x q ↔
      x = Epsilon ∧ (q = a.states.length + 1 ∨ q = f.start) := by
    intro x q
    rw [hstep]
    constructor
    · rintro (h | ⟨-, h⟩)
      · exact absurd h (h1.accept_out x q)
      · exact h
    · intro h
      exact Or.inr ⟨Or.inr rfl, h⟩
  have hagree : ∀ p x q, lo ≤ p → p < a.states.length → p ≠ f.accept →
      (Step (kleeneStar a f).2.states p x q ↔ Step a.states p x q) := by
    intro p x q hp1 hp2 hp3
    rw [hstep]
    constructor
    · rintro (h | ⟨h | h, -⟩)
      · exact h
      · omega
      · exact absurd h hp3
    · exact Or.inl
  have hkeep : ∀ p w q, lo ≤ p → p < a.states.length → Path a.states p w q →
      Path (kleeneStar a f).2.states p w q := by
    intro p w q hp1 hp2 hp
    exact path_keep a.states _ (fun p => lo ≤ p ∧ p < a.states.length) f.accept
      h1.region_closed (fun p x q hp hne => hagree p x q hp.1 hp.2 hne) h1.accept_out
      p w q ⟨hp1, hp2⟩ hp
  have hexit : Path (kleeneStar a f).2.states f.accept [] (a.states.length + 1) :=
    Path.eps_step ((hacc _ _).2 ⟨rfl, Or.inl rfl⟩) (Path.refl _)
  -- words of the paths from the Fragment to the new accept state
  have hword : ∀ p w q, Path (kleeneStar a f).2.states p w q → lo ≤ p → p < a.states.length →
      q = a.states.length + 1 →
      ∃ w1 w2, w = w1 ++ w2 ∧ Path a.states p w1 f.accept ∧ Matches (.star e) w2 := by
    intro p w q hp
    induction hp with
    | refl p =>
      intro _ h3 h4
      omega
    | @step p p1 r x w hs hrest ih =>
      intro h2 h3 h4
      by_cases hpa : p = f.accept
      · subst hpa
        obtain ⟨hx, hq⟩ := (hacc _ _).1 hs
        subst hx
        rw [symWord_epsilon, List.nil_append]
        rcases hq with hq | hq
        · subst hq
          obtain ⟨h5, -⟩ := Path.of_no_step hnew hrest
          subst h5
          exact ⟨[], [], rfl, Path.refl _, Matches.starNil⟩
        · subst hq
          obtain ⟨w1, w2, hw, h5, h6⟩ := ih hs1g hs1 h4
          exact ⟨[], w1 ++ w2, by simp [hw], Path.refl _,
            Matches.starCons ((h1.lang w1).1 h5) h6⟩
      · have hs0 := (hagree p x p1 h2 h3 hpa).1 hs
        have hin := h1.closed p x p1 h2 h3 hs0
        obtain ⟨w1, w2, hw, h5, h6⟩ := ih hin.1 hin.2.1 h4
        exact ⟨symWord x ++ w1, w2, by rw [hw, List.append_assoc], Path.step hs0 h5, h6⟩
  -- states reached from the Fragment in the new arena
  have hreach : ∀ p w q, Path (kleeneStar a f).2.states p w q → lo ≤ p → p < a.states.length →
      q = a.states.length + 1 ∨ (∃ w1, Path a.states p w1 q) ∨
        (∃ w1, Path a.states f.start w1 q) := by
    intro p w q hp
    induction hp with
    | refl p =>
      intro _ _
      exact Or.inr (Or.inl ⟨[], Path.refl p⟩)
    | @step p p1 r x w hs hrest ih =>
      intro h2 h3
      by_cases hpa : p = f.accept
      · subst hpa
        obtain ⟨hx, hq⟩ := (hacc _ _).1 hs
        rcases hq with hq | hq
        · subst hq
          obtain ⟨-, h5⟩ := Path.of_no_step hnew hrest
          exact Or.inl h5
        · subst hq
          rcases ih hs1g hs1 with h | h | h
          · exact Or.inl h
          · exact Or.inr (Or.inr h)
          · exact Or.inr (Or.inr h)
      · have hs0 := (hagree p x p1 h2 h3 hpa).1 hs
        have hin := h1.closed p x p1 h2 h3 hs0
        rcases ih hin.1 hin.2.1 with h | ⟨w1, h⟩ | h
        · exact Or.inl h
        · exact Or.inr (Or.inl ⟨_, Path.step hs0 h⟩)
        · exact Or.inr (Or.inr h)
  -- every word of the star leads from the old accept state to the new one
  have hloop : ∀ r w, Matches r w → r = .star e →
      Path (kleeneStar a f).2.states f.accept w (a.states.length + 1) := by
    intro r w hm
    induction hm with
    | lit c => intro h; cases h
    | blank => intro h; cases h
    | altLeft _ _ => intro h; cases h
    | altRight _ _ => intro h; cases h
    | cat _ _ _ _ => intro h; cases h
    | starNil => intro _; exact hexit
    | @starCons r u v hu _ _ ih2 =>
      intro h
      injection h with h
      subst h
      have hp1 := hkeep _ _ _ hs1g hs1 ((h1.lang u).2 hu)
      exact Path.eps_step ((hacc _ _).2 ⟨rfl, Or.inr rfl⟩) (Path.append hp1 (ih2 rfl))
  have hstay : ∀ p w q, lo ≤ p → p < a.states.length → Path a.states p w q →
      lo ≤ q ∧ q < a.states.length := fun p w q hp1 hp2 hp =>
    Path.stays (fun p => lo ≤ p ∧ p < a.states.length) h1.region_closed hp ⟨hp1, hp2⟩
  have hlive : ∀ q w1, Path a.states f.start w1 q →
      ∃ w2, Path (kleeneStar a f).2.states q w2 (a.states.length + 1) := by
    intro q w1 hp
    obtain ⟨w2, hw2⟩ := h1.live q w1 hp
    have hq := hstay _ _ _ hs1g hs1 hp
    have := Path.append (hkeep q w2 _ hq.1 hq.2 hw2) hexit
    exact ⟨_, this⟩
  rw [fst_kleeneStar]
  constructor
  · show lo ≤ a.states.length
    omega
  · show a.states.length < a.states.length + 2
    omega
  · show lo ≤ a.states.length + 1
    omega
  · show a.states.length + 1 < a.states.length + 2
    omega
  · show a.states.length ≠ a.states.length + 1
    omega
  · rw [length_kleeneStar]
  · intro p x q hp1 hp2 hs
    show lo ≤ q ∧ q < a.states.length + 2 ∧ q ≠ a.states.length
    rcases (hstep p x q).1 hs with h | ⟨-, -, h | h⟩
    · have hp3 : p < a.states.length := by
        by_contra hge
        exact hold p x q (by omega) h
      have := h1.closed p x q hp1 hp3 h
      omega
    · omega
    · omega
  · exact hnew
  · intro w
    show Path _ a.states.length w (a.states.length + 1) ↔ _
    constructor
    · intro hp
      rcases hp.inv with ⟨-, h⟩ | ⟨x, p1, w1, hs, hrest, hw⟩
      · omega
      · obtain ⟨hx, hq⟩ := (hstart _ _).1 hs
        subst hx
        rw [symWord_epsilon, List.nil_append] at hw
        subst hw
        rcases hq with hq | hq
        · subst hq
          obtain ⟨h5, -⟩ := Path.of_no_step hnew hrest
          subst h5
          exact Matches.starNil
        · subst hq
          obtain ⟨w1, w2, hw, h5, h6⟩ := hword _ _ _ hrest hs1g hs1 rfl
          rw [hw]
          exact Matches.starCons ((h1.lang w1).1 h5) h6
    · intro hm
      cases hm with
      | starNil =>
        exact Path.eps_step ((hstart _ _).2 ⟨rfl, Or.inl rfl⟩) (Path.refl _)
      | @starCons _ u v hu hv =>
        have hp1 := hkeep _ _ _ hs1g hs1 ((h1.lang u).2 hu)
        exact Path.eps_step ((hstart _ _).2 ⟨rfl, Or.inr rfl⟩)
          (Path.append hp1 (hloop _ v hv rfl))
  · intro p hp1 hp2
    show _ ↔ p = a.states.length + 1
    rw [isFinal_kleeneStar]
    by_cases e1a : p = f.accept
    · rw [if_pos e1a]
      simp
      omega
    · rw [if_neg e1a]
      by_cases e3 : p = a.states.length + 1
      · rw [if_pos e3]
        simp [e3]
      · rw [if_neg e3]
        by_cases e4 : p = a.states.length
        · rw [if_pos e4]
          simp [e3]
        · rw [if_neg e4, h1.final p hp1 (by omega)]
          simp [e1a, e3]
  · intro p w hp
    show ∃ w1, Path _ p w1 (a.states.length + 1)
    cases hp with
    | refl =>
      exact ⟨[], Path.eps_step ((hstart _ _).2 ⟨rfl, Or.inl rfl⟩) (Path.refl _)⟩
    | step hs hrest =>
      obtain ⟨hx, hq⟩ := (hstart _ _).1 hs
      rcases hq with hq | hq
      · subst hq
        obtain ⟨-, h5⟩ := Path.of_no_step hnew hrest
        subst h5
        exact ⟨[], Path.refl _⟩
      · subst hq
        rcases hreach _ _ _ hrest hs1g hs1 with h | ⟨w1, h⟩ | ⟨w1, h⟩
        · subst h
          exact ⟨[], Path.refl _⟩
        · exact hlive p w1 h
        · exact hlive p w1 h
  · intro p x q hp1 hp2 hs
    rcases (hstep p x q).1 hs with h | ⟨-, h, -⟩
    · have hp3 : p < a.states.length := by
        by_contra hge
        exact hold p x q (by omega) h
      exact h1.labels p x q hp1 hp3 h
    · exact Or.inl h

theorem deref_concatenate (a : Arena) (f1 f2 : NFA) (p : Nat) :
    deref (concatenate a f1 f2).2.states p =
      if p = f1.accept ∧ f1.accept < a.states.length then
        { (if f1.accept = f2.start then
            { deref a.states f1.accept with transitions := [] }
          else
            { deref a.states f1.accept with
              transitions := (deref a.states f1.accept).transitions ++
                (deref a.states f2.start).transitions }) with isFinal := false }
      else if p = f2.start ∧ f2.start < a.states.length then
        { deref a.states f2.start with transitions := [] }
      else deref a.states p := by
  obtain ⟨s1, a1⟩ := f1
  obtain ⟨s2, a2⟩ := f2
  unfold concatenate clearFinal
  simp only [deref_modifyState, length_modifyState]
  by_cases h1 : p = a1 ∧ a1 < a.states.length
  · obtain ⟨h1a, h1b⟩ := h1
    subst h1a
    by_cases h2 : p = s2
    · subst h2
      simp [h1b]
    · simp [h1b, h2]
  · rw [if_neg h1, if_neg h1]
    by_cases h2 : p = s2 ∧ s2 < a.states.length
    · obtain ⟨h2a, h2b⟩ := h2
      subst h2a
      simp [h2b, h1]
    · rw [if_neg h2, if_neg h2, if_neg h1]

theorem step_concatenate (a : Arena) (f1 f2 : NFA) (h1 : f1.accept < a.states.length)
    (h2 : f2.start < a.states.length) (hne : f1.accept ≠ f2.start)
    (p : Nat) (x : Char) (q : Nat) :
    Step (concatenate a f1 f2).2.states p x q ↔
      (p ≠ f2.start ∧ Step a.states p x q) ∨ (p = f1.accept ∧ Step a.states f2.start x q) := by
  unfold Step
  rw [deref_concatenate]
  by_cases hp1 : p = f1.accept
  · subst hp1
    rw [if_pos ⟨rfl, h1⟩, if_neg hne]
    constructor
    · rintro ⟨t, ht, h3⟩
      rcases List.mem_append.1 ht with ht | ht
      · exact Or.inl ⟨hne, t, ht, h3⟩
      · exact Or.inr ⟨rfl, t, ht, h3⟩
    · rintro (⟨-, t, ht, h3⟩ | ⟨-, t, ht, h3⟩)
      · exact ⟨t, List.mem_append.2 (Or.inl ht), h3⟩
      · exact ⟨t, List.mem_append.2 (Or.inr ht), h3⟩
  · rw [if_neg (fun h => hp1 h.1)]
    by_cases hp2 : p = f2.start
    · subst hp2
      simp [h2, hp1]
    · rw [if_neg (fun h => hp2 h.1)]
      simp [hp1, hp2]

theorem isFinal_concatenate (a : Arena) (f1 f2 : NFA) (p : Nat) (hp : p ≠ f1.accept) :
    (deref (concatenate a f1 f2).2.states p).isFinal = (deref a.states p).isFinal := by
  rw [deref_concatenate, if_neg (fun h => hp h.1)]
  split
  · rename_i h
    rw [h.1]
  · rfl

theorem isFinal_concatenate_accept (a : Arena) (f1 f2 : NFA) :
    (deref (concatenate a f1 f2).2.states f1.accept).isFinal = false := by
  rw [deref_concatenate]
  by_cases h : f1.accept < a.states.length
  · simp [h]
  · rw [if_neg (fun hh => h hh.2)]
    split
    · rw [deref_of_length_le _ _ (by omega)]
    · rw [deref_of_length_le _ _ (by omega)]

theorem length_concatenate (a : Arena) (f1 f2 : NFA) :
    (concatenate a f1 f2).2.states.length = a.states.length := by
  unfold concatenate
  simp [length_clearFinal, length_modifyState]

theorem deref_concatenate_other (a : Arena) (f1 f2 : NFA) (i : Nat) (h1 : i ≠ f1.accept)
    (h2 : i ≠ f2.start) : deref (concatenate a f1 f2).2.states i = deref a.states i := by
  rw [deref_concatenate, if_neg (fun h => h1 h.1), if_neg (fun h => h2 h.1)]

/-- The Fragment made by `concatenate` from the Fragments of `e1` and `e2` that
occupy adjacent ranges at the end of the arena. -/
theorem frag_concatenate (a : Arena) (e1 e2 : Regex) (f1 f2 : NFA) (lo mid : Nat)
    (h1 : Frag a.states e1 f1 lo mid) (h2 : Frag a.states e2 f2 mid a.states.length) :
    Frag (concatenate a f1 f2).2.states (.cat e1 e2) (concatenate a f1 f2).1 lo
      a.states.length := by
  have hmid : mid ≤ a.states.length := h1.hi_le
  have ha1 := h1.accept_lt
  have ha1g := h1.accept_ge
  have ha2 := h2.accept_lt
  have ha2g := h2.accept_ge
  have hs1 := h1.start_lt
  have hs1g := h1.start_ge
  have hs2 := h2.start_lt
  have hs2g := h2.start_ge
  have hne2 := h2.ne
  have hstep := step_concatenate a f1 f2 (by omega) hs2 (by omega)
  have hf : (concatenate a f1 f2).1 = ⟨f1.start, f2.accept⟩ := rfl
  have hagree1 : ∀ p x q, (lo ≤ p ∧ p < mid) → p ≠ f1.accept →
      (Step (concatenate a f1 f2).2.states p x q ↔ Step a.states p x q) := by
    intro p x q hp hpa
    rw [hstep]
    constructor
    · rintro (⟨-, h⟩ | ⟨h, -⟩)
      · exact h
      · exact absurd h hpa
    · intro h
      exact Or.inl ⟨by omega, h⟩
  have hclosedY : ∀ p x q, (mid ≤ p ∧ p < a.states.length ∧ p ≠ f2.start) →
      Step a.states p x q → (mid ≤ q ∧ q < a.states.length ∧ q ≠ f2.start) :=
    fun p x q hp hs => h2.closed p x q hp.1 hp.2.1 hs
  have hagreeY : ∀ p x q, (mid ≤ p ∧ p < a.states.length ∧ p ≠ f2.start) →
      (Step (concatenate a f1 f2).2.states p x q ↔ Step a.states p x q) := by
    intro p x q hp
    rw [hstep]
    constructor
    · rintro (⟨-, h⟩ | ⟨h, -⟩)
      · exact h
      · omega
    · intro h
      exact Or.inl ⟨hp.2.2, h⟩
  have hframeY := path_frame a.states (concatenate a f1 f2).2.states _ hclosedY hagreeY
  have hacc : ∀ x q, Step (concatenate a f1 f2).2.states f1.accept x q ↔
      Step a.states f2.start x q := by
    intro x q
    rw [hstep]
    constructor
    · rintro (⟨-, h⟩ | ⟨-, h⟩)
      · exact absurd h (h1.accept_out x q)
      · exact h
    · intro h
      exact Or.inr ⟨rfl, h⟩
  have hkeep : ∀ p w q, lo ≤ p → p < mid → Path a.states p w q →
      Path (concatenate a f1 f2).2.states p w q := by
    intro p w q hp1 hp2 hp
    exact path_keep a.states _ (fun p => lo ≤ p ∧ p < mid) f1.accept h1.region_closed
      hagree1 h1.accept_out p w q ⟨hp1, hp2⟩ hp
  have hstay1 : ∀ w q, Path a.states f1.start w q → lo ≤ q ∧ q < mid := fun w q hp =>
    Path.stays (fun p => lo ≤ p ∧ p < mid) h1.region_closed hp ⟨hs1g, hs1⟩
  -- paths from the old accept state of the first Fragment
  have hcross : ∀ v q, Path a.states f2.start v q → q ≠ f2.start →
      Path (concatenate a f1 f2).2.states f1.accept v q := by
    intro v q hp hq
    rcases hp.inv with ⟨-, h⟩ | ⟨x, p1, w1, hs, hrest, hw⟩
    · exact absurd h hq
    · rw [hw]
      have hp1 := h2.closed _ x p1 hs2g hs2 hs
      exact Path.step ((hacc x p1).2 hs) ((hframeY p1 w1 q hp1).2 hrest)
  have hcross2 : ∀ v q, Path (concatenate a f1 f2).2.states f1.accept v q →
      (v = [] ∧ q = f1.accept) ∨ (Path a.states f2.start v q ∧ q ≠ f2.start) := by
    intro v q hp
    rcases hp.inv with h | ⟨x, p1, w1, hs, hrest, hw⟩
    · exact Or.inl h
    · right
      have hs0 := (hacc x p1).1 hs
      have hp1 := h2.closed _ x p1 hs2g hs2 hs0
      have hrest0 := (hframeY p1 w1 q hp1).1 hrest
      have hq := Path.stays _ hclosedY hrest0 hp1
      exact ⟨hw ▸ Path.step hs0 hrest0, hq.2.2⟩
  have hfrom : ∀ w q, Path (concatenate a f1 f2).2.states f1.start w q →
      Path a.states f1.start w q ∨
      ∃ w1 w2, w = w1 ++ w2 ∧ Path a.states f1.start w1 f1.accept ∧
        Path a.states f2.start w2 q ∧ q ≠ f2.start := by
    intro w q hp
    rcases path_through a.states _ (fun p => lo ≤ p ∧ p < mid) f1.accept h1.region_closed
      hagree1 _ w q ⟨hs1g, hs1⟩ hp with h | ⟨w1, w2, hw, h3, h4⟩
    · exact Or.inl h
    · rcases hcross2 w2 q h4 with ⟨h5, h6⟩ | ⟨h5, h6⟩
      · subst h5 h6
        rw [hw, List.append_nil]
        exact Or.inl h3
      · exact Or.inr ⟨w1, w2, hw, h3, h5, h6⟩
  obtain ⟨v0, hv0⟩ := h2.live f2.start [] (Path.refl _)
  have hexit : Path (concatenate a f1 f2).2.states f1.accept v0 f2.accept :=
    hcross v0 _ hv0 (Ne.symm hne2)
  rw [hf]
  constructor
  · exact hs1g
  · show f1.start < a.states.length
    omega
  · show lo ≤ f2.accept
    omega
  · exact ha2
  · show f1.start ≠ f2.accept
    omega
  · rw [length_concatenate]
  · intro p x q hp1 hp2 hs
    show lo ≤ q ∧ q < a.states.length ∧ q ≠ f1.start
    rcases (hstep p x q).1 hs with ⟨-, h⟩ | ⟨-, h⟩
    · by_cases hp4 : p < mid
      · have := h1.closed p x q hp1 hp4 h
        omega
      · have := h2.closed p x q (by omega) hp2 h
        omega
    · have := h2.closed _ x q hs2g hs2 h
      omega
  · intro x q hs
    rcases (hstep _ x q).1 hs with ⟨-, h⟩ | ⟨h, -⟩
    · exact h2.accept_out x q h
    · have : f2.accept = f1.accept := h
      omega
  · intro w
    show Path _ f1.start w f2.accept ↔ _
    rw [matches_cat]
    constructor
    · intro hp
      rcases hfrom w _ hp with h | ⟨w1, w2, hw, h3, h4, -⟩
      · have := hstay1 _ _ h
        omega
      · exact ⟨w1, w2, hw, (h1.lang w1).1 h3, (h2.lang w2).1 h4⟩
    · rintro ⟨u, v, rfl, hu, hv⟩
      exact Path.append (hkeep _ _ _ hs1g hs1 ((h1.lang u).2 hu))
        (hcross v _ ((h2.lang v).2 hv) (Ne.symm hne2))
  · intro p hp1 hp2
    show _ ↔ p = f2.accept
    by_cases hpa : p = f1.accept
    · subst hpa
      rw [isFinal_concatenate_accept]
      simp
      omega
    · rw [isFinal_concatenate a f1 f2 p hpa]
      by_cases hp4 : p < mid
      · rw [h1.final p hp1 hp4]
        simp [hpa]
        omega
      · exact h2.final p (by omega) hp2
  · intro p w hp
    show ∃ w1, Path _ p w1 f2.accept
    rcases hfrom w p hp with h | ⟨w1, w2, -, -, h4, h5⟩
    · obtain ⟨w1, hw1⟩ := h1.live p w h
      have hin := hstay1 _ _ h
      exact ⟨_, Path.append (hkeep p w1 _ hin.1 hin.2 hw1) hexit⟩
    · obtain ⟨w3, hw3⟩ := h2.live p w2 h4
      have hin : mid ≤ p ∧ p < a.states.length :=
        Path.stays (fun p => mid ≤ p ∧ p < a.states.length) h2.region_closed h4 ⟨hs2g, hs2⟩
      exact ⟨w3, (hframeY p w3 _ ⟨hin.1, hin.2, h5⟩).2 hw3⟩
  · intro p x q hp1 hp2 hs
    rcases (hstep p x q).1 hs with ⟨-, h⟩ | ⟨-, h⟩
    · by_cases hp4 : p < mid
      · exact h1.labels p x q hp1 hp4 h
      · exact h2.labels p x q (by omega) hp2 h
    · exact h2.labels _ x q hs2g hs2 h

/-! ## The builder on the postfix form of a tree -/

theorem buildStep_operand (s : List NFA × Arena) (c : Char) (hc : (isalpha c || c == ' ') = true) :
    buildStep s c =
      some ((thompsonConstruction s.2 c).1 :: s.1, (thompsonConstruction s.2 c).2) := by
  simp only [buildStep, hc, if_true]

theorem buildStep_bar (stack : List NFA) (a : Arena) (f2 f1 : NFA) :
    buildStep (f2 :: f1 :: stack, a) '|' =
      some ((alternate a f1 f2).1 :: stack, (alternate a f1 f2).2) := by
  have h : isalpha '|' = false := by decide
  simp [buildStep, h]

theorem buildStep_star (stack : List NFA) (a : Arena) (f : NFA) :
    buildStep (f :: stack, a) '*' = some ((kleeneStar a f).1 :: stack, (kleeneStar a f).2) := by
  have h : isalpha '*' = false := by decide
  have h1 : (('*' : Char) == '|') = false := by decide
  simp [buildStep, h, h1]

theorem buildStep_dot (stack : List NFA) (a : Arena) (f2 f1 : NFA) :
    buildStep (f2 :: f1 :: stack, a) '.' =
      some ((concatenate a f1 f2).1 :: stack, (concatenate a f1 f2).2) := by
  have h : isalpha '.' = false := by decide
  have h1 : (('.' : Char) == '|') = false := by decide
  have h2 : (('.' : Char) == '*') = false := by decide
  simp [buildStep, h, h1, h2]

theorem buildLoop_cons (c : Char) (cs : List Char) (s s1 : List NFA × Arena)
    (h : buildStep s c = some s1) : buildLoop (c :: cs) s = buildLoop cs s1 := by
  simp only [buildLoop, h]

/-- The builder on the postfix form of a tree: one Fragment for the tree is
pushed, built in the part of the arena that is added; the rest of the stack and
the states that existed are unchanged. -/
theorem buildLoop_tree (e : Regex) (he : e.alphabetic) :
    ∀ (rest : List Char) (stack : List NFA) (a : Arena),
      ∃ f a1, buildLoop (e.toPostfix ++ rest) (stack, a) = buildLoop rest (f :: stack, a1) ∧
        Frag a1.states e f a.states.length a1.states.length ∧
        (∀ i, i < a.states.length → deref a1.states i = deref a.states i) := by
  induction e with
  | lit c =>
    intro rest stack a
    have hc : (isalpha c || c == ' ') = true := by
      have : isalpha c = true := he
      simp [this]
    refine ⟨(thompsonConstruction a c).1, (thompsonConstruction a c).2, ?_, ?_, ?_⟩
    · exact buildLoop_cons c rest _ _ (buildStep_operand (stack, a) c hc)
    · rw [length_thompsonConstruction]
      exact frag_atom a c (.lit c) (Or.inl ⟨rfl, he⟩)
    · intro i hi
      exact deref_thompsonConstruction_lt a c i hi
  | blank =>
    intro rest stack a
    refine ⟨(thompsonConstruction a ' ').1, (thompsonConstruction a ' ').2, ?_, ?_, ?_⟩
    · exact buildLoop_cons ' ' rest _ _ (buildStep_operand (stack, a) ' ' (by decide))
    · rw [length_thompsonConstruction]
      exact frag_atom a ' ' .blank (Or.inr ⟨rfl, rfl⟩)
    · intro i hi
      exact deref_thompsonConstruction_lt a ' ' i hi
  | alt e1 e2 ih1 ih2 =>
    intro rest stack a
    obtain ⟨f1, a1, h1, g1, k1⟩ := ih1 he.1 (e2.toPostfix ++ '|' :: rest) stack a
    obtain ⟨f2, a2, h2, g2, k2⟩ := ih2 he.2 ('|' :: rest) (f1 :: stack) a1
    have hlen1 : a.states.length ≤ a1.states.length :=
      le_trans g1.start_ge (le_trans (le_of_lt g1.start_lt) g1.hi_le)
    have hlen2 : a1.states.length ≤ a2.states.length :=
      le_trans g2.start_ge (le_trans (le_of_lt g2.start_lt) g2.hi_le)
    have g1a : Frag a2.states e1 f1 a.states.length a1.states.length :=
      g1.frame hlen2 (fun p _ hp => k2 p hp)
    refine ⟨(alternate a2 f1 f2).1, (alternate a2 f1 f2).2, ?_, ?_, ?_⟩
    · have hp : (Regex.alt e1 e2).toPostfix ++ rest =
          e1.toPostfix ++ (e2.toPostfix ++ '|' :: rest) := by
        simp [Regex.toPostfix]
      rw [hp, h1, h2]
      exact buildLoop_cons '|' rest _ _ (buildStep_bar stack a2 f2 f1)
    · rw [length_alternate]
      exact frag_alternate a2 e1 e2 f1 f2 _ _ g1a g2
    · intro i hi
      have e1a := g1a.accept_ge
      have e2a := g2.accept_ge
      rw [deref_alternate_lt a2 f1 f2 i (by omega) (by omega) (by omega), k2 i (by omega),
        k1 i hi]
  | cat e1 e2 ih1 ih2 =>
    intro rest stack a
    obtain ⟨f1, a1, h1, g1, k1⟩ := ih1 he.1 (e2.toPostfix ++ '.' :: rest) stack a
    obtain ⟨f2, a2, h2, g2, k2⟩ := ih2 he.2 ('.' :: rest) (f1 :: stack) a1
    have hlen1 : a.states.length ≤ a1.states.length :=
      le_trans g1.start_ge (le_trans (le_of_lt g1.start_lt) g1.hi_le)
    have hlen2 : a1.states.length ≤ a2.states.length :=
      le_trans g2.start_ge (le_trans (le_of_lt g2.start_lt) g2.hi_le)
    have g1a : Frag a2.states e1 f1 a.states.length a1.states.length :=
      g1.frame hlen2 (fun p _ hp => k2 p hp)
    refine ⟨(concatenate a2 f1 f2).1, (concatenate a2 f1 f2).2, ?_, ?_, ?_⟩
    · have hp : (Regex.cat e1 e2).toPostfix ++ rest =
          e1.toPostfix ++ (e2.toPostfix ++ '.' :: rest) := by
        simp [Regex.toPostfix]
      rw [hp, h1, h2]
      exact buildLoop_cons '.' rest _ _ (buildStep_dot stack a2 f2 f1)
    · rw [length_concatenate]
      exact frag_concatenate a2 e1 e2 f1 f2 _ _ g1a g2
    · intro i hi
      have e1a := g1a.accept_ge
      have e2a := g2.start_ge
      rw [deref_concatenate_other a2 f1 f2 i (by omega) (by omega), k2 i (by omega), k1 i hi]
  | star e ih =>
    intro rest stack a
    obtain ⟨f1, a1, h1, g1, k1⟩ := ih he ('*' :: rest) stack a
    refine ⟨(kleeneStar a1 f1).1, (kleeneStar a1 f1).2, ?_, ?_, ?_⟩
    · have hp : (Regex.star e).toPostfix ++ rest = e.toPostfix ++ ('*' :: rest) := by
        simp [Regex.toPostfix]
      rw [hp, h1]
      exact buildLoop_cons '*' rest _ _ (buildStep_star stack a1 f1)
    · rw [length_kleeneStar]
      exact frag_kleeneStar a1 e f1 _ g1
    · intro i hi
      have e1a := g1.accept_ge
      have hlen1 : a.states.length ≤ a1.states.length :=
        le_trans g1.start_ge (le_trans (le_of_lt g1.start_lt) g1.hi_le)
      rw [deref_kleeneStar_lt a1 f1 i (by omega) (by omega), k1 i hi]

/-- The builder on the postfix form of a tree returns the Fragment of the
tree. -/
theorem generate_tree (a : Arena) (e : Regex) (he : e.alphabetic) :
    ∃ nfa arena, generateThompsonNFAFromPostfix a e.toPostfix = some (nfa, arena) ∧
      buildLoop e.toPostfix ([], a) = some ([nfa], arena) ∧
      Frag arena.states e nfa a.states.length arena.states.length := by
  obtain ⟨f, a1, h1, h2, -⟩ := buildLoop_tree e he [] [] a
  rw [List.append_nil] at h1
  refine ⟨f, a1, ?_, h1, h2⟩
  simp only [generateThompsonNFAFromPostfix, h1, buildLoop]

/-- The simulation of the NFA of a Fragment accepts the language of the tree. -/
theorem Frag.accepts_iff {S : List State} {e : Regex} {f : NFA} {lo hi : Nat}
    (h : Frag S e f lo hi) (w : List Char) (hw : Epsilon ∉ w) :
    nfaAccepts S f.start w = true ↔ Matches e w := by
  rw [nfaAccepts_iff_path S f.start w hw, ← h.lang]
  constructor
  · rintro ⟨q, hq, hf⟩
    have hin : lo ≤ q ∧ q < hi :=
      Path.stays (fun p => lo ≤ p ∧ p < hi) h.region_closed hq ⟨h.start_ge, h.start_lt⟩
    rw [(h.final q hin.1 hin.2).1 hf] at hq
    exact hq
  · intro hp
    exact ⟨f.accept, hp, (h.final _ h.accept_ge h.accept_lt).2 rfl⟩

/-! ## Soundness of the arena for every postfix string -/

theorem step_concatenate_weak (a : Arena) (f1 f2 : NFA) (p : Nat) (x : Char) (q : Nat)
    (h : Step (concatenate a f1 f2).2.states p x q) :
    Step a.states p x q ∨ Step a.states f2.start x q := by
  unfold Step at h
  rw [deref_concatenate] at h
  split at h
  · rename_i hp
    split at h
    · obtain ⟨t, ht, -⟩ := h
      simp at ht
    · obtain ⟨t, ht, h3⟩ := h
      rcases List.mem_append.1 ht with ht | ht
      · exact Or.inl ⟨t, hp.1 ▸ ht, h3⟩
      · exact Or.inr ⟨t, ht, h3⟩
  · split at h
    · obtain ⟨t, ht, -⟩ := h
      simp at ht
    · exact Or.inl h

theorem buildOk_step (s s1 : List NFA × Arena) (c : Char) (h : buildStep s c = some s1)
    (hs : BuildOk s) : BuildOk s1 := by
  obtain ⟨stack, a⟩ := s
  obtain ⟨hwf, hst⟩ := hs
  simp only at hwf hst
  unfold buildStep at h
  split at h
  · -- an operand
    injection h with h
    subst h
    refine ⟨?_, ?_⟩
    · intro p x q hs
      show q < (thompsonConstruction a c).2.states.length
      rw [length_thompsonConstruction]
      rcases (step_thompsonConstruction a c p x q).1 hs with h1 | ⟨-, -, h1⟩
      · have := hwf p x q h1
        omega
      · omega
    · intro f hf
      show f.start < (thompsonConstruction a c).2.states.length ∧
        f.accept < (thompsonConstruction a c).2.states.length
      rw [length_thompsonConstruction]
      rcases List.mem_cons.1 hf with hf | hf
      · rw [hf, thompsonConstruction_eq]
        simp
      · have := hst f hf
        omega
  · split at h
    · -- alternation
      simp only at h
      split at h
      · rename_i nfa2 nfa1 rest
        injection h with h
        subst h
        have h1 := hst nfa1 (by simp)
        have h2 := hst nfa2 (by simp)
        refine ⟨?_, ?_⟩
        · intro p x q hs
          show q < (alternate a nfa1 nfa2).2.states.length
          rw [length_alternate]
          rcases (step_alternate a nfa1 nfa2 h1.2 h2.2 p x q).1 hs with
            h3 | ⟨-, -, h3 | h3⟩ | ⟨-, -, h3⟩
          · have := hwf p x q h3
            omega
          · omega
          · omega
          · omega
        · intro f hf
          show f.start < (alternate a nfa1 nfa2).2.states.length ∧
            f.accept < (alternate a nfa1 nfa2).2.states.length
          rw [length_alternate]
          rcases List.mem_cons.1 hf with hf | hf
          · rw [hf, fst_alternate]
            simp
          · have := hst f (by simp [hf])
            omega
      · simp at h
    · split at h
      · -- star
        simp only at h
        split at h
        · rename_i nfa rest
          injection h with h
          subst h
          have h1 := hst nfa (by simp)
          refine ⟨?_, ?_⟩
          · intro p x q hs
            show q < (kleeneStar a nfa).2.states.length
            rw [length_kleeneStar]
            rcases (step_kleeneStar a nfa h1.2 p x q).1 hs with h3 | ⟨-, -, h3 | h3⟩
            · have := hwf p x q h3
              omega
            · omega
            · omega
          · intro f hf
            show f.start < (kleeneStar a nfa).2.states.length ∧
              f.accept < (kleeneStar a nfa).2.states.length
            rw [length_kleeneStar]
            rcases List.mem_cons.1 hf with hf | hf
            · rw [hf, fst_kleeneStar]
              simp
            · have := hst f (by simp [hf])
              omega
        · simp at h
      · split at h
        · -- concatenation
          simp only at h
          split at h
          · rename_i nfa2 nfa1 rest
            injection h with h
            subst h
            have h1 := hst nfa1 (by simp)
            have h2 := hst nfa2 (by simp)
            refine ⟨?_, ?_⟩
            · intro p x q hs
              show q < (concatenate a nfa1 nfa2).2.states.length
              rw [length_concatenate]
              rcases step_concatenate_weak a nfa1 nfa2 p x q hs with h3 | h3
              · exact hwf _ x q h3
              · exact hwf _ x q h3
            · intro f hf
              show f.start < (concatenate a nfa1 nfa2).2.states.length ∧
                f.accept < (concatenate a nfa1 nfa2).2.states.length
              rw [length_concatenate]
              rcases List.mem_cons.1 hf with hf | hf
              · rw [hf]
                exact ⟨h1.1, h2.2⟩
              · exact hst f (by simp [hf])
          · simp at h
        · injection h with h
          subst h
          exact ⟨hwf, hst⟩

theorem buildOk_loop (cs : List Char) (s s1 : List NFA × Arena) (h : buildLoop cs s = some s1)
    (hs : BuildOk s) : BuildOk s1 := by
  induction cs generalizing s with
  | nil =>
    simp only [buildLoop, Option.some.injEq] at h
    exact h ▸ hs
  | cons c cs ih =>
    rw [buildLoop] at h
    cases h1 : buildStep s c with
    | none => rw [h1] at h; simp at h
    | some s2 =>
      rw [h1] at h
      exact ih s2 h (buildOk_step s s2 c h1 hs)

/-- Every NFA returned by the builder from the empty arena lies in a sound
arena. -/
theorem generate_wellFormed (pf : List Char) (nfa : NFA) (arena : Arena)
    (h : generateThompsonNFAFromPostfix emptyArena pf = some (nfa, arena)) :
    WellFormed arena.states ∧ nfa.start < arena.states.length := by
  unfold generateThompsonNFAFromPostfix at h
  split at h
  · rename_i f rest a1 hloop
    injection h with h
    injection h with h2 h3
    subst h2 h3
    have hok := buildOk_loop pf ([], emptyArena) _ hloop
      ⟨fun p c q hs => absurd hs (step_of_length_le [] p (Nat.zero_le _) c q),
        fun f hf => by simp at hf⟩
    exact ⟨hok.1, (hok.2 f (by simp)).1⟩
  · simp at h

/-! ## The Fragments of an arbitrary postfix string -/

theorem forest_frame {S S1 : List State} :
    ∀ (stack : List NFA) (hi : Nat), Forest S stack hi → hi ≤ S1.length →
      (∀ p, p < hi → deref S1 p = deref S p) → Forest S1 stack hi := by
  intro stack
  induction stack with
  | nil => intro hi _ _ _; trivial
  | cons f rest ih =>
    rintro hi ⟨e, lo, hf, hrest⟩ hlen hagree
    have hlo : lo ≤ hi := le_trans hf.start_ge (le_of_lt hf.start_lt)
    exact ⟨e, lo, hf.frame hlen (fun p _ hp => hagree p hp),
      ih lo hrest (le_trans hlo hlen) (fun p hp => hagree p (lt_of_lt_of_le hp hlo))⟩

/-- A step of the builder keeps the stack a forest of Fragments that ends at
the end of the arena. -/
theorem forest_step (s s1 : List NFA × Arena) (c : Char) (h : buildStep s c = some s1)
    (hs : Forest s.2.states s.1 s.2.states.length) :
    Forest s1.2.states s1.1 s1.2.states.length := by
  obtain ⟨stack, a⟩ := s
  simp only at hs
  unfold buildStep at h
  split at h
  · -- an operand
    rename_i hc
    injection h with h
    subst h
    show Forest (thompsonConstruction a c).2.states ((thompsonConstruction a c).1 :: stack)
      (thompsonConstruction a c).2.states.length
    rw [length_thompsonConstruction]
    have hrest : Forest (thompsonConstruction a c).2.states stack a.states.length :=
      forest_frame stack _ hs (by rw [length_thompsonConstruction]; omega)
        (fun p hp => deref_thompsonConstruction_lt a c p hp)
    by_cases ha : isalpha c = true
    · exact ⟨.lit c, a.states.length, frag_atom a c (.lit c) (Or.inl ⟨rfl, ha⟩), hrest⟩
    · have hb : c = ' ' := by
        simp only [Bool.or_eq_true, beq_iff_eq] at hc
        rcases hc with hc | hc
        · exact absurd hc ha
        · exact hc
      exact ⟨.blank, a.states.length, frag_atom a c .blank (Or.inr ⟨rfl, hb⟩), hrest⟩
  · split at h
    · -- alternation
      simp only at h
      split at h
      · rename_i nfa2 nfa1 rest
        injection h with h
        subst h
        obtain ⟨e2, mid, g2, e1, lo, g1, hrest⟩ := hs
        show Forest (alternate a nfa1 nfa2).2.states ((alternate a nfa1 nfa2).1 :: rest)
          (alternate a nfa1 nfa2).2.states.length
        rw [length_alternate]
        have h1 := g1.accept_ge
        have h2 := g2.accept_ge
        have h3 := g1.start_ge
        have h4 := g1.start_lt
        have h5 := g2.start_ge
        have h6 := g2.start_lt
        refine ⟨.alt e1 e2, lo, frag_alternate a e1 e2 nfa1 nfa2 lo mid g1 g2, ?_⟩
        exact forest_frame rest lo hrest (by rw [length_alternate]; omega)
          (fun p hp => deref_alternate_lt a nfa1 nfa2 p (by omega) (by omega) (by omega))
      · simp at h
    · split at h
      · -- star
        simp only at h
        split at h
        · rename_i nfa rest
          injection h with h
          subst h
          obtain ⟨e, lo, g, hrest⟩ := hs
          show Forest (kleeneStar a nfa).2.states ((kleeneStar a nfa).1 :: rest)
            (kleeneStar a nfa).2.states.length
          rw [length_kleeneStar]
          have h1 := g.accept_ge
          have h3 := g.start_ge
          have h4 := g.start_lt
          refine ⟨.star e, lo, frag_kleeneStar a e nfa lo g, ?_⟩
          exact forest_frame rest lo hrest (by rw [length_kleeneStar]; omega)
            (fun p hp => deref_kleeneStar_lt a nfa p (by omega) (by omega))
        · simp at h
      · split at h
        · -- concatenation
          simp only at h
          split at h
          · rename_i nfa2 nfa1 rest
            injection h with h
            subst h
            obtain ⟨e2, mid, g2, e1, lo, g1, hrest⟩ := hs
            show Forest (concatenate a nfa1 nfa2).2.states ((concatenate a nfa1 nfa2).1 :: rest)
              (concatenate a nfa1 nfa2).2.states.length
            rw [length_concatenate]
            have h1 := g1.accept_ge
            have h3 := g1.start_ge
            have h4 := g1.start_lt
            have h5 := g2.start_ge
            have h6 := g2.start_lt
            refine ⟨.cat e1 e2, lo, frag_concatenate a e1 e2 nfa1 nfa2 lo mid g1 g2, ?_⟩
            exact forest_frame rest lo hrest (by rw [length_concatenate]; omega)
              (fun p hp => deref_concatenate_other a nfa1 nfa2 p (by omega) (by omega))
          · simp at h
        · injection h with h
          subst h
          exact hs

theorem forest_loop (cs : List Char) (s s1 : List NFA × Arena) (h : buildLoop cs s = some s1)
    (hs : Forest s.2.states s.1 s.2.states.length) :
    Forest s1.2.states s1.1 s1.2.states.length := by
  induction cs generalizing s with
  | nil =>
    simp only [buildLoop, Option.some.injEq] at h
    exact h ▸ hs
  | cons c cs ih =>
    rw [buildLoop] at h
    cases h1 : buildStep s c with
    | none => rw [h1] at h; simp at h
    | some s2 =>
      rw [h1] at h
      exact ih s2 h (forest_step s s2 c h1 hs)

/-- Every NFA returned by the builder from the empty arena is the Fragment of
some tree. -/
theorem generate_frag (pf : List Char) (nfa : NFA) (arena : Arena)
    (h : generateThompsonNFAFromPostfix emptyArena pf = some (nfa, arena)) :
    ∃ (e : Regex) (lo : Nat), Frag arena.states e nfa lo arena.states.length := by
  unfold generateThompsonNFAFromPostfix at h
  split at h
  · rename_i f rest a1 hloop
    injection h with h
    injection h with h2 h3
    subst h2 h3
    obtain ⟨e, lo, hf, -⟩ := forest_loop pf ([], emptyArena) _ hloop trivial
    exact ⟨e, lo, hf⟩
  · simp at h

end Thompson

namespace Thompson

/-! ## The builder and the subset construction preserve the language -/

/-- C1. For every tree `e` over alphabetic literals and the blank atom,
`generateThompsonNFAFromPostfix` applied to the postfix serialisation of `e`
(in any arena) returns a Fragment, and the simulation of its NFA with
`eClosure` and `move` from the start state accepts a word `w` of input symbols
(a word without the `Epsilon` marker) if and only if `w` is in the language of
`e`, where the blank atom denotes the empty word. -/
theorem thompson_nfa_accepts_iff (a : Arena) (e : Regex) (he : e.alphabetic) :
    ∃ nfa arena, generateThompsonNFAFromPostfix a e.toPostfix = some (nfa, arena) ∧
      ∀ w, Epsilon ∉ w → (nfaAccepts arena.states nfa.start w = true ↔ Matches e w) := by
  obtain ⟨nfa, arena, h1, -, h3⟩ := generate_tree a e he
  exact ⟨nfa, arena, h1, fun w hw => h3.accepts_iff w hw⟩

/-- The witness of C1: the tree of "( |a)*b", whose postfix form is " a|*b.". -/
theorem thompson_nfa_accepts_iff_witness :
    ∃ nfa arena, generateThompsonNFAFromPostfix emptyArena " a|*b.".toList = some (nfa, arena) ∧
      ∀ w, Epsilon ∉ w →
        (nfaAccepts arena.states nfa.start w = true ↔
          Matches (.cat (.star (.alt .blank (.lit 'a'))) (.lit 'b')) w) :=
  thompson_nfa_accepts_iff emptyArena (.cat (.star (.alt .blank (.lit 'a'))) (.lit 'b'))
    ⟨⟨trivial, (rfl : isalpha 'a' = true)⟩, (rfl : isalpha 'b' = true)⟩

/-- C2. For every NFA returned by the builder (started with the empty arena),
with `nfaStates = collectStatesFromNFA(nfa)` and empty DFA tables,
`constructDFAFromNFA` ends and the DFA it builds, run from the state with id 0
with a missing transition rejecting, accepts exactly the words of input symbols
that the simulation of the NFA accepts. -/
theorem dfa_accepts_iff_nfa (pf : List Char) (nfa : NFA) (arena : Arena)
    (h : generateThompsonNFAFromPostfix emptyArena pf = some (nfa, arena)) :
    ∃ t, constructDFAFromNFA arena.states emptyTables nfa
        (collectStatesFromNFA arena.states nfa) = some t ∧
      (∃ d0 : DFAState, t.dfaStates[0]? = some d0 ∧ d0.id = 0 ∧
        d0.nfaStates = eClosure arena.states nfa.start) ∧
      ∀ w, Epsilon ∉ w →
        dfaAccepts t.dfaStates 0 w = nfaAccepts arena.states nfa.start w := by
  obtain ⟨hwf, hstart⟩ := generate_wellFormed pf nfa arena h
  obtain ⟨t, h1, h2, -, ⟨d0, h4, h6⟩, h5⟩ := constructDFA_correct arena.states nfa hwf hstart
  exact ⟨t, h1, ⟨d0, h4, h2.ids 0 d0 h4, h6⟩, h5⟩

/-- The witness of C2: the NFA built for "a", with the states 0 and 1. -/
theorem dfa_accepts_iff_nfa_witness :
    ∃ t, constructDFAFromNFA [⟨0, false, [⟨'a', 1⟩]⟩, ⟨1, true, []⟩] emptyTables ⟨0, 1⟩
        (collectStatesFromNFA [⟨0, false, [⟨'a', 1⟩]⟩, ⟨1, true, []⟩] ⟨0, 1⟩) = some t ∧
      (∃ d0 : DFAState, t.dfaStates[0]? = some d0 ∧ d0.id = 0 ∧
        d0.nfaStates = eClosure [⟨0, false, [⟨'a', 1⟩]⟩, ⟨1, true, []⟩] 0) ∧
      ∀ w, Epsilon ∉ w →
        dfaAccepts t.dfaStates 0 w =
          nfaAccepts [⟨0, false, [⟨'a', 1⟩]⟩, ⟨1, true, []⟩] 0 w :=
  dfa_accepts_iff_nfa ['a'] ⟨0, 1⟩ ⟨[⟨0, false, [⟨'a', 1⟩]⟩, ⟨1, true, []⟩], 2⟩ (by decide)

end Thompson

namespace Thompson

/-! ## Signatures -/

theorem digitChar_isDigit (k : Nat) (hk : k < 10) : (Nat.digitChar k).isDigit = true := by
  interval_cases k <;> decide

theorem digitChar_value (k : Nat) (hk : k < 10) : (Nat.digitChar k).toNat - 48 = k := by
  interval_cases k <;> decide

theorem toDigitsCore_isDigit (fuel n : Nat) (ds : List Char)
    (hds : ∀ c ∈ ds, c.isDigit = true) :
    ∀ c ∈ Nat.toDigitsCore 10 fuel n ds, c.isDigit = true := by
  induction fuel generalizing n ds with
  | zero => simpa [Nat.toDigitsCore] using hds
  | succ fuel ih =>
    have hd : (Nat.digitChar (n % 10)).isDigit = true :=
      digitChar_isDigit _ (Nat.mod_lt _ (by decide))
    have hds1 : ∀ c ∈ Nat.digitChar (n % 10) :: ds, c.isDigit = true := by
      intro c hc
      rcases List.mem_cons.1 hc with rfl | hc
      · exact hd
      · exact hds c hc
    rw [Nat.toDigitsCore]
    split
    · exact hds1
    · exact ih _ _ hds1

/-- The value of a string of decimal digits read after the value `acc`. -/
theorem toDigitsCore_value (fuel n : Nat) (ds : List Char) (h : n < fuel) :
    (Nat.toDigitsCore 10 fuel n ds).foldl (fun a c => a * 10 + (c.toNat - 48)) 0 =
      ds.foldl (fun a c => a * 10 + (c.toNat - 48)) n := by
  induction fuel generalizing n ds with
  | zero => omega
  | succ fuel ih =>
    rw [Nat.toDigitsCore]
    have hv := digitChar_value (n % 10) (Nat.mod_lt _ (by decide))
    split
    · rename_i h0
      rw [List.foldl_cons, hv]
      have : n % 10 = n := by omega
      rw [this]
      simp
    · rename_i h0
      rw [ih (n / 10) _ (by omega), List.foldl_cons, hv]
      have : n / 10 * 10 + n % 10 = n := by omega
      rw [this]

theorem repr_isDigit (n : Nat) : ∀ c ∈ (Nat.repr n).toList, c.isDigit = true := by
  have : (Nat.repr n).toList = Nat.toDigits 10 n := rfl
  rw [this]
  exact toDigitsCore_isDigit _ _ [] (fun c hc => by simp at hc)

theorem repr_injective (i j : Nat) (h : (Nat.repr i).toList = (Nat.repr j).toList) : i = j := by
  have hi : (Nat.repr i).toList = Nat.toDigits 10 i := rfl
  have hj : (Nat.repr j).toList = Nat.toDigits 10 j := rfl
  rw [hi, hj] at h
  have h1 := toDigitsCore_value (i + 1) i [] (by omega)
  have h2 := toDigitsCore_value (j + 1) j [] (by omega)
  have h3 : Nat.toDigitsCore 10 (i + 1) i [] = Nat.toDigitsCore 10 (j + 1) j [] := h
  rw [h3, h2] at h1
  simpa using h1.symm

/-- Two strings of digits each followed by a character that is no digit agree
only when the digits, the characters and the rests agree. -/
theorem digits_split (d1 d2 r1 r2 : List Char) (c1 c2 : Char)
    (h1 : ∀ c ∈ d1, c.isDigit = true) (h2 : ∀ c ∈ d2, c.isDigit = true)
    (hc1 : c1.isDigit = false) (hc2 : c2.isDigit = false)
    (h : d1 ++ c1 :: r1 = d2 ++ c2 :: r2) : d1 = d2 ∧ c1 = c2 ∧ r1 = r2 := by
  induction d1 generalizing d2 with
  | nil =>
    cases d2 with
    | nil =>
      simp only [List.nil_append, List.cons.injEq] at h
      exact ⟨rfl, h.1, h.2⟩
    | cons x xs =>
      simp only [List.nil_append, List.cons_append, List.cons.injEq] at h
      have := h2 x (List.mem_cons_self _ _)
      rw [← h.1, hc1] at this
      simp at this
  | cons y ys ih =>
    cases d2 with
    | nil =>
      simp only [List.nil_append, List.cons_append, List.cons.injEq] at h
      have := h1 y (List.mem_cons_self _ _)
      rw [h.1, hc2] at this
      simp at this
    | cons x xs =>
      simp only [List.cons_append, List.cons.injEq] at h
      obtain ⟨e1, e2, e3⟩ := ih xs (fun c hc => h1 c (List.mem_cons_of_mem _ hc))
        (fun c hc => h2 c (List.mem_cons_of_mem _ hc)) h.2
      exact ⟨by rw [h.1, e1], e2, e3⟩

theorem signature_eq (P : List (List Nat)) (st : DFAState) :
    signature P st = encodePairs (sigPairs P st.transitions) := by
  unfold signature
  have key : ∀ (ts : List (Char × Nat)) (acc : List Char),
      ts.foldl (fun sig tr =>
        match blockIndexOf P tr.2 with
        | some i => sig ++ (Nat.repr i).toList ++ [tr.1]
        | none => sig) acc = acc ++ encodePairs (sigPairs P ts) := by
    intro ts
    induction ts with
    | nil => intro acc; simp [sigPairs, encodePairs]
    | cons tr ts ih =>
      intro acc
      rw [List.foldl_cons, ih]
      cases h : blockIndexOf P tr.2 with
      | none => simp [sigPairs, encodePairs, h]
      | some i => simp [sigPairs, encodePairs, h]
  have h := key st.transitions []
  rw [List.nil_append] at h
  exact h

theorem encodePairs_injective (l1 l2 : List (Nat × Char))
    (h1 : ∀ ic ∈ l1, ic.2.isDigit = false) (h2 : ∀ ic ∈ l2, ic.2.isDigit = false)
    (h : encodePairs l1 = encodePairs l2) : l1 = l2 := by
  induction l1 generalizing l2 with
  | nil =>
    cases l2 with
    | nil => rfl
    | cons b bs =>
      simp [encodePairs] at h
  | cons a as ih =>
    cases l2 with
    | nil => simp [encodePairs] at h
    | cons b bs =>
      have ha : encodePairs (a :: as) = (Nat.repr a.1).toList ++ a.2 :: encodePairs as := by
        simp [encodePairs]
      have hb : encodePairs (b :: bs) = (Nat.repr b.1).toList ++ b.2 :: encodePairs bs := by
        simp [encodePairs]
      rw [ha, hb] at h
      obtain ⟨e1, e2, e3⟩ := digits_split _ _ _ _ _ _ (repr_isDigit a.1) (repr_isDigit b.1)
        (h1 a (List.mem_cons_self _ _)) (h2 b (List.mem_cons_self _ _)) h
      have e4 := repr_injective _ _ e1
      have e5 := ih bs (fun ic hic => h1 ic (List.mem_cons_of_mem _ hic))
        (fun ic hic => h2 ic (List.mem_cons_of_mem _ hic)) e3
      rw [e5]
      congr 1
      exact Prod.ext e4 e2

theorem sigPairs_symbols (P : List (List Nat)) (ts : List (Char × Nat))
    (h : ∀ tr ∈ ts, tr.1.isDigit = false) : ∀ ic ∈ sigPairs P ts, ic.2.isDigit = false := by
  intro ic hic
  simp only [sigPairs, List.mem_filterMap, Option.map_eq_some'] at hic
  obtain ⟨tr, htr, i, -, rfl⟩ := hic
  exact h tr htr

/-- When every target lies in a block, the block reached on `c` is read off the
pairs of the signature. -/
theorem blockStep_eq_findPair (P : List (List Nat)) (ts : List (Char × Nat))
    (hcov : ∀ tr ∈ ts, (blockIndexOf P tr.2).isSome = true) (c : Char) :
    (ts.lookup c).bind (blockIndexOf P) = findPair c (sigPairs P ts) := by
  induction ts with
  | nil => rfl
  | cons tr ts ih =>
    obtain ⟨i, hi⟩ := Option.isSome_iff_exists.1 (hcov tr (List.mem_cons_self _ _))
    have hs : sigPairs P (tr :: ts) = (i, tr.1) :: sigPairs P ts := by
      simp [sigPairs, hi]
    obtain ⟨c1, t1⟩ := tr
    rw [hs, lookup_cons_ite, findPair]
    by_cases hc : c = c1
    · subst hc
      simp [hi]
    · have hc1 : ¬ c1 = c := fun h => hc h.symm
      simp only [hc, hc1, if_false]
      exact ih (fun tr htr => hcov tr (List.mem_cons_of_mem _ htr))

theorem findPair_none_of_lt (c : Char) (l : List (Nat × Char))
    (h : ∀ ic ∈ l, c.toNat < ic.2.toNat) : findPair c l = none := by
  induction l with
  | nil => rfl
  | cons ic rest ih =>
    have h1 := h ic (List.mem_cons_self _ _)
    have h2 : ¬ ic.2 = c := by
      intro h3
      rw [h3] at h1
      omega
    rw [findPair, if_neg h2]
    exact ih (fun x hx => h x (List.mem_cons_of_mem _ hx))

/-- Two signatures sorted by symbol that give the same block for every symbol
are equal. -/
theorem sorted_pairs_ext (l1 l2 : List (Nat × Char))
    (h1 : (l1.map (fun ic => ic.2.toNat)).Sorted (fun a b => a < b))
    (h2 : (l2.map (fun ic => ic.2.toNat)).Sorted (fun a b => a < b))
    (h : ∀ c, findPair c l1 = findPair c l2) : l1 = l2 := by
  induction l1 generalizing l2 with
  | nil =>
    cases l2 with
    | nil => rfl
    | cons b bs =>
      have := h b.2
      simp [findPair] at this
  | cons a as ih =>
    cases l2 with
    | nil =>
      have := h a.2
      simp [findPair] at this
    | cons b bs =>
      rw [List.map_cons, List.sorted_cons] at h1 h2
      have ha : ∀ ic ∈ as, a.2.toNat < ic.2.toNat :=
        fun ic hic => h1.1 _ (List.mem_map_of_mem _ hic)
      have hb : ∀ ic ∈ bs, b.2.toNat < ic.2.toNat :=
        fun ic hic => h2.1 _ (List.mem_map_of_mem _ hic)
      have hab : a.2 = b.2 := by
        by_contra hne
        have h3 := h a.2
        have h4 := h b.2
        simp only [findPair, if_true] at h3 h4
        rw [if_neg (fun e => hne e.symm)] at h3
        rw [if_neg hne] at h4
        rcases Nat.lt_or_gt_of_ne (fun e => hne (char_toNat_injective e)) with hlt | hlt
        · rw [findPair_none_of_lt a.2 bs (fun ic hic => lt_trans hlt (hb ic hic))] at h3
          simp at h3
        · rw [findPair_none_of_lt b.2 as (fun ic hic => lt_trans hlt (ha ic hic))] at h4
          simp at h4
      have hi : a.1 = b.1 := by
        have h3 := h a.2
        simp only [findPair, if_true] at h3
        rw [if_pos hab.symm] at h3
        injection h3
      have htail : ∀ c, findPair c as = findPair c bs := by
        intro c
        by_cases hc : a.2 = c
        · subst hc
          rw [findPair_none_of_lt a.2 as ha, findPair_none_of_lt a.2 bs (hab ▸ hb)]
        · have h3 := h c
          simp only [findPair] at h3
          rw [if_neg hc, if_neg (hab ▸ hc)] at h3
          exact h3
      rw [ih bs h1.2 h2.2 htail]
      congr 1
      exact Prod.ext hi hab

/-! ## Blocks -/

theorem blockIndexOf_some (P : List (List Nat)) (p i : Nat) (h : blockIndexOf P p = some i) :
    ∃ B, P[i]? = some B ∧ p ∈ B := by
  induction P generalizing i with
  | nil => simp [blockIndexOf] at h
  | cons B rest ih =>
    rw [blockIndexOf] at h
    split at h
    · rename_i hp
      injection h with h
      subst h
      exact ⟨B, by simp, hp⟩
    · cases h1 : blockIndexOf rest p with
      | none => rw [h1] at h; simp at h
      | some j =>
        rw [h1] at h
        simp only [Option.map_some', Option.some.injEq] at h
        subst h
        obtain ⟨B1, hB1, hp1⟩ := ih j h1
        exact ⟨B1, by simpa using hB1, hp1⟩

theorem blockIndexOf_isSome (P : List (List Nat)) (p : Nat) (h : ∃ B ∈ P, p ∈ B) :
    (blockIndexOf P p).isSome = true := by
  induction P with
  | nil =>
    obtain ⟨B, hB, -⟩ := h
    simp at hB
  | cons B rest ih =>
    rw [blockIndexOf]
    split
    · rfl
    · rename_i hp
      obtain ⟨B1, hB1, hp1⟩ := h
      rcases List.mem_cons.1 hB1 with rfl | hB1
      · exact absurd hp1 hp
      · have := ih ⟨B1, hB1, hp1⟩
        obtain ⟨j, hj⟩ := Option.isSome_iff_exists.1 this
        simp [hj]

theorem separated_self_false (dfa : List DFAState) (B1 B2 : List Nat) (p : Nat)
    (h : Separated dfa B1 B2) (h1 : p ∈ B1) (h2 : p ∈ B2) : False := by
  obtain ⟨w, hw⟩ := h p h1 p h2
  exact hw rfl

/-- In pairwise separated blocks a state lies in the block of its index only. -/
theorem blockIndexOf_of_mem (dfa : List DFAState) (P : List (List Nat))
    (hsep : P.Pairwise (Separated dfa)) (i : Nat) (B : List Nat) (p : Nat)
    (hB : P[i]? = some B) (hp : p ∈ B) : blockIndexOf P p = some i := by
  obtain ⟨j, hj⟩ := Option.isSome_iff_exists.1
    (blockIndexOf_isSome P p ⟨B, List.mem_iff_getElem?.2 ⟨i, hB⟩, hp⟩)
  obtain ⟨B1, hB1, hp1⟩ := blockIndexOf_some P p j hj
  rw [hj]
  congr 1
  by_contra hne
  obtain ⟨hi, hBi⟩ := List.getElem?_eq_some.1 hB
  obtain ⟨hj1, hBj⟩ := List.getElem?_eq_some.1 hB1
  rw [List.pairwise_iff_getElem] at hsep
  rcases Nat.lt_or_gt_of_ne hne with hlt | hlt
  · exact separated_self_false dfa _ _ p (hsep j i hj1 hi hlt) (hBj ▸ hp1) (hBi ▸ hp)
  · exact separated_self_false dfa _ _ p (hsep i j hi hj1 hlt) (hBi ▸ hp) (hBj ▸ hp1)

theorem separated_of_index_ne (dfa : List DFAState) (P : List (List Nat))
    (hsep : P.Pairwise (Separated dfa)) (i j : Nat) (p q : Nat) (hne : i ≠ j)
    (hp : blockIndexOf P p = some i) (hq : blockIndexOf P q = some j) :
    ∃ w, dfaAccepts dfa p w ≠ dfaAccepts dfa q w := by
  obtain ⟨B1, hB1, hp1⟩ := blockIndexOf_some P p i hp
  obtain ⟨B2, hB2, hq1⟩ := blockIndexOf_some P q j hq
  obtain ⟨hi, hBi⟩ := List.getElem?_eq_some.1 hB1
  obtain ⟨hj1, hBj⟩ := List.getElem?_eq_some.1 hB2
  rw [List.pairwise_iff_getElem] at hsep
  rcases Nat.lt_or_gt_of_ne hne with hlt | hlt
  · exact hsep i j hi hj1 hlt p (hBi ▸ hp1) q (hBj ▸ hq1)
  · obtain ⟨w, hw⟩ := hsep j i hj1 hi hlt q (hBj ▸ hq1) p (hBi ▸ hp1)
    exact ⟨w, fun h => hw h.symm⟩

theorem mem_of_lookup {ts : List (Char × Nat)} {c : Char} {t : Nat}
    (h : ts.lookup c = some t) : (c, t) ∈ ts := by
  induction ts with
  | nil => simp at h
  | cons tr ts ih =>
    obtain ⟨c1, t1⟩ := tr
    rw [lookup_cons_ite] at h
    by_cases hc : c = c1
    · rw [if_pos hc] at h
      injection h with h
      rw [hc, h]
      exact List.mem_cons_self _ _
    · rw [if_neg hc] at h
      exact List.mem_cons_of_mem _ (ih h)

theorem derefDFA_getElem? {dfa : List DFAState} {p : Nat} (h : p < dfa.length) :
    dfa[p]? = some (derefDFA dfa p) := by
  rw [List.getElem?_eq_getElem h]
  simp [derefDFA, List.getD_eq_getElem?_getD, List.getElem?_eq_getElem h]

theorem sigPairs_keys (P : List (List Nat)) (ts : List (Char × Nat))
    (hcov : ∀ tr ∈ ts, (blockIndexOf P tr.2).isSome = true) :
    (sigPairs P ts).map (fun ic => ic.2.toNat) = ts.map (fun tr => tr.1.toNat) := by
  induction ts with
  | nil => rfl
  | cons tr ts ih =>
    obtain ⟨i, hi⟩ := Option.isSome_iff_exists.1 (hcov tr (List.mem_cons_self _ _))
    have hs : sigPairs P (tr :: ts) = (i, tr.1) :: sigPairs P ts := by
      simp [sigPairs, hi]
    rw [hs, List.map_cons, List.map_cons, ih (fun tr htr => hcov tr (List.mem_cons_of_mem _ htr))]

theorem targets_covered (dfa : List DFAState) (P : List (List Nat)) (hd : DFAOk dfa)
    (hP : PartOk dfa P) (p : Nat) (hp : p < dfa.length) :
    ∀ tr ∈ (derefDFA dfa p).transitions, (blockIndexOf P tr.2).isSome = true := by
  intro tr htr
  have h1 := hd.targets p _ tr (derefDFA_getElem? hp) htr
  exact blockIndexOf_isSome P tr.2 (hP.cover tr.2 h1)

/-- Two states have the same signature exactly when they reach the same block,
or none, on every symbol. -/
theorem signature_eq_iff (dfa : List DFAState) (P : List (List Nat)) (hd : DFAOk dfa)
    (hP : PartOk dfa P) (p q : Nat) (hp : p < dfa.length) (hq : q < dfa.length) :
    signature P (derefDFA dfa p) = signature P (derefDFA dfa q) ↔
      ∀ c, blockStep P (derefDFA dfa p) c = blockStep P (derefDFA dfa q) c := by
  have hcp := targets_covered dfa P hd hP p hp
  have hcq := targets_covered dfa P hd hP q hq
  have hsp := fun tr => hd.symbols p _ tr (derefDFA_getElem? hp)
  have hsq := fun tr => hd.symbols q _ tr (derefDFA_getElem? hq)
  rw [signature_eq, signature_eq]
  constructor
  · intro h c
    have h1 := encodePairs_injective _ _ (sigPairs_symbols P _ hsp) (sigPairs_symbols P _ hsq) h
    unfold blockStep
    rw [blockStep_eq_findPair P _ hcp, blockStep_eq_findPair P _ hcq, h1]
  · intro h
    congr 1
    apply sorted_pairs_ext
    · rw [sigPairs_keys P _ hcp]
      exact hd.sorted p _ (derefDFA_getElem? hp)
    · rw [sigPairs_keys P _ hcq]
      exact hd.sorted q _ (derefDFA_getElem? hq)
    · intro c
      have := h c
      unfold blockStep at this
      rw [blockStep_eq_findPair P _ hcp, blockStep_eq_findPair P _ hcq] at this
      exact this

/-- Two states with different signatures are distinguished by some word. -/
theorem separated_of_signature_ne (dfa : List DFAState) (P : List (List Nat)) (hd : DFAOk dfa)
    (hP : PartOk dfa P) (p q : Nat) (hp : p < dfa.length) (hq : q < dfa.length)
    (h : signature P (derefDFA dfa p) ≠ signature P (derefDFA dfa q)) :
    ∃ w, dfaAccepts dfa p w ≠ dfaAccepts dfa q w := by
  rw [Ne, signature_eq_iff dfa P hd hP p q hp hq, not_forall] at h
  obtain ⟨c, hc⟩ := h
  unfold blockStep at hc
  cases hlp : (derefDFA dfa p).transitions.lookup c with
  | none =>
    cases hlq : (derefDFA dfa q).transitions.lookup c with
    | none => rw [hlp, hlq] at hc; exact absurd rfl hc
    | some tq =>
      have hmem := mem_of_lookup hlq
      have htq := hd.targets q _ _ (derefDFA_getElem? hq) hmem
      obtain ⟨w, hw⟩ := hd.live tq htq
      refine ⟨c :: w, ?_⟩
      simp only [dfaAccepts, dfaStep, hlp, hlq, hw]
      simp
  | some tp =>
    have hmemp := mem_of_lookup hlp
    have htp := hd.targets p _ _ (derefDFA_getElem? hp) hmemp
    cases hlq : (derefDFA dfa q).transitions.lookup c with
    | none =>
      obtain ⟨w, hw⟩ := hd.live tp htp
      refine ⟨c :: w, ?_⟩
      simp only [dfaAccepts, dfaStep, hlp, hlq, hw]
      simp
    | some tq =>
      have hmemq := mem_of_lookup hlq
      have htq := hd.targets q _ _ (derefDFA_getElem? hq) hmemq
      rw [hlp, hlq] at hc
      simp only [Option.some_bind] at hc
      obtain ⟨i, hi⟩ := Option.isSome_iff_exists.1 (blockIndexOf_isSome P tp (hP.cover tp htp))
      obtain ⟨j, hj⟩ := Option.isSome_iff_exists.1 (blockIndexOf_isSome P tq (hP.cover tq htq))
      have hne : i ≠ j := by
        intro e
        rw [hi, hj, e] at hc
        exact hc rfl
      obtain ⟨w, hw⟩ := separated_of_index_ne dfa P hP.sep i j tp tq hne hi hj
      refine ⟨c :: w, ?_⟩
      simp only [dfaAccepts, dfaStep, hlp, hlq]
      exact hw

/-! ## Splitting a block -/

theorem strLt_irrefl (s : List Char) : strLt s s = false := by
  induction s with
  | nil => rfl
  | cons a as ih => simp [strLt, ih]

theorem strLt_trans (a b c : List Char) (h1 : strLt a b = true) (h2 : strLt b c = true) :
    strLt a c = true := by
  induction a generalizing b c with
  | nil =>
    cases b with
    | nil => simp [strLt] at h1
    | cons y ys =>
      cases c with
      | nil => simp [strLt] at h2
      | cons z zs => rfl
  | cons x xs ih =>
    cases b with
    | nil => simp [strLt] at h1
    | cons y ys =>
      cases c with
      | nil => simp [strLt] at h2
      | cons z zs =>
        simp only [strLt, Bool.or_eq_true, decide_eq_true_eq, Bool.and_eq_true] at h1 h2 ⊢
        rcases h1 with h1 | ⟨h1, h1b⟩
        · rcases h2 with h2 | ⟨h2, -⟩
          · exact Or.inl (lt_trans h1 h2)
          · exact Or.inl (h2 ▸ h1)
        · rcases h2 with h2 | ⟨h2, h2b⟩
          · exact Or.inl (h1 ▸ h2)
          · exact Or.inr ⟨h1.trans h2, ih ys zs h1b h2b⟩

theorem strLt_ne {a b : List Char} (h : strLt a b = true) : a ≠ b := by
  intro e
  rw [e, strLt_irrefl] at h
  simp at h

theorem strLt_total_aux (a b : List Char) (h1 : ¬ strLt a b = true) (h2 : a ≠ b) :
    strLt b a = true := by
  induction a generalizing b with
  | nil =>
    cases b with
    | nil => exact absurd rfl h2
    | cons y ys => simp [strLt] at h1
  | cons x xs ih =>
    cases b with
    | nil => rfl
    | cons y ys =>
      simp only [strLt, Bool.or_eq_true, decide_eq_true_eq, Bool.and_eq_true, not_or,
        not_and] at h1 ⊢
      by_cases hxy : x = y
      · subst hxy
        right
        refine ⟨rfl, ih ys ?_ ?_⟩
        · intro h
          exact h1.2 rfl h
        · intro h
          exact h2 (by rw [h])
      · left
        have : x.toNat ≠ y.toNat := fun e => hxy (char_toNat_injective e)
        omega

theorem splitInsert_keys (sig : List Char) (st : Nat) (M : List (List Char × List Nat)) :
    ∀ k ∈ (splitInsert sig st M).map (fun kv => kv.1), k = sig ∨ k ∈ M.map (fun kv => kv.1) := by
  induction M with
  | nil => simp [splitInsert]
  | cons kv M ih =>
    obtain ⟨k1, v1⟩ := kv
    rw [splitInsert]
    split
    · intro k hk
      simp only [List.map_cons, List.mem_cons] at hk ⊢
      tauto
    · split
      · intro k hk
        simp only [List.map_cons, List.mem_cons] at hk ⊢
        tauto
      · intro k hk
        simp only [List.map_cons, List.mem_cons] at hk ⊢
        rcases hk with hk | hk
        · exact Or.inr (Or.inl hk)
        · rcases ih k hk with h | h
          · exact Or.inl h
          · exact Or.inr (Or.inr h)

theorem splitInsert_sorted (sig : List Char) (st : Nat) (M : List (List Char × List Nat))
    (h : (M.map (fun kv => kv.1)).Pairwise (fun a b => strLt a b = true)) :
    ((splitInsert sig st M).map (fun kv => kv.1)).Pairwise (fun a b => strLt a b = true) := by
  induction M with
  | nil => simp [splitInsert]
  | cons kv M ih =>
    obtain ⟨k1, v1⟩ := kv
    rw [List.map_cons, List.pairwise_cons] at h
    rw [splitInsert]
    split
    · rename_i hlt
      rw [List.map_cons, List.pairwise_cons]
      refine ⟨?_, by rw [List.map_cons, List.pairwise_cons]; exact h⟩
      intro b hb
      rcases List.mem_cons.1 hb with rfl | hb
      · exact hlt
      · exact strLt_trans _ _ _ hlt (h.1 b hb)
    · split
      · rw [List.map_cons, List.pairwise_cons]
        exact h
      · rename_i hnlt hne
        rw [List.map_cons, List.pairwise_cons]
        refine ⟨?_, ih h.2⟩
        intro b hb
        rcases splitInsert_keys sig st M b hb with rfl | hb
        · -- neither `sig < k1` nor `sig = k1`
          exact strLt_total_aux b k1 hnlt hne
        · exact h.1 b hb

theorem splitInsert_mem (sig : List Char) (st : Nat) (M : List (List Char × List Nat))
    (kv1 : List Char × List Nat) (h : kv1 ∈ splitInsert sig st M) :
    kv1 ∈ M ∨ (kv1.1 = sig ∧
      (kv1.2 = [st] ∨ ∃ G0, (sig, G0) ∈ M ∧ kv1.2 = setInsert st G0)) := by
  induction M with
  | nil =>
    simp only [splitInsert, List.mem_singleton] at h
    subst h
    exact Or.inr ⟨rfl, Or.inl rfl⟩
  | cons kv M ih =>
    obtain ⟨k1, v1⟩ := kv
    rw [splitInsert] at h
    split at h
    · rcases List.mem_cons.1 h with h | h
      · subst h
        exact Or.inr ⟨rfl, Or.inl rfl⟩
      · exact Or.inl h
    · split at h
      · rename_i he
        subst he
        rcases List.mem_cons.1 h with h | h
        · subst h
          exact Or.inr ⟨rfl, Or.inr ⟨v1, List.mem_cons_self _ _, rfl⟩⟩
        · exact Or.inl (List.mem_cons_of_mem _ h)
      · rcases List.mem_cons.1 h with h | h
        · subst h
          exact Or.inl (List.mem_cons_self _ _)
        · rcases ih h with h1 | ⟨h1, h2 | ⟨G0, h2, h3⟩⟩
          · exact Or.inl (List.mem_cons_of_mem _ h1)
          · exact Or.inr ⟨h1, Or.inl h2⟩
          · exact Or.inr ⟨h1, Or.inr ⟨G0, List.mem_cons_of_mem _ h2, h3⟩⟩

theorem splitInsert_keeps (sig : List Char) (st : Nat) (M : List (List Char × List Nat))
    (kv : List Char × List Nat) (h : kv ∈ M) :
    ∃ kv1 ∈ splitInsert sig st M, kv1.1 = kv.1 ∧ ∀ p ∈ kv.2, p ∈ kv1.2 := by
  induction M with
  | nil => simp at h
  | cons e M ih =>
    obtain ⟨k1, v1⟩ := e
    rw [splitInsert]
    split
    · exact ⟨kv, List.mem_cons_of_mem _ h, rfl, fun p hp => hp⟩
    · split
      · rename_i he
        subst he
        rcases List.mem_cons.1 h with h | h
        · subst h
          exact ⟨_, List.mem_cons_self _ _, rfl,
            fun p hp => (mem_setInsert st p v1).2 (Or.inr hp)⟩
        · exact ⟨kv, List.mem_cons_of_mem _ h, rfl, fun p hp => hp⟩
      · rcases List.mem_cons.1 h with h | h
        · subst h
          exact ⟨_, List.mem_cons_self _ _, rfl, fun p hp => hp⟩
        · obtain ⟨kv1, h1, h2, h3⟩ := ih h
          exact ⟨kv1, List.mem_cons_of_mem _ h1, h2, h3⟩

theorem splitInsert_adds (sig : List Char) (st : Nat) (M : List (List Char × List Nat)) :
    ∃ kv1 ∈ splitInsert sig st M, kv1.1 = sig ∧ st ∈ kv1.2 := by
  induction M with
  | nil => exact ⟨(sig, [st]), by simp [splitInsert], rfl, by simp⟩
  | cons e M ih =>
    obtain ⟨k1, v1⟩ := e
    rw [splitInsert]
    split
    · exact ⟨(sig, [st]), List.mem_cons_self _ _, rfl, by simp⟩
    · split
      · rename_i he
        exact ⟨_, List.mem_cons_self _ _, he.symm, (mem_setInsert st st v1).2 (Or.inl rfl)⟩
      · obtain ⟨kv1, h1, h2, h3⟩ := ih
        exact ⟨kv1, List.mem_cons_of_mem _ h1, h2, h3⟩

theorem SplitInv.congr {sigOf : Nat → List Char} {M : List (List Char × List Nat)}
    {seen seen1 : Nat → Prop} (h : SplitInv sigOf M seen) (hs : ∀ p, seen p ↔ seen1 p) :
    SplitInv sigOf M seen1 :=
  ⟨h.keys, fun kv hkv => ⟨(h.groups kv hkv).1,
      fun p hp => ⟨(hs p).1 ((h.groups kv hkv).2 p hp).1, ((h.groups kv hkv).2 p hp).2⟩⟩,
    fun p hp => h.all p ((hs p).2 hp)⟩

theorem SplitInv.insert {sigOf : Nat → List Char} {M : List (List Char × List Nat)}
    {seen : Nat → Prop} (h : SplitInv sigOf M seen) (st : Nat) :
    SplitInv sigOf (splitInsert (sigOf st) st M) (fun p => p = st ∨ seen p) := by
  refine ⟨splitInsert_sorted _ _ _ h.keys, ?_, ?_⟩
  · intro kv1 hkv1
    rcases splitInsert_mem _ _ _ kv1 hkv1 with h1 | ⟨h1, h2 | ⟨G0, h2, h3⟩⟩
    · exact ⟨(h.groups kv1 h1).1,
        fun p hp => ⟨Or.inr ((h.groups kv1 h1).2 p hp).1, ((h.groups kv1 h1).2 p hp).2⟩⟩
    · rw [h2]
      refine ⟨by simp, fun p hp => ?_⟩
      rw [List.mem_singleton] at hp
      subst hp
      exact ⟨Or.inl rfl, h1.symm⟩
    · rw [h3]
      refine ⟨fun e => ?_, fun p hp => ?_⟩
      · have := (mem_setInsert st st G0).2 (Or.inl rfl)
        rw [e] at this
        simp at this
      · rcases (mem_setInsert st p G0).1 hp with rfl | hp
        · exact ⟨Or.inl rfl, h1.symm⟩
        · have := (h.groups _ h2).2 p hp
          exact ⟨Or.inr this.1, this.2.trans h1.symm⟩
  · rintro p (rfl | hp)
    · obtain ⟨kv1, h1, h2, h3⟩ := splitInsert_adds (sigOf p) p M
      exact ⟨kv1, h1, h2, h3⟩
    · obtain ⟨kv, h1, h2, h3⟩ := h.all p hp
      obtain ⟨kv1, g1, g2, g3⟩ := splitInsert_keeps (sigOf st) st M kv h1
      exact ⟨kv1, g1, g2.trans h2, g3 p h3⟩

/-- The map built for a block groups the states of the block by signature. -/
theorem splitBlock_inv (dfa : List DFAState) (P : List (List Nat)) (part : List Nat) :
    SplitInv (fun p => signature P (derefDFA dfa p)) (splitBlock dfa P part)
      (fun p => p ∈ part) := by
  unfold splitBlock
  have key : ∀ (part : List Nat) (M : List (List Char × List Nat)) (seen : Nat → Prop),
      SplitInv (fun p => signature P (derefDFA dfa p)) M seen →
      SplitInv (fun p => signature P (derefDFA dfa p))
        (part.foldl (fun splitSets state =>
          splitInsert (signature P (derefDFA dfa state)) state splitSets) M)
        (fun p => seen p ∨ p ∈ part) := by
    intro part
    induction part with
    | nil =>
      intro M seen h
      exact h.congr (fun p => by simp)
    | cons st part ih =>
      intro M seen h
      rw [List.foldl_cons]
      refine (ih _ _ (h.insert st)).congr (fun p => ?_)
      simp only [List.mem_cons]
      tauto
  refine (key part [] (fun _ => False) ⟨by simp, by simp, by simp⟩).congr (fun p => ?_)
  simp

/-! ## Refinement rounds -/

theorem refineRound_eq (dfa : List DFAState) (P : List (List Nat)) :
    refineRound dfa P = (P.map (blockGroups dfa P)).flatten := by
  unfold refineRound
  have key : ∀ (l : List (List Nat)) (acc : List (List Nat)),
      l.foldl (fun newPartitions part =>
        newPartitions ++ (splitBlock dfa P part).map (fun kv => kv.2)) acc =
        acc ++ (l.map (blockGroups dfa P)).flatten := by
    intro l
    induction l with
    | nil => intro acc; simp
    | cons B l ih =>
      intro acc
      rw [List.foldl_cons, ih]
      simp [blockGroups]
  rw [key]
  simp

theorem blockGroups_spec (dfa : List DFAState) (P : List (List Nat)) (B : List Nat) :
    (∀ G ∈ blockGroups dfa P B, G ≠ [] ∧ (∀ p ∈ G, p ∈ B) ∧
      ∀ p ∈ G, ∀ q ∈ G, signature P (derefDFA dfa p) = signature P (derefDFA dfa q)) ∧
    (∀ p ∈ B, ∃ G ∈ blockGroups dfa P B, p ∈ G) ∧
    (blockGroups dfa P B).Pairwise (fun G1 G2 => ∀ p ∈ G1, ∀ q ∈ G2,
      signature P (derefDFA dfa p) ≠ signature P (derefDFA dfa q)) := by
  have h := splitBlock_inv dfa P B
  refine ⟨?_, ?_, ?_⟩
  · intro G hG
    obtain ⟨kv, hkv, rfl⟩ := List.mem_map.1 hG
    have hg := h.groups kv hkv
    exact ⟨hg.1, fun p hp => (hg.2 p hp).1,
      fun p hp q hq => ((hg.2 p hp).2).trans ((hg.2 q hq).2).symm⟩
  · intro p hp
    obtain ⟨kv, hkv, -, h2⟩ := h.all p hp
    exact ⟨kv.2, List.mem_map.2 ⟨kv, hkv, rfl⟩, h2⟩
  · unfold blockGroups
    rw [List.pairwise_map]
    have hk := h.keys
    rw [List.pairwise_map] at hk
    refine hk.imp_of_mem ?_
    intro kv1 kv2 h1 h2 hlt p hp q hq
    rw [((h.groups kv1 h1).2 p hp).2, ((h.groups kv2 h2).2 q hq).2]
    exact strLt_ne hlt

/-- A refinement round keeps the invariant of the partition, and every block
it makes is non-empty. -/
theorem partOk_refineRound (dfa : List DFAState) (P : List (List Nat)) (hd : DFAOk dfa)
    (hP : PartOk dfa P) :
    PartOk dfa (refineRound dfa P) ∧ ∀ G ∈ refineRound dfa P, G ≠ [] := by
  rw [refineRound_eq]
  have hmem : ∀ G, G ∈ (P.map (blockGroups dfa P)).flatten ↔
      ∃ B ∈ P, G ∈ blockGroups dfa P B := by
    intro G
    rw [List.mem_flatten]
    constructor
    · rintro ⟨l, hl, hG⟩
      obtain ⟨B, hB, rfl⟩ := List.mem_map.1 hl
      exact ⟨B, hB, hG⟩
    · rintro ⟨B, hB, hG⟩
      exact ⟨_, List.mem_map.2 ⟨B, hB, rfl⟩, hG⟩
  refine ⟨⟨?_, ?_, ?_, ?_⟩, ?_⟩
  · intro G hG p hp
    obtain ⟨B, hB, hGB⟩ := (hmem G).1 hG
    exact hP.range B hB p (((blockGroups_spec dfa P B).1 G hGB).2.1 p hp)
  · intro p hp
    obtain ⟨B, hB, hpB⟩ := hP.cover p hp
    obtain ⟨G, hG, hpG⟩ := (blockGroups_spec dfa P B).2.1 p hpB
    exact ⟨G, (hmem G).2 ⟨B, hB, hG⟩, hpG⟩
  · intro G hG p hp q hq
    obtain ⟨B, hB, hGB⟩ := (hmem G).1 hG
    have hsub := ((blockGroups_spec dfa P B).1 G hGB).2.1
    exact hP.homog B hB p (hsub p hp) q (hsub q hq)
  · rw [List.pairwise_flatten]
    constructor
    · intro l hl
      obtain ⟨B, hB, rfl⟩ := List.mem_map.1 hl
      have hspec := blockGroups_spec dfa P B
      refine hspec.2.2.imp_of_mem ?_
      intro G1 G2 h1 h2 hne p hp q hq
      exact separated_of_signature_ne dfa P hd hP p q
        (hP.range B hB p ((hspec.1 G1 h1).2.1 p hp))
        (hP.range B hB q ((hspec.1 G2 h2).2.1 q hq)) (hne p hp q hq)
    · rw [List.pairwise_map]
      refine hP.sep.imp_of_mem ?_
      intro B1 B2 _ _ hsep G1 hG1 G2 hG2 p hp q hq
      exact hsep p (((blockGroups_spec dfa P B1).1 G1 hG1).2.1 p hp) q
        (((blockGroups_spec dfa P B2).1 G2 hG2).2.1 q hq)
  · intro G hG
    obtain ⟨B, hB, hGB⟩ := (hmem G).1 hG
    exact ((blockGroups_spec dfa P B).1 G hGB).1

theorem sum_eq_length_imp (l : List Nat) (h1 : ∀ x ∈ l, 1 ≤ x) (h2 : l.sum = l.length) :
    ∀ x ∈ l, x = 1 := by
  induction l with
  | nil => intro x hx; simp at hx
  | cons a l ih =>
    have hge : l.length ≤ l.sum := by
      have : ∀ (l : List Nat), (∀ x ∈ l, 1 ≤ x) → l.length ≤ l.sum := by
        intro l
        induction l with
        | nil => intro _; simp
        | cons b l ih2 =>
          intro h
          have := ih2 (fun x hx => h x (List.mem_cons_of_mem _ hx))
          have := h b (List.mem_cons_self _ _)
          simp only [List.sum_cons, List.length_cons]
          omega
      exact this l (fun x hx => h1 x (List.mem_cons_of_mem _ hx))
    have ha := h1 a (List.mem_cons_self _ _)
    simp only [List.sum_cons, List.length_cons] at h2
    intro x hx
    rcases List.mem_cons.1 hx with rfl | hx
    · omega
    · exact ih (fun x hx => h1 x (List.mem_cons_of_mem _ hx)) (by omega) x hx

/-- When a round leaves the number of blocks unchanged and no block is empty,
the states of each block have the same signature. -/
theorem stable_of_length_eq (dfa : List DFAState) (P : List (List Nat))
    (hne : ∀ B ∈ P, B ≠ []) (hlen : (refineRound dfa P).length = P.length) :
    ∀ B ∈ P, ∀ p ∈ B, ∀ q ∈ B,
      signature P (derefDFA dfa p) = signature P (derefDFA dfa q) := by
  rw [refineRound_eq, List.length_flatten, List.map_map] at hlen
  have hone := sum_eq_length_imp (P.map (List.length ∘ blockGroups dfa P)) (by
    intro x hx
    obtain ⟨B, hB, rfl⟩ := List.mem_map.1 hx
    obtain ⟨p, hp⟩ := List.exists_mem_of_ne_nil B (hne B hB)
    obtain ⟨G, hG, -⟩ := (blockGroups_spec dfa P B).2.1 p hp
    exact List.length_pos_of_mem hG) (by rw [hlen, List.length_map])
  intro B hB p hp q hq
  have h1 := hone _ (List.mem_map.2 ⟨B, hB, rfl⟩)
  have hspec := blockGroups_spec dfa P B
  obtain ⟨G1, hG1, hpG⟩ := hspec.2.1 p hp
  obtain ⟨G2, hG2, hqG⟩ := hspec.2.1 q hq
  have h2 : (blockGroups dfa P B).length = 1 := h1
  obtain ⟨G, hGeq⟩ := List.length_eq_one.1 h2
  rw [hGeq, List.mem_singleton] at hG1 hG2
  rw [hG1] at hpG
  rw [hG2] at hqG
  exact (hspec.1 G (by rw [hGeq]; simp)).2.2 p hpG q hqG

/-! ## The refinement loop -/

theorem mem_foldl_insert_if (f : Nat → Bool) (l acc : List Nat) (x : Nat) :
    x ∈ l.foldl (fun acc p => if f p then setInsert p acc else acc) acc ↔
      x ∈ acc ∨ (x ∈ l ∧ f x = true) := by
  induction l generalizing acc with
  | nil => simp
  | cons a l ih =>
    rw [List.foldl_cons, ih]
    by_cases ha : f a = true
    · rw [if_pos ha, mem_setInsert]
      constructor
      · rintro ((h | h) | h)
        · exact Or.inr ⟨by rw [h]; exact List.mem_cons_self _ _, by rw [h]; exact ha⟩
        · exact Or.inl h
        · exact Or.inr ⟨List.mem_cons_of_mem _ h.1, h.2⟩
      · rintro (h | ⟨h1, h2⟩)
        · exact Or.inl (Or.inr h)
        · rcases List.mem_cons.1 h1 with h1 | h1
          · exact Or.inl (Or.inl h1)
          · exact Or.inr ⟨h1, h2⟩
    · rw [if_neg ha]
      constructor
      · rintro (h | h)
        · exact Or.inl h
        · exact Or.inr ⟨List.mem_cons_of_mem _ h.1, h.2⟩
      · rintro (h | ⟨h1, h2⟩)
        · exact Or.inl h
        · rcases List.mem_cons.1 h1 with h1 | h1
          · rw [h1] at h2
            exact absurd h2 ha
          · exact Or.inr ⟨h1, h2⟩

theorem mem_initial_accepting (dfa : List DFAState) (x : Nat) :
    x ∈ (List.range dfa.length).foldl
        (fun acc p => if (derefDFA dfa p).isFinal then setInsert p acc else acc) [] ↔
      x < dfa.length ∧ (derefDFA dfa x).isFinal = true := by
  have h := mem_foldl_insert_if (fun p => (derefDFA dfa p).isFinal) (List.range dfa.length) [] x
  simp only [List.not_mem_nil, false_or, List.mem_range] at h
  exact h

theorem mem_initial_nonAccepting (dfa : List DFAState) (x : Nat) :
    x ∈ (List.range dfa.length).foldl
        (fun acc p => if (derefDFA dfa p).isFinal then acc else setInsert p acc) [] ↔
      x < dfa.length ∧ (derefDFA dfa x).isFinal = false := by
  have h := mem_foldl_insert_if (fun p => !(derefDFA dfa p).isFinal) (List.range dfa.length) [] x
  have e : (fun (acc : List Nat) (p : Nat) =>
      if (derefDFA dfa p).isFinal then acc else setInsert p acc) =
      (fun acc p => if (!(derefDFA dfa p).isFinal) = true then setInsert p acc else acc) := by
    funext acc p
    cases (derefDFA dfa p).isFinal <;> simp
  rw [e, h]
  simp

/-- The blocks `accepting` and `nonAccepting` satisfy the invariant of the
refinement loop: the empty word tells their states apart. -/
theorem partOk_initial (dfa : List DFAState) : PartOk dfa (initialPartitions dfa) := by
  unfold initialPartitions
  refine ⟨?_, ?_, ?_, ?_⟩
  · intro B hB p hp
    simp only [List.mem_cons, List.mem_singleton, List.not_mem_nil, or_false] at hB
    rcases hB with rfl | rfl
    · exact ((mem_initial_accepting dfa p).1 hp).1
    · exact ((mem_initial_nonAccepting dfa p).1 hp).1
  · intro p hp
    cases hfin : (derefDFA dfa p).isFinal with
    | true =>
      exact ⟨_, List.mem_cons_self _ _, (mem_initial_accepting dfa p).2 ⟨hp, hfin⟩⟩
    | false =>
      exact ⟨_, List.mem_cons_of_mem _ (List.mem_cons_self _ _),
        (mem_initial_nonAccepting dfa p).2 ⟨hp, hfin⟩⟩
  · intro B hB p hp q hq
    simp only [List.mem_cons, List.mem_singleton, List.not_mem_nil, or_false] at hB
    rcases hB with rfl | rfl
    · rw [((mem_initial_accepting dfa p).1 hp).2, ((mem_initial_accepting dfa q).1 hq).2]
    · rw [((mem_initial_nonAccepting dfa p).1 hp).2, ((mem_initial_nonAccepting dfa q).1 hq).2]
  · rw [List.pairwise_cons]
    refine ⟨?_, List.pairwise_singleton _ _⟩
    intro B hB p hp q hq
    rw [List.mem_singleton] at hB
    subst hB
    refine ⟨[], ?_⟩
    show (derefDFA dfa p).isFinal ≠ (derefDFA dfa q).isFinal
    rw [((mem_initial_accepting dfa p).1 hp).2, ((mem_initial_nonAccepting dfa q).1 hq).2]
    decide

theorem length_le_sum (l : List Nat) (h : ∀ x ∈ l, 1 ≤ x) : l.length ≤ l.sum := by
  induction l with
  | nil => simp
  | cons b l ih =>
    have h1 := ih (fun x hx => h x (List.mem_cons_of_mem _ hx))
    have h2 := h b (List.mem_cons_self _ _)
    simp only [List.sum_cons, List.length_cons]
    omega

theorem length_le_refineRound (dfa : List DFAState) (P : List (List Nat))
    (hne : ∀ B ∈ P, B ≠ []) : P.length ≤ (refineRound dfa P).length := by
  rw [refineRound_eq, List.length_flatten, List.map_map]
  have h := length_le_sum (P.map (List.length ∘ blockGroups dfa P)) (by
    intro x hx
    obtain ⟨B, hB, rfl⟩ := List.mem_map.1 hx
    obtain ⟨p, hp⟩ := List.exists_mem_of_ne_nil B (hne B hB)
    obtain ⟨G, hG, -⟩ := (blockGroups_spec dfa P B).2.1 p hp
    exact List.length_pos_of_mem hG)
  rw [List.length_map] at h
  exact h

theorem nodup_length_le (l : List Nat) (n : Nat) (hn : l.Nodup) (h : ∀ x ∈ l, x < n) :
    l.length ≤ n := by
  have h1 : l.toFinset ⊆ Finset.range n := by
    intro x hx
    rw [List.mem_toFinset] at hx
    exact Finset.mem_range.2 (h x hx)
  have h2 := Finset.card_le_card h1
  rw [List.toFinset_card_of_nodup hn, Finset.card_range] at h2
  exact h2

/-- A partition into non-empty blocks has at most as many blocks as the DFA has
states. -/
theorem blocks_length_le (dfa : List DFAState) (P : List (List Nat)) (hP : PartOk dfa P)
    (hne : ∀ B ∈ P, B ≠ []) : P.length ≤ dfa.length := by
  have h1 : (P.map (fun B => B.headD 0)).Nodup := by
    unfold List.Nodup
    rw [List.pairwise_map]
    refine hP.sep.imp_of_mem ?_
    intro B1 B2 hB1 hB2 hsep heq
    have m1 : B1.headD 0 ∈ B1 := by
      cases B1 with
      | nil => exact absurd rfl (hne [] hB1)
      | cons a l => exact List.mem_cons_self _ _
    have m2 : B2.headD 0 ∈ B2 := by
      cases B2 with
      | nil => exact absurd rfl (hne [] hB2)
      | cons a l => exact List.mem_cons_self _ _
    rw [heq] at m1
    exact separated_self_false dfa B1 B2 _ hsep m1 m2
  have h2 := nodup_length_le _ dfa.length h1 (by
    intro x hx
    obtain ⟨B, hB, rfl⟩ := List.mem_map.1 hx
    have m1 : B.headD 0 ∈ B := by
      cases B with
      | nil => exact absurd rfl (hne [] hB)
      | cons a l => exact List.mem_cons_self _ _
    exact hP.range B hB _ m1)
  rw [List.length_map] at h2
  exact h2

/-- The refinement loop from a partition into non-empty blocks ends within the
fuel, with a partition that satisfies the invariant and that one more round
leaves with the same number of blocks. -/
theorem refineLoop_spec (dfa : List DFAState) (hd : DFAOk dfa) :
    ∀ (fuel : Nat) (P : List (List Nat)), PartOk dfa P → (∀ B ∈ P, B ≠ []) →
      dfa.length < fuel + P.length →
      ∃ P1, refineLoop dfa fuel P = some P1 ∧ PartOk dfa P1 ∧ (∀ B ∈ P1, B ≠ []) ∧
        (refineRound dfa P1).length = P1.length := by
  intro fuel
  induction fuel with
  | zero =>
    intro P hP hne hlt
    have := blocks_length_le dfa P hP hne
    omega
  | succ fuel ih =>
    intro P hP hne hlt
    rw [refineLoop]
    by_cases hlen : (refineRound dfa P).length ≠ P.length
    · rw [if_pos hlen]
      have hr := partOk_refineRound dfa P hd hP
      have hge := length_le_refineRound dfa P hne
      exact ih _ hr.1 hr.2 (by omega)
    · rw [if_neg hlen]
      exact ⟨P, rfl, hP, hne, not_not.1 hlen⟩

/-- The refinement loop of `minimizeDFA` ends: it leaves a partition that
satisfies the invariant, that one more round leaves with the same number of
blocks, and that is the initial one or has no empty block. -/
theorem finalPartitions_spec (dfa : List DFAState) (hd : DFAOk dfa) :
    ∃ P, finalPartitions dfa = some P ∧ PartOk dfa P ∧
      (refineRound dfa P).length = P.length ∧
      (P = initialPartitions dfa ∨ ∀ B ∈ P, B ≠ []) := by
  unfold finalPartitions
  rw [refineLoop]
  by_cases hlen : (refineRound dfa (initialPartitions dfa)).length ≠
      (initialPartitions dfa).length
  · rw [if_pos hlen]
    have hr := partOk_refineRound dfa _ hd (partOk_initial dfa)
    obtain ⟨P1, h1, h2, h3, h4⟩ := refineLoop_spec dfa hd (dfa.length + 2) _ hr.1 hr.2 (by omega)
    exact ⟨P1, h1, h2, h4, Or.inr h3⟩
  · rw [if_neg hlen]
    exact ⟨_, rfl, partOk_initial dfa, not_not.1 hlen, Or.inl rfl⟩

end Thompson

namespace Thompson

/-! ## The rebuild of the DFA from the final partition -/

theorem createNewStates_aux (l : List (List Nat)) (hne : ∀ B ∈ l, B ≠ []) :
    ∀ (acc : List DFAState), (∀ (i : Nat) (d : DFAState), acc[i]? = some d → d.transitions = []) →
      (l.foldl (fun acc part => if part ≠ [] then acc ++ [⟨acc.length, false, [], []⟩] else acc)
          acc).length = acc.length + l.length ∧
        ∀ (i : Nat) (d : DFAState),
          (l.foldl (fun acc part =>
            if part ≠ [] then acc ++ [⟨acc.length, false, [], []⟩] else acc) acc)[i]? = some d →
          d.transitions = [] := by
  induction l with
  | nil =>
    intro acc hacc
    exact ⟨rfl, hacc⟩
  | cons B l ih =>
    intro acc hacc
    rw [List.foldl_cons, if_pos (hne B (List.mem_cons_self _ _))]
    have h := ih (fun B1 hB1 => hne B1 (List.mem_cons_of_mem _ hB1))
      (acc ++ [⟨acc.length, false, [], []⟩]) (by
        intro i d hd
        rcases (getElem?_snoc _ _ _ _).1 hd with h1 | ⟨-, h2⟩
        · exact hacc i d h1
        · rw [h2])
    refine ⟨?_, h.2⟩
    rw [h.1]
    simp only [List.length_append, List.length_cons, List.length_nil]
    omega

/-- When no block is empty, `newDFAStates` gets one state for each block, and
these states have no transition yet. -/
theorem createNewStates_spec (P : List (List Nat)) (hne : ∀ B ∈ P, B ≠ []) :
    (createNewStates P).length = P.length ∧
      ∀ (i : Nat) (d : DFAState), (createNewStates P)[i]? = some d → d.transitions = [] := by
  have h := createNewStates_aux P hne [] (by intro i d hd; simp at hd)
  refine ⟨?_, h.2⟩
  have h1 := h.1
  simp only [List.length_nil, Nat.zero_add] at h1
  exact h1

theorem lookup_none_of_lt (ts : List (Char × Nat)) (c : Char)
    (h : ∀ x ∈ ts.map (fun tr => tr.1.toNat), c.toNat < x) : ts.lookup c = none := by
  induction ts with
  | nil => rfl
  | cons tr ts ih =>
    obtain ⟨k, v⟩ := tr
    rw [lookup_cons_ite]
    have hk : c ≠ k := by
      intro e
      have := h k.toNat (by simp)
      rw [e] at this
      exact lt_irrefl _ this
    rw [if_neg hk]
    exact ih (fun x hx => h x (by simp only [List.map_cons, List.mem_cons]; exact Or.inr hx))

/-- In a map sorted by symbol, an entry is found by its symbol. -/
theorem lookup_of_mem_sorted (ts : List (Char × Nat))
    (hs : (ts.map (fun tr => tr.1.toNat)).Sorted (fun a b => a < b)) (c : Char) (t : Nat)
    (h : (c, t) ∈ ts) : ts.lookup c = some t := by
  unfold List.Sorted at hs
  induction ts with
  | nil => simp at h
  | cons tr ts ih =>
    obtain ⟨k, v⟩ := tr
    rw [List.map_cons, List.pairwise_cons] at hs
    rw [lookup_cons_ite]
    rcases List.mem_cons.1 h with h | h
    · injection h with h1 h2
      rw [if_pos h1, h2]
    · have hk : c ≠ k := by
        intro e
        have := hs.1 c.toNat (List.mem_map.2 ⟨(c, t), h, rfl⟩)
        rw [e] at this
        exact lt_irrefl _ this
      rw [if_neg hk]
      exact ih hs.2 h

/-- The loop over the transitions of the representative: when every target is
in a block with a new state, the new transitions lead, on each symbol, to the
block of the target. -/
theorem copyTransitions_spec (P : List (List Nat)) (count : Nat) (ts : List (Char × Nat))
    (hs : (ts.map (fun tr => tr.1.toNat)).Sorted (fun a b => a < b))
    (hcov : ∀ tr ∈ ts, ∃ i, blockIndexOf P tr.2 = some i ∧ i < count) :
    ∀ (acc : List (Char × Nat)), ∃ r, copyTransitions P count ts acc = some r ∧
      ∀ c, r.lookup c =
        match ts.lookup c with
        | some t => blockIndexOf P t
        | none => acc.lookup c := by
  unfold List.Sorted at hs
  induction ts with
  | nil =>
    intro acc
    exact ⟨acc, rfl, fun c => rfl⟩
  | cons tr ts ih =>
    obtain ⟨k, v⟩ := tr
    intro acc
    rw [List.map_cons, List.pairwise_cons] at hs
    obtain ⟨i, hi, hlt⟩ := hcov (k, v) (List.mem_cons_self _ _)
    obtain ⟨r, hr, hl⟩ := ih hs.2 (fun tr htr => hcov tr (List.mem_cons_of_mem _ htr))
      (mapAssign k i acc)
    refine ⟨r, ?_, ?_⟩
    · rw [copyTransitions]
      simp only at hi
      simp only [hi, if_pos hlt]
      exact hr
    · intro c
      rw [hl c, lookup_cons_ite, lookup_mapAssign]
      by_cases hc : c = k
      · subst hc
        rw [if_pos rfl, if_pos rfl, lookup_none_of_lt ts c hs.1]
        exact hi.symm
      · rw [if_neg hc, if_neg hc]

theorem covered_lt (dfa : List DFAState) (P : List (List Nat)) (hd : DFAOk dfa)
    (hP : PartOk dfa P) (p : Nat) (hp : p < dfa.length) :
    ∀ tr ∈ (derefDFA dfa p).transitions, ∃ i, blockIndexOf P tr.2 = some i ∧ i < P.length := by
  intro tr htr
  have h := targets_covered dfa P hd hP p hp tr htr
  obtain ⟨i, hi⟩ := Option.isSome_iff_exists.1 h
  obtain ⟨B, hB, -⟩ := blockIndexOf_some P tr.2 i hi
  exact ⟨i, hi, lt_length_of_getElem? hB⟩

/-- The rebuild loop from block `done.length` on, when no block is empty: it
ends without reading outside `newDFAStates` or an empty block, and every new
state stands for its block. -/
theorem rebuildLoop_spec (dfa : List DFAState) (P : List (List Nat)) (hd : DFAOk dfa)
    (hP : PartOk dfa P) (hne : ∀ B ∈ P, B ≠ []) :
    ∀ (rest done : List (List Nat)) (states : List DFAState), P = done ++ rest →
      states.length = P.length →
      (∀ (k : Nat) (d : DFAState), done.length ≤ k → states[k]? = some d → d.transitions = []) →
      (∀ (k : Nat) (d : DFAState), k < done.length → states[k]? = some d →
        NewStateOk dfa P k d) →
      ∃ m, rebuildLoop dfa P rest done.length states = some m ∧ m.length = P.length ∧
        ∀ (k : Nat) (d : DFAState), m[k]? = some d → NewStateOk dfa P k d := by
  intro rest
  induction rest with
  | nil =>
    intro done states hsplit hlen _ hdone
    refine ⟨states, rfl, hlen, ?_⟩
    intro k d hk
    have hk1 := lt_length_of_getElem? hk
    rw [hsplit, List.append_nil] at hlen
    exact hdone k d (by omega) hk
  | cons B rest ih =>
    intro done states hsplit hlen hnew hdone
    have hBmem : B ∈ P := by rw [hsplit]; simp
    have hPlen : P.length = done.length + (rest.length + 1) := by
      rw [hsplit]; simp
    have hidx : done.length < states.length := by omega
    have hPB : P[done.length]? = some B := by
      rw [hsplit, List.getElem?_append_right (le_refl _)]
      simp
    obtain ⟨newState, hns⟩ : ∃ newState, states[done.length]? = some newState :=
      ⟨states[done.length], List.getElem?_eq_getElem hidx⟩
    cases B with
    | nil => exact absurd rfl (hne [] hBmem)
    | cons rep tl =>
      have hrep : rep < dfa.length := hP.range _ hBmem rep (List.mem_cons_self _ _)
      have hnt : newState.transitions = [] := hnew _ newState (le_refl _) hns
      obtain ⟨r, hr, hl⟩ := copyTransitions_spec P states.length (derefDFA dfa rep).transitions
        (hd.sorted rep _ (derefDFA_getElem? hrep))
        (by rw [hlen]; exact covered_lt dfa P hd hP rep hrep) newState.transitions
      have hstep : rebuildLoop dfa P ((rep :: tl) :: rest) done.length states =
          rebuildLoop dfa P rest (done.length + 1)
            (states.set done.length
              { newState with isFinal := (derefDFA dfa rep).isFinal, transitions := r }) := by
        simp only [rebuildLoop, hns, hr]
      rw [hstep]
      have hlen1 : (done ++ [rep :: tl]).length = done.length + 1 := by simp
      rw [← hlen1]
      apply ih
      · rw [hsplit]; simp
      · rw [List.length_set]; exact hlen
      · intro k d hk hkd
        rw [hlen1] at hk
        rcases (getElem?_set_iff _ _ _ _ _ hidx).1 hkd with ⟨h1, -⟩ | ⟨-, h2⟩
        · omega
        · exact hnew k d (by omega) h2
      · intro k d hk hkd
        rw [hlen1] at hk
        rcases (getElem?_set_iff _ _ _ _ _ hidx).1 hkd with ⟨h1, h2⟩ | ⟨h1, h2⟩
        · subst h1
          refine ⟨rep, tl, hPB, ?_, ?_⟩
          · rw [h2]
          · intro c
            rw [h2]
            show r.lookup c = blockStep P (derefDFA dfa rep) c
            rw [hl c, hnt]
            unfold blockStep
            cases (derefDFA dfa rep).transitions.lookup c <;> rfl
        · exact hdone k d (by omega) h2

/-- The rebuild from a partition without empty block gives one new state for
each block. -/
theorem rebuildDFA_spec (dfa : List DFAState) (P : List (List Nat)) (hd : DFAOk dfa)
    (hP : PartOk dfa P) (hne : ∀ B ∈ P, B ≠ []) :
    ∃ m, rebuildDFA dfa P = some m ∧ m.length = P.length ∧
      ∀ (k : Nat) (d : DFAState), m[k]? = some d → NewStateOk dfa P k d := by
  have hc := createNewStates_spec P hne
  exact rebuildLoop_spec dfa P hd hP hne P [] (createNewStates P) rfl hc.1
    (fun k d _ hk => hc.2 k d hk) (fun k d hk _ => absurd hk (Nat.not_lt_zero _))

/-- The rebuild reads `*part.begin()` of an empty block when there is one. -/
theorem rebuildLoop_empty (dfa : List DFAState) (P : List (List Nat)) :
    ∀ (rest : List (List Nat)) (index : Nat) (states : List DFAState), [] ∈ rest →
      rebuildLoop dfa P rest index states = none := by
  intro rest
  induction rest with
  | nil => intro _ _ h; simp at h
  | cons B rest ih =>
    intro index states h
    cases B with
    | nil =>
      cases hs : states[index]? <;> simp [rebuildLoop, hs]
    | cons rep tl =>
      have h1 : [] ∈ rest := by
        rcases List.mem_cons.1 h with h | h
        · exact absurd h (by simp)
        · exact h
      cases hs : states[index]? with
      | none => simp [rebuildLoop, hs]
      | some newState =>
        cases hc : copyTransitions P states.length (derefDFA dfa rep).transitions
            newState.transitions with
        | none => simp [rebuildLoop, hs, hc]
        | some ts =>
          simp only [rebuildLoop, hs, hc]
          exact ih _ _ h1

/-! ## The language of the new states -/

/-- A new state accepts the words that the states of its block accept, when no
round splits the partition any more. -/
theorem newState_accepts (dfa : List DFAState) (P : List (List Nat)) (m : List DFAState)
    (hd : DFAOk dfa) (hP : PartOk dfa P)
    (hstable : ∀ B ∈ P, ∀ p ∈ B, ∀ q ∈ B,
      signature P (derefDFA dfa p) = signature P (derefDFA dfa q))
    (hlen : m.length = P.length)
    (hm : ∀ (k : Nat) (d : DFAState), m[k]? = some d → NewStateOk dfa P k d) :
    ∀ (w : List Char) (k : Nat) (B : List Nat) (p : Nat), P[k]? = some B → p ∈ B →
      dfaAccepts m k w = dfaAccepts dfa p w := by
  intro w
  induction w with
  | nil =>
    intro k B p hB hp
    have hk : k < m.length := by rw [hlen]; exact lt_length_of_getElem? hB
    obtain ⟨rep, tl, h1, h2, -⟩ := hm k _ (derefDFA_getElem? hk)
    rw [hB] at h1
    injection h1 with h1
    show (derefDFA m k).isFinal = (derefDFA dfa p).isFinal
    rw [h2]
    have hBmem : B ∈ P := List.mem_iff_getElem?.2 ⟨k, hB⟩
    exact hP.homog B hBmem rep (by rw [h1]; exact List.mem_cons_self _ _) p hp
  | cons c w ih =>
    intro k B p hB hp
    have hk : k < m.length := by rw [hlen]; exact lt_length_of_getElem? hB
    obtain ⟨rep, tl, h1, -, h3⟩ := hm k _ (derefDFA_getElem? hk)
    rw [hB] at h1
    injection h1 with h1
    have hBmem : B ∈ P := List.mem_iff_getElem?.2 ⟨k, hB⟩
    have hrepB : rep ∈ B := by rw [h1]; exact List.mem_cons_self _ _
    have hplt : p < dfa.length := hP.range B hBmem p hp
    have hsig := (signature_eq_iff dfa P hd hP rep p (hP.range B hBmem rep hrepB) hplt).1
      (hstable B hBmem rep hrepB p hp) c
    have hstep : dfaStep m k c = blockStep P (derefDFA dfa p) c := by
      rw [← hsig, ← h3 c]
      rfl
    rw [dfaAccepts, dfaAccepts, hstep]
    unfold blockStep dfaStep
    cases hl : (derefDFA dfa p).transitions.lookup c with
    | none => rfl
    | some q =>
      obtain ⟨i, hi, -⟩ := covered_lt dfa P hd hP p hplt (c, q) (mem_of_lookup hl)
      simp only at hi
      obtain ⟨B1, hB1, hq⟩ := blockIndexOf_some P q i hi
      have e : (some q).bind (blockIndexOf P) = some i := hi
      rw [e]
      exact ih i B1 q hB1 hq

/-- Two different new states are told apart by some word. -/
theorem newStates_distinguished (dfa : List DFAState) (P : List (List Nat)) (m : List DFAState)
    (hP : PartOk dfa P) (hne : ∀ B ∈ P, B ≠ []) (hlen : m.length = P.length)
    (hacc : ∀ (w : List Char) (k : Nat) (B : List Nat) (p : Nat), P[k]? = some B → p ∈ B →
      dfaAccepts m k w = dfaAccepts dfa p w)
    (i j : Nat) (hi : i < m.length) (hj : j < m.length) (hij : i ≠ j) :
    ∃ w, dfaAccepts m i w ≠ dfaAccepts m j w := by
  rw [hlen] at hi hj
  have hBi : P[i]? = some P[i] := List.getElem?_eq_getElem hi
  have hBj : P[j]? = some P[j] := List.getElem?_eq_getElem hj
  obtain ⟨p, hp⟩ := List.exists_mem_of_ne_nil _ (hne _ (List.getElem_mem hi))
  obtain ⟨q, hq⟩ := List.exists_mem_of_ne_nil _ (hne _ (List.getElem_mem hj))
  have hpi := blockIndexOf_of_mem dfa P hP.sep i _ p hBi hp
  have hqj := blockIndexOf_of_mem dfa P hP.sep j _ q hBj hq
  obtain ⟨w, hw⟩ := separated_of_index_ne dfa P hP.sep i j p q hij hpi hqj
  refine ⟨w, ?_⟩
  rw [hacc w i _ p hBi hp, hacc w j _ q hBj hq]
  exact hw

/-- The whole of `minimizeDFA` on a DFA fit for minimization: the refinement
loop ends with some partition; when that partition has no empty block the rebuild
gives one new state for each block, each new state accepts the words that the
states of its block accept, and different new states are told apart by some
word; when it has an empty block the rebuild is undefined. -/
theorem minimizeDFA_spec (dfa : List DFAState) (hd : DFAOk dfa) :
    ∃ P, finalPartitions dfa = some P ∧ PartOk dfa P ∧
      ([] ∈ P → minimizeDFA dfa = none) ∧
      ((∀ B ∈ P, B ≠ []) → ∃ m, minimizeDFA dfa = some m ∧ m.length = P.length ∧
        (∀ (w : List Char) (k : Nat) (B : List Nat) (p : Nat), P[k]? = some B → p ∈ B →
          dfaAccepts m k w = dfaAccepts dfa p w) ∧
        ∀ i j, i < m.length → j < m.length → i ≠ j →
          ∃ w, dfaAccepts m i w ≠ dfaAccepts m j w) := by
  obtain ⟨P, h1, hP, hlen, -⟩ := finalPartitions_spec dfa hd
  refine ⟨P, h1, hP, ?_, ?_⟩
  · intro hmem
    unfold minimizeDFA
    rw [h1]
    exact rebuildLoop_empty dfa P P 0 _ hmem
  · intro hne
    obtain ⟨m, hm1, hm2, hm3⟩ := rebuildDFA_spec dfa P hd hP hne
    have hacc := newState_accepts dfa P m hd hP (stable_of_length_eq dfa P hne hlen) hm2 hm3
    refine ⟨m, ?_, hm2, hacc, ?_⟩
    · unfold minimizeDFA
      rw [h1]
      exact hm1
    · intro i j hi hj hij
      exact newStates_distinguished dfa P m hP hne hm2 hacc i j hi hj hij

/-! ## The DFA of the subset construction is fit for minimization -/

theorem alpha_not_digit (c : Char) (h : isalpha c = true) : c.isDigit = false := by
  unfold isalpha at h
  simp only [Char.isAlpha, Char.isUpper, Char.isLower, Char.isDigit, Bool.or_eq_true,
    Bool.and_eq_true, decide_eq_true_eq, Bool.and_eq_false_imp, decide_eq_false_iff_not] at h ⊢
  intro h1
  simp only [UInt32.le_def, BitVec.le_def] at h h1 ⊢
  have e1 : (UInt32.toBitVec 65).toNat = 65 := rfl
  have e2 : (UInt32.toBitVec 90).toNat = 90 := rfl
  have e3 : (UInt32.toBitVec 97).toNat = 97 := rfl
  have e4 : (UInt32.toBitVec 122).toNat = 122 := rfl
  have e5 : (UInt32.toBitVec 48).toNat = 48 := rfl
  have e6 : (UInt32.toBitVec 57).toNat = 57 := rfl
  rw [e1, e2, e3, e4] at h
  rw [e5] at h1
  rw [e6]
  omega

theorem reach_in_frag {S : List State} {e : Regex} {f : NFA} {lo hi : Nat}
    (h : Frag S e f lo hi) (x : Nat) (hx : Reach S f.start x) : lo ≤ x ∧ x < hi := by
  induction hx with
  | refl => exact ⟨h.start_ge, h.start_lt⟩
  | tail _ hstep ih =>
    obtain ⟨c, hc⟩ := hstep
    exact h.region_closed _ c _ ih hc

theorem path_of_reach {S : List State} {p q : Nat} (h : Reach S p q) : ∃ w, Path S p w q := by
  induction h using Relation.ReflTransGen.head_induction_on with
  | refl => exact ⟨[], Path.refl q⟩
  | head hstep _ ih =>
    obtain ⟨c, hc⟩ := hstep
    obtain ⟨w, hw⟩ := ih
    exact ⟨symWord c ++ w, Path.step hc hw⟩

theorem path_no_epsilon {S : List State} {p q : Nat} {w : List Char} (h : Path S p w q) :
    Epsilon ∉ w := by
  induction h with
  | refl => simp
  | @step p q r c w1 hstep _ ih =>
    intro hmem
    rcases List.mem_append.1 hmem with h1 | h1
    · unfold symWord at h1
      by_cases hc : c = Epsilon
      · rw [if_pos hc] at h1
        simp at h1
      · rw [if_neg hc, List.mem_singleton] at h1
        exact hc h1.symm
    · exact ih h1

/-- The DFA that the subset construction builds from a Fragment: its
transitions lead to its states, are sorted by symbol, carry alphabetic symbols,
and every state accepts some word. -/
theorem dfaOk_of_tables (states : List State) (nfa : NFA) (t : DFATables) (e : Regex)
    (lo : Nat) (hf : Frag states e nfa lo states.length)
    (ht : TablesOk states nfa.start t)
    (hc : Complete states (inputSymbols states (collectStatesFromNFA states nfa)) t []) :
    DFAOk t.dfaStates := by
  refine ⟨?_, ?_, ?_, ?_⟩
  · intro i d tr hd htr
    have hl := lookup_of_mem_sorted d.transitions (ht.sorted i d hd) tr.1 tr.2 htr
    obtain ⟨d1, hd1, -⟩ := ht.trans i d tr.1 tr.2 hd hl
    exact lt_length_of_getElem? hd1
  · exact ht.sorted
  · intro i d tr hd htr
    have hl := lookup_of_mem_sorted d.transitions (ht.sorted i d hd) tr.1 tr.2 htr
    obtain ⟨d1, hd1, hS⟩ := ht.trans i d tr.1 tr.2 hd hl
    obtain ⟨x, hx⟩ := List.exists_mem_of_ne_nil _ (ht.nonempty _ d1 hd1)
    rw [hS] at hx
    obtain ⟨p, hp, p1, hstep, -⟩ := (mem_nextSet states d.nfaStates tr.1 x).1 hx
    have hin := reach_in_frag hf p ((ht.reach i d hd).2 p hp)
    rcases hf.labels p tr.1 p1 hin.1 hin.2 hstep with h | h
    · rw [h]
      decide
    · exact alpha_not_digit _ h
  · intro i hi
    have hd := derefDFA_getElem? hi
    obtain ⟨x, hx⟩ := List.exists_mem_of_ne_nil _ (ht.nonempty i _ hd)
    obtain ⟨w0, hw0⟩ := path_of_reach ((ht.reach i _ hd).2 x hx)
    obtain ⟨w1, hw1⟩ := hf.live x w0 hw0
    obtain ⟨p, hxp, hreads⟩ := hw1.to_reads
    have hp := ht.closed i _ hd x hx p hxp
    refine ⟨w1, ?_⟩
    rw [dfaAccepts_eq_fold states nfa.start _ t ht hc (by
      intro p c q hreach hstep hne
      exact mem_inputSymbols states _ p q c
        (((collectStatesFromNFA_spec states nfa).2.2 p).2 hreach) hstep hne)
      w1 (path_no_epsilon hw1) i _ hd]
    rw [List.any_eq_true]
    exact ⟨nfa.accept, (mem_foldl_nextSet states w1 _ nfa.accept).2 ⟨p, hp, hreads⟩,
      (hf.final nfa.accept hf.accept_ge hf.accept_lt).2 rfl⟩

/-- C4. For every NFA returned by the builder (started with the empty arena),
the subset construction returns a DFA, and on it the refinement loop of
`minimizeDFA` ends with some partition; when no block of that partition is
empty `minimizeDFA` returns an automaton with one state for each block; and
whenever `minimizeDFA` returns an automaton, for every two different states of
it there is a word accepted from one and rejected from the other. -/
theorem minimized_states_distinguishable (pf : List Char) (nfa : NFA) (arena : Arena)
    (h : generateThompsonNFAFromPostfix emptyArena pf = some (nfa, arena)) :
    ∃ t P, constructDFAFromNFA arena.states emptyTables nfa
        (collectStatesFromNFA arena.states nfa) = some t ∧
      finalPartitions t.dfaStates = some P ∧
      ((∀ B ∈ P, B ≠ []) →
        ∃ m, minimizeDFA t.dfaStates = some m ∧ m.length = P.length) ∧
      ∀ m, minimizeDFA t.dfaStates = some m →
        ∀ i j, i < m.length → j < m.length → i ≠ j →
          ∃ w, dfaAccepts m i w ≠ dfaAccepts m j w := by
  obtain ⟨hwf, hstart⟩ := generate_wellFormed pf nfa arena h
  obtain ⟨e, lo, hf⟩ := generate_frag pf nfa arena h
  obtain ⟨t, h1, h2, h3, -, -⟩ := constructDFA_correct arena.states nfa hwf hstart
  obtain ⟨P, hP1, -, hP3, hP4⟩ :=
    minimizeDFA_spec t.dfaStates (dfaOk_of_tables arena.states nfa t e lo hf h2 h3)
  refine ⟨t, P, h1, hP1, ?_, ?_⟩
  · intro hne
    obtain ⟨m, hm1, hm2, -, -⟩ := hP4 hne
    exact ⟨m, hm1, hm2⟩
  · intro m hm
    have hne : ∀ B ∈ P, B ≠ [] := by
      intro B hB hnil
      rw [hnil] at hB
      rw [hP3 hB] at hm
      exact Option.noConfusion hm
    obtain ⟨m1, hm1, -, -, hm4⟩ := hP4 hne
    rw [hm] at hm1
    injection hm1 with hm1
    rw [hm1]
    exact hm4

/-- The witness of C4: the NFA built for "a", with the states 0 and 1. -/
theorem minimized_states_distinguishable_witness :
    ∃ t P, constructDFAFromNFA [⟨0, false, [⟨'a', 1⟩]⟩, ⟨1, true, []⟩] emptyTables ⟨0, 1⟩
        (collectStatesFromNFA [⟨0, false, [⟨'a', 1⟩]⟩, ⟨1, true, []⟩] ⟨0, 1⟩) = some t ∧
      finalPartitions t.dfaStates = some P ∧
      ((∀ B ∈ P, B ≠ []) →
        ∃ m, minimizeDFA t.dfaStates = some m ∧ m.length = P.length) ∧
      ∀ m, minimizeDFA t.dfaStates = some m →
        ∀ i j, i < m.length → j < m.length → i ≠ j →
          ∃ w, dfaAccepts m i w ≠ dfaAccepts m j w :=
  minimized_states_distinguishable ['a'] ⟨0, 1⟩
    ⟨[⟨0, false, [⟨'a', 1⟩]⟩, ⟨1, true, []⟩], 2⟩ (by decide)

end Thompson

namespace Thompson

/-! ## The empty initial block -/

/-- C11 (failing input). For "a*b*" the three DFA states are all accepting:
the initial blocks are `accepting` and the empty `nonAccepting`, which is
pushed like any block; the refinement loop ends with these two blocks; the
rebuild creates a single new state, so that for the block of index 1
`newDFAStates[1]` is outside the vector and the block has no member for
`*part.begin()`, and no automaton is produced. -/
theorem empty_initial_block_is_kept :
    (compileToDFA "a*b*".toList).map
      (fun t => (t.dfaStates.map (fun d => d.isFinal), initialPartitions t.dfaStates,
        finalPartitions t.dfaStates,
        (finalPartitions t.dfaStates).map (fun P => (P[1]?, (createNewStates P).length,
          (createNewStates P)[1]?.isSome, (rebuildDFA t.dfaStates P).isSome)))) =
    some ([true, true, true], [[0, 1, 2], []], some [[0, 1, 2], []],
      some (some [], 1, false, false)) := by
  rfl

/-! ## The initial state of the minimized automaton -/

/-- Whenever `minimizeDFA` returns an automaton, the block of the state `q` of
the DFA has a new state, and from it the automaton accepts the words that the
DFA accepts from `q`. -/
theorem newStateOf_spec (dfa : List DFAState) (hd : DFAOk dfa) (q : Nat) (hq : q < dfa.length)
    (m : List DFAState) (hm : minimizeDFA dfa = some m) :
    ∃ k, newStateOf dfa q = some k ∧ k < m.length ∧
      ∀ w, dfaAccepts m k w = dfaAccepts dfa q w := by
  obtain ⟨P, hP1, hP2, hP3, hP4⟩ := minimizeDFA_spec dfa hd
  have hne : ∀ B ∈ P, B ≠ [] := by
    intro B hB hnil
    rw [hnil] at hB
    rw [hP3 hB] at hm
    exact Option.noConfusion hm
  obtain ⟨m1, hm1, hlen, hacc, -⟩ := hP4 hne
  rw [hm] at hm1
  injection hm1 with hm1
  subst hm1
  obtain ⟨k, hk⟩ := Option.isSome_iff_exists.1 (blockIndexOf_isSome P q (hP2.cover q hq))
  obtain ⟨B, hB, hqB⟩ := blockIndexOf_some P q k hk
  refine ⟨k, ?_, ?_, ?_⟩
  · unfold newStateOf
    rw [hP1]
    exact hk
  · rw [hlen]
    exact lt_length_of_getElem? hB
  · intro w
    exact hacc w k B q hB hqB

/-- C12 (counterexample). For "a" the DFA has the initial state 0, not
accepting, and the accepting state 1. `minimizeDFA` returns the vector of the
two new states and nothing else; the accepting block comes first, so the new
state for the block of the initial state is state 1, while state 0 accepts the
empty word. -/
theorem minimized_output_has_no_initial_state :
    (compileToDFA ['a']).map
      (fun t => (t.dfaStates.map (fun d => (d.id, d.isFinal, d.transitions)),
        (minimizeDFA t.dfaStates).map
          (fun m => m.map (fun d => (d.id, d.isFinal, d.transitions))),
        newStateOf t.dfaStates 0, dfaAccepts t.dfaStates 0 [],
        (minimizeDFA t.dfaStates).map (fun m => dfaAccepts m 0 []))) =
    some ([(0, false, [('a', 1)]), (1, true, [])],
      some [(0, true, []), (1, false, [('a', 0)])], some 1, false, some true) := by
  rfl

/-- C12 (amended). For every NFA returned by the builder (started with the
empty arena) the subset construction returns a DFA with a state 0 for the
closure of the start state; whenever `minimizeDFA` returns an automaton for
it, the block of state 0 has a new state, whose index is the index of the block
in the final partition, and run from that state the automaton accepts exactly
the words that the DFA accepts from state 0. -/
theorem initial_block_state_accepts (pf : List Char) (nfa : NFA) (arena : Arena)
    (h : generateThompsonNFAFromPostfix emptyArena pf = some (nfa, arena)) :
    ∃ t, constructDFAFromNFA arena.states emptyTables nfa
        (collectStatesFromNFA arena.states nfa) = some t ∧
      (∃ d0 : DFAState, t.dfaStates[0]? = some d0 ∧
        d0.nfaStates = eClosure arena.states nfa.start) ∧
      ∀ m, minimizeDFA t.dfaStates = some m →
        ∃ k, newStateOf t.dfaStates 0 = some k ∧ k < m.length ∧
          ∀ w, dfaAccepts m k w = dfaAccepts t.dfaStates 0 w := by
  obtain ⟨hwf, hstart⟩ := generate_wellFormed pf nfa arena h
  obtain ⟨e, lo, hf⟩ := generate_frag pf nfa arena h
  obtain ⟨t, h1, h2, h3, ⟨d0, h4, h5⟩, -⟩ := constructDFA_correct arena.states nfa hwf hstart
  refine ⟨t, h1, ⟨d0, h4, h5⟩, ?_⟩
  intro m hm
  exact newStateOf_spec t.dfaStates (dfaOk_of_tables arena.states nfa t e lo hf h2 h3) 0
    (lt_length_of_getElem? h4) m hm

/-- The witness of the amended C12: the NFA built for "a", with the states 0
and 1. -/
theorem initial_block_state_accepts_witness :
    ∃ t, constructDFAFromNFA [⟨0, false, [⟨'a', 1⟩]⟩, ⟨1, true, []⟩] emptyTables ⟨0, 1⟩
        (collectStatesFromNFA [⟨0, false, [⟨'a', 1⟩]⟩, ⟨1, true, []⟩] ⟨0, 1⟩) = some t ∧
      (∃ d0 : DFAState, t.dfaStates[0]? = some d0 ∧
        d0.nfaStates = eClosure [⟨0, false, [⟨'a', 1⟩]⟩, ⟨1, true, []⟩] 0) ∧
      ∀ m, minimizeDFA t.dfaStates = some m →
        ∃ k, newStateOf t.dfaStates 0 = some k ∧ k < m.length ∧
          ∀ w, dfaAccepts m k w = dfaAccepts t.dfaStates 0 w :=
  initial_block_state_accepts ['a'] ⟨0, 1⟩
    ⟨[⟨0, false, [⟨'a', 1⟩]⟩, ⟨1, true, []⟩], 2⟩ (by decide)

/-! ## Determinism -/

theorem nodup_keys_of_sorted (ts : List (Char × Nat))
    (h : (ts.map (fun tr => tr.1.toNat)).Sorted (fun a b => a < b)) :
    (ts.map (fun tr => tr.1)).Nodup := by
  have h1 : (ts.map (fun tr => tr.1.toNat)).Nodup := h.nodup
  have h2 : ts.map (fun tr => tr.1.toNat) = (ts.map (fun tr => tr.1)).map Char.toNat := by
    rw [List.map_map]
    rfl
  rw [h2] at h1
  exact List.Nodup.of_map _ h1

theorem copyTransitions_sorted (P : List (List Nat)) (count : Nat) (ts : List (Char × Nat)) :
    ∀ (acc r : List (Char × Nat)),
      (acc.map (fun tr => tr.1.toNat)).Sorted (fun a b => a < b) →
      copyTransitions P count ts acc = some r →
      (r.map (fun tr => tr.1.toNat)).Sorted (fun a b => a < b) := by
  induction ts with
  | nil =>
    intro acc r hacc h
    simp only [copyTransitions, Option.some.injEq] at h
    exact h ▸ hacc
  | cons tr ts ih =>
    obtain ⟨k, v⟩ := tr
    intro acc r hacc h
    rw [copyTransitions] at h
    cases hb : blockIndexOf P v with
    | none =>
      simp only [hb] at h
      exact ih acc r hacc h
    | some i =>
      simp only [hb] at h
      by_cases hi : i < count
      · rw [if_pos hi] at h
        exact ih _ r (mapAssign_sorted k i acc hacc) h
      · rw [if_neg hi] at h
        exact Option.noConfusion h

theorem createNewStates_transitions (P : List (List Nat)) :
    ∀ d ∈ createNewStates P, d.transitions = [] := by
  unfold createNewStates
  have key : ∀ (l : List (List Nat)) (acc : List DFAState),
      (∀ d ∈ acc, d.transitions = []) →
      ∀ d ∈ l.foldl (fun acc part =>
        if part ≠ [] then acc ++ [⟨acc.length, false, [], []⟩] else acc) acc,
        d.transitions = [] := by
    intro l
    induction l with
    | nil => intro acc hacc; exact hacc
    | cons B l ih =>
      intro acc hacc
      rw [List.foldl_cons]
      apply ih
      by_cases hB : B ≠ []
      · rw [if_pos hB]
        intro d hd
        rcases List.mem_append.1 hd with h1 | h1
        · exact hacc d h1
        · rw [List.mem_singleton] at h1
          rw [h1]
      · rw [if_neg hB]
        exact hacc
  exact key P [] (by intro d hd; simp at hd)

theorem rebuildLoop_sorted (dfa : List DFAState) (P : List (List Nat)) :
    ∀ (rest : List (List Nat)) (index : Nat) (states m : List DFAState),
      (∀ d ∈ states, (d.transitions.map (fun tr => tr.1.toNat)).Sorted (fun a b => a < b)) →
      rebuildLoop dfa P rest index states = some m →
      ∀ d ∈ m, (d.transitions.map (fun tr => tr.1.toNat)).Sorted (fun a b => a < b) := by
  intro rest
  induction rest with
  | nil =>
    intro index states m hs h
    simp only [rebuildLoop, Option.some.injEq] at h
    exact h ▸ hs
  | cons B rest ih =>
    intro index states m hs h
    cases B with
    | nil =>
      cases hns : states[index]? <;> simp [rebuildLoop, hns] at h
    | cons rep tl =>
      cases hns : states[index]? with
      | none => simp [rebuildLoop, hns] at h
      | some newState =>
        cases hc : copyTransitions P states.length (derefDFA dfa rep).transitions
            newState.transitions with
        | none => simp [rebuildLoop, hns, hc] at h
        | some ts =>
          simp only [rebuildLoop, hns, hc] at h
          refine ih _ _ m ?_ h
          intro d hd
          rcases List.mem_or_eq_of_mem_set hd with h1 | h1
          · exact hs d h1
          · rw [h1]
            exact copyTransitions_sorted P _ _ _ ts
              (hs newState (List.mem_iff_getElem?.2 ⟨index, hns⟩)) hc

/-- The transitions of every state that `minimizeDFA` returns are sorted by
symbol. -/
theorem minimizeDFA_sorted (dfa m : List DFAState) (h : minimizeDFA dfa = some m) :
    ∀ d ∈ m, (d.transitions.map (fun tr => tr.1.toNat)).Sorted (fun a b => a < b) := by
  unfold minimizeDFA at h
  cases hP : finalPartitions dfa with
  | none => simp [hP] at h
  | some P =>
    simp only [hP] at h
    unfold rebuildDFA at h
    refine rebuildLoop_sorted dfa P P 0 _ m ?_ h
    intro d hd
    rw [createNewStates_transitions P d hd]
    exact List.sorted_nil

/-- C13. For every arena whose transitions lead to states of the arena and
every NFA that starts in it, `constructDFAFromNFA` (tables initially empty)
returns, and in its result no DFA state has two transitions with the same
symbol; the same holds for every state of the automaton that `minimizeDFA`
returns for that result. -/
theorem transitions_deterministic (states : List State) (nfa : NFA) (hwf : WellFormed states)
    (hstart : nfa.start < states.length) :
    ∃ t, constructDFAFromNFA states emptyTables nfa (collectStatesFromNFA states nfa) = some t ∧
      (∀ d ∈ t.dfaStates, (d.transitions.map (fun tr => tr.1)).Nodup ∧
        ∀ c j1 j2, (c, j1) ∈ d.transitions → (c, j2) ∈ d.transitions → j1 = j2) ∧
      ∀ m, minimizeDFA t.dfaStates = some m →
        ∀ d ∈ m, (d.transitions.map (fun tr => tr.1)).Nodup ∧
          ∀ c j1 j2, (c, j1) ∈ d.transitions → (c, j2) ∈ d.transitions → j1 = j2 := by
  obtain ⟨t, h1, h2, -, -, -⟩ := constructDFA_correct states nfa hwf hstart
  have key : ∀ (ts : List (Char × Nat)),
      (ts.map (fun tr => tr.1.toNat)).Sorted (fun a b => a < b) →
      (ts.map (fun tr => tr.1)).Nodup ∧
        ∀ c j1 j2, (c, j1) ∈ ts → (c, j2) ∈ ts → j1 = j2 := by
    intro ts hs
    refine ⟨nodup_keys_of_sorted ts hs, ?_⟩
    intro c j1 j2 m1 m2
    have e1 := lookup_of_mem_sorted ts hs c j1 m1
    have e2 := lookup_of_mem_sorted ts hs c j2 m2
    rw [e1] at e2
    injection e2
  refine ⟨t, h1, ?_, ?_⟩
  · intro d hd
    obtain ⟨i, hi⟩ := List.mem_iff_getElem?.1 hd
    exact key _ (h2.sorted i d hi)
  · intro m hm d hd
    exact key _ (minimizeDFA_sorted t.dfaStates m hm d hd)

/-- The witness of C13: the NFA built for "a", with the states 0 and 1. -/
theorem transitions_deterministic_witness :
    ∃ t, constructDFAFromNFA [⟨0, false, [⟨'a', 1⟩]⟩, ⟨1, true, []⟩] emptyTables ⟨0, 1⟩
        (collectStatesFromNFA [⟨0, false, [⟨'a', 1⟩]⟩, ⟨1, true, []⟩] ⟨0, 1⟩) = some t ∧
      (∀ d ∈ t.dfaStates, (d.transitions.map (fun tr => tr.1)).Nodup ∧
        ∀ c j1 j2, (c, j1) ∈ d.transitions → (c, j2) ∈ d.transitions → j1 = j2) ∧
      ∀ m, minimizeDFA t.dfaStates = some m →
        ∀ d ∈ m, (d.transitions.map (fun tr => tr.1)).Nodup ∧
          ∀ c j1 j2, (c, j1) ∈ d.transitions → (c, j2) ∈ d.transitions → j1 = j2 :=
  transitions_deterministic [⟨0, false, [⟨'a', 1⟩]⟩, ⟨1, true, []⟩] ⟨0, 1⟩
    (generate_wellFormed ['a'] ⟨0, 1⟩ ⟨[⟨0, false, [⟨'a', 1⟩]⟩, ⟨1, true, []⟩], 2⟩
      (by decide)).1
    (by decide)

/-! ## The work-list: every set is taken once -/

theorem getOrCreate_effect (states : List State) (t : DFATables) (S : List Nat) :
    (∀ X, (t.stateMap.lookup X).isSome = true →
      ((getOrCreateDFAState states t S).2.stateMap.lookup X).isSome = true) ∧
    ((getOrCreateDFAState states t S).2.stateMap.lookup S).isSome = true ∧
    (getOrCreateDFAState states t S).2.dfaStates.length =
      t.dfaStates.length + (if t.stateMap.lookup S = none then 1 else 0) := by
  unfold getOrCreateDFAState
  cases h : t.stateMap.lookup S with
  | none =>
    refine ⟨?_, ?_, ?_⟩
    · intro X hX
      simp only [List.lookup_append]
      obtain ⟨i, hi⟩ := Option.isSome_iff_exists.1 hX
      rw [hi]
      rfl
    · simp only [List.lookup_append, h, Option.none_or, lookup_cons_ite, if_true]
      rfl
    · simp
  | some i =>
    refine ⟨fun X hX => hX, ?_, ?_⟩
    · simp only [h]
      rfl
    · simp

theorem getOrCreate_of_isSome (states : List State) (t : DFATables) (S : List Nat)
    (h : (t.stateMap.lookup S).isSome = true) : (getOrCreateDFAState states t S).2 = t := by
  obtain ⟨i, hi⟩ := Option.isSome_iff_exists.1 h
  unfold getOrCreateDFAState
  rw [hi]

theorem setDFATransition_effect (t t1 : DFATables) (cur next : Nat) (c : Char)
    (h : setDFATransition t cur c next = some t1) :
    t1.stateMap = t.stateMap ∧ t1.dfaStates.length = t.dfaStates.length := by
  unfold setDFATransition at h
  cases hd : t.dfaStates[cur]? with
  | none => simp [hd] at h
  | some d =>
    simp only [hd] at h
    by_cases hn : next < t.dfaStates.length
    · rw [if_pos hn] at h
      injection h with h
      subst h
      exact ⟨rfl, by simp⟩
    · rw [if_neg hn] at h
      exact Option.noConfusion h

/-- One pass of the loop over `inputSymbols`: the queue gets at most one set, a
set that was not in `stateMap` and now is; the sets in `stateMap` stay; and the
queue grows as the vector of DFA states does. -/
theorem symbolStep_queue (states : List State) (S : List Nat) (cur : Nat)
    (q q1 : List (List Nat)) (t t1 : DFATables) (c : Char)
    (h : symbolStep states S cur (q, t) c = some (q1, t1)) :
    ∃ new, q1 = q ++ new ∧ new.Nodup ∧ (∀ X ∈ new, t.stateMap.lookup X = none) ∧
      (∀ X ∈ new, (t1.stateMap.lookup X).isSome = true) ∧
      (∀ X, (t.stateMap.lookup X).isSome = true → (t1.stateMap.lookup X).isSome = true) ∧
      q1.length + t.dfaStates.length = q.length + t1.dfaStates.length := by
  unfold symbolStep at h
  by_cases hne : eClosureSet states (move states S c) ≠ []
  · rw [if_pos hne] at h
    simp only at h
    cases hs : setDFATransition
        (getOrCreateDFAState states t (eClosureSet states (move states S c))).2 cur c
        (getOrCreateDFAState states t (eClosureSet states (move states S c))).1 with
    | none => simp [hs] at h
    | some t2 =>
      simp only [hs, Option.some.injEq, Prod.mk.injEq] at h
      obtain ⟨hq, ht⟩ := h
      subst ht
      obtain ⟨e1, e2⟩ := setDFATransition_effect _ _ _ _ _ hs
      obtain ⟨g1, g2, g3⟩ := getOrCreate_effect states t (eClosureSet states (move states S c))
      by_cases hl : t.stateMap.lookup (eClosureSet states (move states S c)) = none
      · rw [if_pos hl] at hq
        rw [if_pos hl] at g3
        refine ⟨[eClosureSet states (move states S c)], hq.symm, List.nodup_singleton _, ?_, ?_, ?_,
          ?_⟩
        · intro X hX
          rw [List.mem_singleton] at hX
          rw [hX]
          exact hl
        · intro X hX
          rw [List.mem_singleton] at hX
          rw [hX, e1]
          exact g2
        · intro X hX
          rw [e1]
          exact g1 X hX
        · rw [← hq, e2, g3]
          simp only [List.length_append, List.length_cons, List.length_nil]
          omega
      · rw [if_neg hl] at hq
        rw [if_neg hl] at g3
        refine ⟨[], by rw [← hq, List.append_nil], List.nodup_nil, ?_, ?_, ?_, ?_⟩
        · intro X hX; simp at hX
        · intro X hX; simp at hX
        · intro X hX
          rw [e1]
          exact g1 X hX
        · rw [← hq, e2, g3]
          omega
  · rw [if_neg hne] at h
    simp only [Option.some.injEq, Prod.mk.injEq] at h
    obtain ⟨hq, ht⟩ := h
    subst hq ht
    exact ⟨[], by rw [List.append_nil], List.nodup_nil, by intro X hX; simp at hX,
      by intro X hX; simp at hX, fun X hX => hX, rfl⟩

theorem symbolsLoop_queue (states : List State) (S : List Nat) (cur : Nat) (cs : List Char) :
    ∀ (q q1 : List (List Nat)) (t t1 : DFATables),
      symbolsLoop states S cur cs (q, t) = some (q1, t1) →
      ∃ new, q1 = q ++ new ∧ new.Nodup ∧ (∀ X ∈ new, t.stateMap.lookup X = none) ∧
        (∀ X ∈ new, (t1.stateMap.lookup X).isSome = true) ∧
        (∀ X, (t.stateMap.lookup X).isSome = true → (t1.stateMap.lookup X).isSome = true) ∧
        q1.length + t.dfaStates.length = q.length + t1.dfaStates.length := by
  induction cs with
  | nil =>
    intro q q1 t t1 h
    simp only [symbolsLoop, Option.some.injEq, Prod.mk.injEq] at h
    obtain ⟨hq, ht⟩ := h
    subst hq ht
    exact ⟨[], by rw [List.append_nil], List.nodup_nil, by intro X hX; simp at hX,
      by intro X hX; simp at hX, fun X hX => hX, rfl⟩
  | cons c cs ih =>
    intro q q1 t t1 h
    rw [symbolsLoop] at h
    cases hs : symbolStep states S cur (q, t) c with
    | none => simp [hs] at h
    | some s2 =>
      obtain ⟨q2, t2⟩ := s2
      simp only [hs] at h
      obtain ⟨n1, a1, a2, a3, a4, a5, a6⟩ := symbolStep_queue states S cur q q2 t t2 c hs
      obtain ⟨n2, b1, b2, b3, b4, b5, b6⟩ := ih q2 q1 t2 t1 h
      refine ⟨n1 ++ n2, by rw [b1, a1, List.append_assoc], ?_, ?_, ?_, ?_, by omega⟩
      · rw [List.nodup_append]
        refine ⟨a2, b2, ?_⟩
        intro X h1 h2
        have := a4 X h1
        rw [b3 X h2] at this
        exact Bool.noConfusion this
      · intro X hX
        rcases List.mem_append.1 hX with h1 | h1
        · exact a3 X h1
        · cases hl : t.stateMap.lookup X with
          | none => rfl
          | some i =>
            have := a5 X (by rw [hl]; rfl)
            rw [b3 X h1] at this
            exact Bool.noConfusion this
      · intro X hX
        rcases List.mem_append.1 hX with h1 | h1
        · exact b5 X (a4 X h1)
        · exact b4 X h1
      · intro X hX
        exact b5 X (a5 X hX)

/-- The loop with the log builds the tables of the loop without it. -/
theorem dfaLoopTrace_snd (states : List State) (syms : List Char) :
    ∀ (fuel : Nat) (q : List (List Nat)) (t : DFATables),
      (dfaLoopTrace states syms fuel q t).map (fun r => r.2) = dfaLoop states syms fuel q t := by
  intro fuel
  induction fuel with
  | zero =>
    intro q t
    cases q <;> rfl
  | succ fuel ih =>
    intro q t
    cases q with
    | nil => rfl
    | cons cur q =>
      rw [dfaLoopTrace, dfaLoop]
      split
      · cases symbolsLoop states cur (getOrCreateDFAState states t cur).1 syms
            (q, (getOrCreateDFAState states t cur).2) with
        | none => rfl
        | some s1 =>
          simp only [Option.map_map]
          rw [← ih s1.1 s1.2]
          rfl
      · rfl

/-- The sets taken from the queue are pairwise different: each is in the queue
or not yet in `stateMap`, and each step of the loop matches a new DFA state. -/
theorem dfaLoopTrace_nodup (states : List State) (syms : List Char) :
    ∀ (fuel : Nat) (q log : List (List Nat)) (t t1 : DFATables), q.Nodup →
      (∀ X ∈ q, (t.stateMap.lookup X).isSome = true) →
      dfaLoopTrace states syms fuel q t = some (log, t1) →
      log.Nodup ∧ (∀ X ∈ log, X ∈ q ∨ t.stateMap.lookup X = none) ∧
        log.length + t.dfaStates.length = q.length + t1.dfaStates.length := by
  intro fuel
  induction fuel with
  | zero =>
    intro q log t t1 _ _ h
    cases q with
    | nil =>
      simp only [dfaLoopTrace, Option.some.injEq, Prod.mk.injEq] at h
      obtain ⟨h1, h2⟩ := h
      subst h1 h2
      exact ⟨List.nodup_nil, by intro X hX; simp at hX, rfl⟩
    | cons cur q => simp [dfaLoopTrace] at h
  | succ fuel ih =>
    intro q log t t1 hq hmap h
    cases q with
    | nil =>
      simp only [dfaLoopTrace, Option.some.injEq, Prod.mk.injEq] at h
      obtain ⟨h1, h2⟩ := h
      subst h1 h2
      exact ⟨List.nodup_nil, by intro X hX; simp at hX, rfl⟩
    | cons cur q =>
      have hcur := hmap cur (List.mem_cons_self _ _)
      rw [dfaLoopTrace, getOrCreate_of_isSome states t cur hcur] at h
      split at h
      · cases hs : symbolsLoop states cur (getOrCreateDFAState states t cur).1 syms (q, t) with
        | none => simp [hs] at h
        | some s1 =>
          obtain ⟨q1, t2⟩ := s1
          simp only [hs] at h
          cases hr : dfaLoopTrace states syms fuel q1 t2 with
          | none => simp [hr] at h
          | some r =>
            obtain ⟨log1, t3⟩ := r
            simp only [hr, Option.map_some', Option.some.injEq, Prod.mk.injEq] at h
            obtain ⟨h1, h2⟩ := h
            subst h1 h2
            obtain ⟨new, a1, a2, a3, a4, a5, a6⟩ :=
              symbolsLoop_queue states cur _ syms q q1 t t2 hs
            rw [List.nodup_cons] at hq
            have hq1 : q1.Nodup := by
              rw [a1, List.nodup_append]
              refine ⟨hq.2, a2, ?_⟩
              intro X m1 m2
              have := hmap X (List.mem_cons_of_mem _ m1)
              rw [a3 X m2] at this
              exact Bool.noConfusion this
            have hmap1 : ∀ X ∈ q1, (t2.stateMap.lookup X).isSome = true := by
              intro X hX
              rw [a1] at hX
              rcases List.mem_append.1 hX with m1 | m1
              · exact a5 X (hmap X (List.mem_cons_of_mem _ m1))
              · exact a4 X m1
            obtain ⟨b1, b2, b3⟩ := ih q1 log1 t2 t3 hq1 hmap1 hr
            have hold : ∀ X, t2.stateMap.lookup X = none → t.stateMap.lookup X = none := by
              intro X hX
              cases hl : t.stateMap.lookup X with
              | none => rfl
              | some i =>
                have := a5 X (by rw [hl]; rfl)
                rw [hX] at this
                exact Bool.noConfusion this
            refine ⟨?_, ?_, ?_⟩
            · rw [List.nodup_cons]
              refine ⟨?_, b1⟩
              intro hmem
              rcases b2 cur hmem with m1 | m1
              · rw [a1] at m1
                rcases List.mem_append.1 m1 with m2 | m2
                · exact hq.1 m2
                · rw [a3 cur m2] at hcur
                  exact Bool.noConfusion hcur
              · rw [hold cur m1] at hcur
                exact Bool.noConfusion hcur
            · intro X hX
              rcases List.mem_cons.1 hX with m1 | m1
              · exact Or.inl (by rw [m1]; exact List.mem_cons_self _ _)
              · rcases b2 X m1 with m2 | m2
                · rw [a1] at m2
                  rcases List.mem_append.1 m2 with m3 | m3
                  · exact Or.inl (List.mem_cons_of_mem _ m3)
                  · exact Or.inr (a3 X m3)
                · exact Or.inr (hold X m2)
            · simp only [List.length_cons]
              omega
      · exact Option.noConfusion h

/-- C14. For every arena whose transitions lead to states of the arena and
every NFA that starts in it, the work-list loop of `constructDFAFromNFA`
(tables initially empty) ends: it returns tables; the sets it has taken from
the queue are pairwise different, as many as the DFA states, and these are at
most `2 ^ n` for an arena of `n` states. -/
theorem worklist_terminates (states : List State) (nfa : NFA) (hwf : WellFormed states)
    (hstart : nfa.start < states.length) :
    ∃ log t, constructDFATrace states emptyTables nfa (collectStatesFromNFA states nfa) =
        some (log, t) ∧
      constructDFAFromNFA states emptyTables nfa (collectStatesFromNFA states nfa) = some t ∧
      log.Nodup ∧ log.length = t.dfaStates.length ∧
      t.dfaStates.length ≤ 2 ^ states.length := by
  obtain ⟨t, h1, h2, -, -, -⟩ := constructDFA_correct states nfa hwf hstart
  have hsnd := dfaLoopTrace_snd states (inputSymbols states (collectStatesFromNFA states nfa))
    (2 ^ states.length + 1) [eClosure states nfa.start]
    (getOrCreateDFAState states emptyTables (eClosure states nfa.start)).2
  have h1a : dfaLoop states (inputSymbols states (collectStatesFromNFA states nfa))
      (2 ^ states.length + 1) [eClosure states nfa.start]
      (getOrCreateDFAState states emptyTables (eClosure states nfa.start)).2 = some t := h1
  rw [h1a] at hsnd
  cases hr : dfaLoopTrace states (inputSymbols states (collectStatesFromNFA states nfa))
      (2 ^ states.length + 1) [eClosure states nfa.start]
      (getOrCreateDFAState states emptyTables (eClosure states nfa.start)).2 with
  | none =>
    rw [hr] at hsnd
    exact Option.noConfusion hsnd
  | some r =>
    obtain ⟨log, t2⟩ := r
    rw [hr] at hsnd
    simp only [Option.map_some', Option.some.injEq] at hsnd
    subst hsnd
    obtain ⟨g1, g2, g3⟩ := getOrCreate_effect states emptyTables (eClosure states nfa.start)
    obtain ⟨b1, -, b3⟩ := dfaLoopTrace_nodup states _ _ _ log _ t2 (List.nodup_singleton _)
      (by
        intro X hX
        rw [List.mem_singleton] at hX
        rw [hX]
        exact g2) hr
    refine ⟨log, t2, hr, h1, b1, ?_, tablesOk_length_le states nfa.start t2 hwf hstart h2⟩
    rw [g3] at b3
    simp only [emptyTables, List.lookup_nil, if_true, List.length_nil, List.length_cons] at b3
    omega

/-- The witness of C14: the NFA built for "a", with the states 0 and 1. -/
theorem worklist_terminates_witness :
    ∃ log t, constructDFATrace [⟨0, false, [⟨'a', 1⟩]⟩, ⟨1, true, []⟩] emptyTables ⟨0, 1⟩
        (collectStatesFromNFA [⟨0, false, [⟨'a', 1⟩]⟩, ⟨1, true, []⟩] ⟨0, 1⟩) = some (log, t) ∧
      constructDFAFromNFA [⟨0, false, [⟨'a', 1⟩]⟩, ⟨1, true, []⟩] emptyTables ⟨0, 1⟩
        (collectStatesFromNFA [⟨0, false, [⟨'a', 1⟩]⟩, ⟨1, true, []⟩] ⟨0, 1⟩) = some t ∧
      log.Nodup ∧ log.length = t.dfaStates.length ∧
      t.dfaStates.length ≤ 2 ^ [(⟨0, false, [⟨'a', 1⟩]⟩ : State), ⟨1, true, []⟩].length :=
  worklist_terminates [⟨0, false, [⟨'a', 1⟩]⟩, ⟨1, true, []⟩] ⟨0, 1⟩
    (generate_wellFormed ['a'] ⟨0, 1⟩ ⟨[⟨0, false, [⟨'a', 1⟩]⟩, ⟨1, true, []⟩], 2⟩
      (by decide)).1
    (by decide)

/-! ## The closure under `Epsilon` transitions -/

/-- C15. For every arena and every list of states `S`: the traversal of
`eClosure(State*)` ends within its bound for every state; `eClosure(S)` is a set
(strictly increasing) that holds exactly the states reached from a member of
`S` by zero or more `Epsilon` transitions; it holds the members of `S`; and the
closure of the closure is the closure. -/
theorem eClosure_exact_and_idempotent (states : List State) (S : List Nat) :
    (∀ s, ∃ out, eClosureLoop states (traversalFuel states) [s] [] = some out ∧
      ∀ x, x ∈ out ↔ EpsReach states s x) ∧
    IsSet (eClosureSet states S) ∧
    (∀ x, x ∈ eClosureSet states S ↔ ∃ p ∈ S, EpsReach states p x) ∧
    (∀ p ∈ S, p ∈ eClosureSet states S) ∧
    eClosureSet states (eClosureSet states S) = eClosureSet states S := by
  have hspec := eClosureSet_spec states S
  refine ⟨?_, hspec.1, hspec.2, ?_, ?_⟩
  · intro s
    obtain ⟨out, hout⟩ := eClosureLoop_terminates states s
    refine ⟨out, hout, ?_⟩
    intro x
    have h := mem_eClosure states s x
    unfold eClosure at h
    rw [hout] at h
    exact h
  · intro p hp
    exact (hspec.2 p).2 ⟨p, hp, Relation.ReflTransGen.refl⟩
  · have h2 := eClosureSet_spec states (eClosureSet states S)
    refine isSet_ext h2.1 hspec.1 ?_
    intro x
    rw [h2.2 x, hspec.2 x]
    constructor
    · rintro ⟨p, hp, hpx⟩
      obtain ⟨p0, hp0, h0⟩ := (hspec.2 p).1 hp
      exact ⟨p0, hp0, Relation.ReflTransGen.trans h0 hpx⟩
    · rintro ⟨p, hp, hpx⟩
      exact ⟨p, (hspec.2 p).2 ⟨p, hp, Relation.ReflTransGen.refl⟩, hpx⟩

/-! ## The tables of the subset construction -/

/-- C16. For every arena whose transitions lead to states of the arena and
every NFA that starts in it, `constructDFAFromNFA` (tables initially empty)
returns tables in which no two DFA states stand for the same set, and for every
DFA state `d` and symbol `c`: when `eClosure(move(d.nfaStates, c))` is empty,
`d` has no transition on `c`; when `c` is a symbol of the alphabet (not
`Epsilon`, and on a transition of a state of `nfaStates`) and that set is not
empty, the transition of `d` on `c` leads to the DFA state that stands for
it. -/
theorem construct_transition_targets (states : List State) (nfa : NFA)
    (hwf : WellFormed states) (hstart : nfa.start < states.length) :
    ∃ t, constructDFAFromNFA states emptyTables nfa (collectStatesFromNFA states nfa) = some t ∧
      (∀ (i j : Nat) (di dj : DFAState), t.dfaStates[i]? = some di → t.dfaStates[j]? = some dj →
        di.nfaStates = dj.nfaStates → i = j) ∧
      ∀ (i : Nat) (d : DFAState) (c : Char), t.dfaStates[i]? = some d →
        (eClosureSet states (move states d.nfaStates c) = [] → d.transitions.lookup c = none) ∧
        (c ≠ Epsilon → (∃ p ∈ collectStatesFromNFA states nfa, ∃ q, Step states p c q) →
          eClosureSet states (move states d.nfaStates c) ≠ [] →
          ∃ (j : Nat) (dj : DFAState), d.transitions.lookup c = some j ∧
            t.dfaStates[j]? = some dj ∧
            dj.nfaStates = eClosureSet states (move states d.nfaStates c)) := by
  obtain ⟨t, h1, h2, h3, -, -⟩ := constructDFA_correct states nfa hwf hstart
  refine ⟨t, h1, ?_, ?_⟩
  · intro i j di dj hi hj heq
    exact tablesOk_index_eq states nfa.start t h2 i j di dj hi hj heq
  · intro i d c hd
    constructor
    · intro hempty
      cases hl : d.transitions.lookup c with
      | none => rfl
      | some j =>
        obtain ⟨d1, hd1, hS⟩ := h2.trans i d c j hd hl
        have hne := h2.nonempty j d1 hd1
        rw [hS] at hne
        exact absurd hempty hne
    · rintro hc ⟨p, hp, q, hstep⟩ hne
      have hsym := mem_inputSymbols states _ p q c hp hstep hc
      have hsome := h3 i d hd (by simp) c hsym hne
      obtain ⟨j, hj⟩ := Option.isSome_iff_exists.1 hsome
      obtain ⟨d1, hd1, hS⟩ := h2.trans i d c j hd hj
      exact ⟨j, d1, hj, hd1, hS⟩

/-- The witness of C16: the NFA built for "a", with the states 0 and 1. -/
theorem construct_transition_targets_witness :
    ∃ t, constructDFAFromNFA [⟨0, false, [⟨'a', 1⟩]⟩, ⟨1, true, []⟩] emptyTables ⟨0, 1⟩
        (collectStatesFromNFA [⟨0, false, [⟨'a', 1⟩]⟩, ⟨1, true, []⟩] ⟨0, 1⟩) = some t ∧
      (∀ (i j : Nat) (di dj : DFAState), t.dfaStates[i]? = some di → t.dfaStates[j]? = some dj →
        di.nfaStates = dj.nfaStates → i = j) ∧
      ∀ (i : Nat) (d : DFAState) (c : Char), t.dfaStates[i]? = some d →
        (eClosureSet [⟨0, false, [⟨'a', 1⟩]⟩, ⟨1, true, []⟩] (move [⟨0, false, [⟨'a', 1⟩]⟩,
            ⟨1, true, []⟩] d.nfaStates c) = [] → d.transitions.lookup c = none) ∧
        (c ≠ Epsilon →
          (∃ p ∈ collectStatesFromNFA [⟨0, false, [⟨'a', 1⟩]⟩, ⟨1, true, []⟩] ⟨0, 1⟩,
            ∃ q, Step [⟨0, false, [⟨'a', 1⟩]⟩, ⟨1, true, []⟩] p c q) →
          eClosureSet [⟨0, false, [⟨'a', 1⟩]⟩, ⟨1, true, []⟩] (move [⟨0, false, [⟨'a', 1⟩]⟩,
            ⟨1, true, []⟩] d.nfaStates c) ≠ [] →
          ∃ (j : Nat) (dj : DFAState), d.transitions.lookup c = some j ∧
            t.dfaStates[j]? = some dj ∧
            dj.nfaStates = eClosureSet [⟨0, false, [⟨'a', 1⟩]⟩, ⟨1, true, []⟩]
              (move [⟨0, false, [⟨'a', 1⟩]⟩, ⟨1, true, []⟩] d.nfaStates c)) :=
  construct_transition_targets [⟨0, false, [⟨'a', 1⟩]⟩, ⟨1, true, []⟩] ⟨0, 1⟩
    (generate_wellFormed ['a'] ⟨0, 1⟩ ⟨[⟨0, false, [⟨'a', 1⟩]⟩, ⟨1, true, []⟩], 2⟩
      (by decide)).1
    (by decide)

/-- C17. For every arena whose transitions lead to states of the arena and
every NFA that starts in it, `constructDFAFromNFA` (tables initially empty)
returns tables in which the DFA state with id 0 stands for the closure of the
start state, every DFA state has its index as id, and a DFA state is accepting
exactly when one of the NFA states of its set is. -/
theorem construct_initial_and_accepting (states : List State) (nfa : NFA)
    (hwf : WellFormed states) (hstart : nfa.start < states.length) :
    ∃ t, constructDFAFromNFA states emptyTables nfa (collectStatesFromNFA states nfa) = some t ∧
      (∃ d0 : DFAState, t.dfaStates[0]? = some d0 ∧ d0.id = 0 ∧
        d0.nfaStates = eClosure states nfa.start ∧
        d0.nfaStates = eClosureSet states [nfa.start]) ∧
      (∀ (i : Nat) (d : DFAState), t.dfaStates[i]? = some d → d.id = i) ∧
      ∀ d ∈ t.dfaStates,
        (d.isFinal = true ↔ ∃ s ∈ d.nfaStates, (deref states s).isFinal = true) := by
  obtain ⟨t, h1, h2, -, ⟨d0, h4, h5⟩, -⟩ := constructDFA_correct states nfa hwf hstart
  refine ⟨t, h1, ⟨d0, h4, h2.ids 0 d0 h4, h5, ?_⟩, h2.ids, ?_⟩
  · rw [h5]
    have hs := eClosureSet_spec states [nfa.start]
    refine isSet_ext (isSet_eClosure states nfa.start) hs.1 ?_
    intro x
    rw [hs.2 x, mem_eClosure]
    constructor
    · intro hx
      exact ⟨nfa.start, List.mem_singleton.2 rfl, hx⟩
    · rintro ⟨p, hp, hx⟩
      rw [List.mem_singleton] at hp
      rw [← hp]
      exact hx
  · intro d hd
    obtain ⟨i, hi⟩ := List.mem_iff_getElem?.1 hd
    rw [h2.final i d hi, List.any_eq_true]

/-- The witness of C17: the NFA built for "a", with the states 0 and 1. -/
theorem construct_initial_and_accepting_witness :
    ∃ t, constructDFAFromNFA [⟨0, false, [⟨'a', 1⟩]⟩, ⟨1, true, []⟩] emptyTables ⟨0, 1⟩
        (collectStatesFromNFA [⟨0, false, [⟨'a', 1⟩]⟩, ⟨1, true, []⟩] ⟨0, 1⟩) = some t ∧
      (∃ d0 : DFAState, t.dfaStates[0]? = some d0 ∧ d0.id = 0 ∧
        d0.nfaStates = eClosure [⟨0, false, [⟨'a', 1⟩]⟩, ⟨1, true, []⟩] 0 ∧
        d0.nfaStates = eClosureSet [⟨0, false, [⟨'a', 1⟩]⟩, ⟨1, true, []⟩] [0]) ∧
      (∀ (i : Nat) (d : DFAState), t.dfaStates[i]? = some d → d.id = i) ∧
      ∀ d ∈ t.dfaStates,
        (d.isFinal = true ↔
          ∃ s ∈ d.nfaStates, (deref [⟨0, false, [⟨'a', 1⟩]⟩, ⟨1, true, []⟩] s).isFinal = true) :=
  construct_initial_and_accepting [⟨0, false, [⟨'a', 1⟩]⟩, ⟨1, true, []⟩] ⟨0, 1⟩
    (generate_wellFormed ['a'] ⟨0, 1⟩ ⟨[⟨0, false, [⟨'a', 1⟩]⟩, ⟨1, true, []⟩], 2⟩
      (by decide)).1
    (by decide)

end Thompson

namespace Thompson

/-! ## The concatenation scan and the blank atom -/

/-- C18 (failing input). The scan of line 124 tests `std::isalpha` only, so the
blank atom is no operand for it: in the driver's expression no `'.'` is put
between `')'` and the blank that follows it and the scan returns the expression
unchanged; in "a b" no `'.'` is put on either side of the blank. -/
theorem scan_skips_blank_atom :
    scanConcat "a|(b|c|e) | |d*".toList = "a|(b|c|e) | |d*".toList ∧
    scanConcat "a b".toList = "a b".toList ∧
    concatBetween ')' ' ' = false ∧ concatBetween 'a' ' ' = false ∧
    concatBetween ' ' 'b' = false ∧ concatBetween ' ' '(' = false ∧
    scanConcat "ab".toList = "a.b".toList := by
  decide

/-! ## The accepting state of the builder's arena -/

/-- C19. For every tree with alphabetic literals (and blank atoms) and every
arena, the builder returns on the postfix form of the tree, and among the
states created (the indices from the old length of the arena on) exactly the
accept state of the returned Fragment is accepting. Besides, `concatenate`
leaves the accept state of its first Fragment non-accepting, `alternate` those
of both Fragments, and `kleeneStar` that of its Fragment. -/
theorem single_accepting_state (a : Arena) (e : Regex) (he : e.alphabetic) :
    (∃ nfa arena, generateThompsonNFAFromPostfix a e.toPostfix = some (nfa, arena) ∧
      a.states.length ≤ nfa.accept ∧ nfa.accept < arena.states.length ∧
      ∀ p, a.states.length ≤ p → p < arena.states.length →
        ((deref arena.states p).isFinal = true ↔ p = nfa.accept)) ∧
    (∀ (b : Arena) (f1 f2 : NFA),
      (deref (concatenate b f1 f2).2.states f1.accept).isFinal = false ∧
      (deref (alternate b f1 f2).2.states f1.accept).isFinal = false ∧
      (deref (alternate b f1 f2).2.states f2.accept).isFinal = false ∧
      (deref (kleeneStar b f1).2.states f1.accept).isFinal = false) := by
  constructor
  · obtain ⟨nfa, arena, h1, -, h3⟩ := generate_tree a e he
    exact ⟨nfa, arena, h1, h3.accept_ge, h3.accept_lt, h3.final⟩
  · intro b f1 f2
    refine ⟨isFinal_concatenate_accept b f1 f2, ?_, ?_, ?_⟩
    · rw [isFinal_alternate]
      by_cases h : f1.accept = f2.accept
      · rw [if_pos h]
      · rw [if_neg h, if_pos rfl]
    · rw [isFinal_alternate, if_pos rfl]
    · rw [isFinal_kleeneStar, if_pos rfl]

/-- The witness of C19: the tree of "( |a)*b", whose postfix form is
" a|*b.". -/
theorem single_accepting_state_witness :
    (∃ nfa arena, generateThompsonNFAFromPostfix emptyArena " a|*b.".toList =
        some (nfa, arena) ∧
      emptyArena.states.length ≤ nfa.accept ∧ nfa.accept < arena.states.length ∧
      ∀ p, emptyArena.states.length ≤ p → p < arena.states.length →
        ((deref arena.states p).isFinal = true ↔ p = nfa.accept)) ∧
    (∀ (b : Arena) (f1 f2 : NFA),
      (deref (concatenate b f1 f2).2.states f1.accept).isFinal = false ∧
      (deref (alternate b f1 f2).2.states f1.accept).isFinal = false ∧
      (deref (alternate b f1 f2).2.states f2.accept).isFinal = false ∧
      (deref (kleeneStar b f1).2.states f1.accept).isFinal = false) :=
  single_accepting_state emptyArena (.cat (.star (.alt .blank (.lit 'a'))) (.lit 'b'))
    ⟨⟨trivial, (rfl : isalpha 'a' = true)⟩, (rfl : isalpha 'b' = true)⟩

/-! ## The blocks are a partition of the states at every round -/

theorem isPartition_initial (dfa : List DFAState) : IsPartition dfa (initialPartitions dfa) := by
  have h := partOk_initial dfa
  refine ⟨h.range, h.cover, ?_⟩
  unfold initialPartitions
  rw [List.pairwise_cons]
  refine ⟨?_, List.pairwise_singleton _ _⟩
  intro B hB p hp hq
  rw [List.mem_singleton] at hB
  subst hB
  have h1 := ((mem_initial_accepting dfa p).1 hp).2
  rw [((mem_initial_nonAccepting dfa p).1 hq).2] at h1
  exact Bool.noConfusion h1

/-- A refinement round keeps the blocks a partition of the states, and every
block it makes is non-empty. -/
theorem isPartition_refineRound (dfa : List DFAState) (P : List (List Nat))
    (hP : IsPartition dfa P) :
    IsPartition dfa (refineRound dfa P) ∧ ∀ G ∈ refineRound dfa P, G ≠ [] := by
  rw [refineRound_eq]
  have hmem : ∀ G, G ∈ (P.map (blockGroups dfa P)).flatten ↔
      ∃ B ∈ P, G ∈ blockGroups dfa P B := by
    intro G
    rw [List.mem_flatten]
    constructor
    · rintro ⟨l, hl, hG⟩
      obtain ⟨B, hB, rfl⟩ := List.mem_map.1 hl
      exact ⟨B, hB, hG⟩
    · rintro ⟨B, hB, hG⟩
      exact ⟨_, List.mem_map.2 ⟨B, hB, rfl⟩, hG⟩
  refine ⟨⟨?_, ?_, ?_⟩, ?_⟩
  · intro G hG p hp
    obtain ⟨B, hB, hGB⟩ := (hmem G).1 hG
    exact hP.range B hB p (((blockGroups_spec dfa P B).1 G hGB).2.1 p hp)
  · intro p hp
    obtain ⟨B, hB, hpB⟩ := hP.cover p hp
    obtain ⟨G, hG, hpG⟩ := (blockGroups_spec dfa P B).2.1 p hpB
    exact ⟨G, (hmem G).2 ⟨B, hB, hG⟩, hpG⟩
  · rw [List.pairwise_flatten]
    constructor
    · intro l hl
      obtain ⟨B, hB, rfl⟩ := List.mem_map.1 hl
      refine (blockGroups_spec dfa P B).2.2.imp ?_
      intro G1 G2 hne p hp hq
      exact hne p hp p hq rfl
    · rw [List.pairwise_map]
      refine hP.disjoint.imp ?_
      intro B1 B2 hdis G1 hG1 G2 hG2 p hp hq
      exact hdis p (((blockGroups_spec dfa P B1).1 G1 hG1).2.1 p hp)
        (((blockGroups_spec dfa P B2).1 G2 hG2).2.1 p hq)
  · intro G hG
    obtain ⟨B, hB, hGB⟩ := (hmem G).1 hG
    exact ((blockGroups_spec dfa P B).1 G hGB).1

theorem partition_length_le (dfa : List DFAState) (P : List (List Nat))
    (hP : IsPartition dfa P) (hne : ∀ B ∈ P, B ≠ []) : P.length ≤ dfa.length := by
  have h1 : (P.map (fun B => B.headD 0)).Nodup := by
    unfold List.Nodup
    rw [List.pairwise_map]
    refine hP.disjoint.imp_of_mem ?_
    intro B1 B2 hB1 hB2 hdis heq
    have m1 : B1.headD 0 ∈ B1 := by
      cases B1 with
      | nil => exact absurd rfl (hne [] hB1)
      | cons a l => exact List.mem_cons_self _ _
    have m2 : B2.headD 0 ∈ B2 := by
      cases B2 with
      | nil => exact absurd rfl (hne [] hB2)
      | cons a l => exact List.mem_cons_self _ _
    rw [← heq] at m2
    exact hdis _ m1 m2
  have h2 := nodup_length_le _ dfa.length h1 (by
    intro x hx
    obtain ⟨B, hB, rfl⟩ := List.mem_map.1 hx
    have m1 : B.headD 0 ∈ B := by
      cases B with
      | nil => exact absurd rfl (hne [] hB)
      | cons a l => exact List.mem_cons_self _ _
    exact hP.range B hB _ m1)
  rw [List.length_map] at h2
  exact h2

/-- The refinement loop from a partition into non-empty blocks ends within the
fuel, after some number of rounds. -/
theorem refineLoop_rounds (dfa : List DFAState) :
    ∀ (fuel : Nat) (P : List (List Nat)), IsPartition dfa P → (∀ B ∈ P, B ≠ []) →
      dfa.length < fuel + P.length →
      ∃ k, refineLoop dfa fuel P = some (Nat.iterate (refineRound dfa) k P) := by
  intro fuel
  induction fuel with
  | zero =>
    intro P hP hne hlt
    have := partition_length_le dfa P hP hne
    omega
  | succ fuel ih =>
    intro P hP hne hlt
    rw [refineLoop]
    by_cases hlen : (refineRound dfa P).length ≠ P.length
    · rw [if_pos hlen]
      have hr := isPartition_refineRound dfa P hP
      have hge := length_le_refineRound dfa P hne
      obtain ⟨k, hk⟩ := ih _ hr.1 hr.2 (by omega)
      exact ⟨k + 1, hk⟩
    · rw [if_neg hlen]
      exact ⟨0, rfl⟩

/-- C20. For every DFA, the blocks with which any round of the refinement loop
of `minimizeDFA` starts (the initial blocks after any number of rounds) are
pairwise disjoint, hold states of the DFA only, and every state of the DFA is
in one of them; the loop ends, and the partition it ends with is one of
these. -/
theorem partition_at_every_round (dfa : List DFAState) :
    (∀ k, IsPartition dfa (Nat.iterate (refineRound dfa) k (initialPartitions dfa))) ∧
    ∃ k, finalPartitions dfa = some (Nat.iterate (refineRound dfa) k (initialPartitions dfa)) := by
  constructor
  · intro k
    induction k with
    | zero => exact isPartition_initial dfa
    | succ k ih =>
      rw [Function.iterate_succ_apply']
      exact (isPartition_refineRound dfa _ ih).1
  · unfold finalPartitions
    rw [refineLoop]
    by_cases hlen : (refineRound dfa (initialPartitions dfa)).length ≠
        (initialPartitions dfa).length
    · rw [if_pos hlen]
      have hr := isPartition_refineRound dfa _ (isPartition_initial dfa)
      obtain ⟨k, hk⟩ := refineLoop_rounds dfa (dfa.length + 2) _ hr.1 hr.2 (by omega)
      exact ⟨k + 1, hk⟩
    · rw [if_neg hlen]
      exact ⟨0, rfl⟩

end Thompson

namespace Thompson

/-! ## The Fragments on the stack at every step of the builder -/

theorem forest_mem {S : List State} :
    ∀ (stack : List NFA) (hi : Nat), Forest S stack hi →
      ∀ f ∈ stack, (∃ (e : Regex) (lo hi1 : Nat), Frag S e f lo hi1) ∧
        f.start < hi ∧ f.accept < hi := by
  intro stack
  induction stack with
  | nil => intro hi _ f hf; simp at hf
  | cons g rest ih =>
    rintro hi ⟨e, lo, hg, hrest⟩ f hf
    rcases List.mem_cons.1 hf with h | h
    · rw [h]
      exact ⟨⟨e, lo, hi, hg⟩, hg.start_lt, hg.accept_lt⟩
    · obtain ⟨h1, h2, h3⟩ := ih lo hrest f h
      have hlo : lo ≤ hi := le_trans hg.start_ge (le_of_lt hg.start_lt)
      exact ⟨h1, lt_of_lt_of_le h2 hlo, lt_of_lt_of_le h3 hlo⟩

/-- A step of the builder keeps the start states of the Fragments on the stack
free of incoming transitions. -/
theorem startsFree_step (s s1 : List NFA × Arena) (c : Char) (h : buildStep s c = some s1)
    (hok : BuildOk s) (hfo : Forest s.2.states s.1 s.2.states.length)
    (hsf : StartsFree s.2.states s.1) : StartsFree s1.2.states s1.1 := by
  obtain ⟨stack, a⟩ := s
  obtain ⟨hwf, hst⟩ := hok
  simp only at hwf hst hfo hsf
  unfold buildStep at h
  split at h
  · -- an operand
    injection h with h
    subst h
    intro f hf p x q hstep
    have hf1 : f ∈ (thompsonConstruction a c).1 :: stack := hf
    have hs1 : Step (thompsonConstruction a c).2.states p x q := hstep
    rcases (step_thompsonConstruction a c p x q).1 hs1 with h1 | ⟨-, -, h1⟩
    · rcases List.mem_cons.1 hf1 with h2 | h2
      · rw [h2, thompsonConstruction_eq]
        have := hwf p x q h1
        show q ≠ a.states.length
        omega
      · exact hsf f h2 p x q h1
    · rcases List.mem_cons.1 hf1 with h2 | h2
      · rw [h2, thompsonConstruction_eq]
        show q ≠ a.states.length
        omega
      · have := (hst f h2).1
        omega
  · split at h
    · -- alternation
      simp only at h
      split at h
      · rename_i nfa2 nfa1 rest
        injection h with h
        subst h
        obtain ⟨e2, mid, g2, e1, lo, g1, hrest⟩ := hfo
        have b1 := hst nfa1 (by simp)
        have b2 := hst nfa2 (by simp)
        intro f hf p x q hstep
        have hf1 : f ∈ (alternate a nfa1 nfa2).1 :: rest := hf
        have hs1 : Step (alternate a nfa1 nfa2).2.states p x q := hstep
        have k1 := g1.start_ge
        have k2 := g2.start_ge
        have k3 := g1.start_lt
        rcases List.mem_cons.1 hf1 with h2 | h2
        · rw [h2, fst_alternate]
          show q ≠ a.states.length
          rcases (step_alternate a nfa1 nfa2 b1.2 b2.2 p x q).1 hs1 with
            h3 | ⟨-, -, h3 | h3⟩ | ⟨-, -, h3⟩
          · have := hwf p x q h3
            omega
          · omega
          · omega
          · omega
        · have hlt := (forest_mem rest lo hrest f h2).2.1
          have hflt := (hst f (by simp [h2])).1
          rcases (step_alternate a nfa1 nfa2 b1.2 b2.2 p x q).1 hs1 with
            h3 | ⟨-, -, h3 | h3⟩ | ⟨-, -, h3⟩
          · exact hsf f (by simp [h2]) p x q h3
          · omega
          · omega
          · omega
      · simp at h
    · split at h
      · -- star
        simp only at h
        split at h
        · rename_i nfa rest
          injection h with h
          subst h
          obtain ⟨e, lo, g, hrest⟩ := hfo
          have b1 := hst nfa (by simp)
          intro f hf p x q hstep
          have hf1 : f ∈ (kleeneStar a nfa).1 :: rest := hf
          have hs1 : Step (kleeneStar a nfa).2.states p x q := hstep
          have k1 := g.start_ge
          rcases List.mem_cons.1 hf1 with h2 | h2
          · rw [h2, fst_kleeneStar]
            show q ≠ a.states.length
            rcases (step_kleeneStar a nfa b1.2 p x q).1 hs1 with h3 | ⟨-, -, h3 | h3⟩
            · have := hwf p x q h3
              omega
            · omega
            · omega
          · have hlt := (forest_mem rest lo hrest f h2).2.1
            have hflt := (hst f (by simp [h2])).1
            rcases (step_kleeneStar a nfa b1.2 p x q).1 hs1 with h3 | ⟨-, -, h3 | h3⟩
            · exact hsf f (by simp [h2]) p x q h3
            · omega
            · omega
        · simp at h
      · split at h
        · -- concatenation
          simp only at h
          split at h
          · rename_i nfa2 nfa1 rest
            injection h with h
            subst h
            intro f hf p x q hstep
            have hf1 : f ∈ (concatenate a nfa1 nfa2).1 :: rest := hf
            have hs1 : Step (concatenate a nfa1 nfa2).2.states p x q := hstep
            have hold : ∀ g ∈ nfa2 :: nfa1 :: rest, q ≠ g.start := by
              intro g hg
              rcases step_concatenate_weak a nfa1 nfa2 p x q hs1 with h3 | h3
              · exact hsf g hg _ x q h3
              · exact hsf g hg _ x q h3
            rcases List.mem_cons.1 hf1 with h2 | h2
            · rw [h2]
              exact hold nfa1 (by simp)
            · exact hold f (by simp [h2])
          · simp at h
        · injection h with h
          subst h
          exact hsf

theorem buildLoop_append (pre post : List Char) :
    ∀ (s : List NFA × Arena),
      buildLoop (pre ++ post) s = (buildLoop pre s).bind (buildLoop post) := by
  induction pre with
  | nil => intro s; rfl
  | cons c pre ih =>
    intro s
    rw [List.cons_append, buildLoop, buildLoop]
    cases buildStep s c with
    | none => rfl
    | some s1 => exact ih s1

/-- The builder's loop keeps the three invariants of its state together. -/
theorem stack_invariants_loop (cs : List Char) :
    ∀ (s s1 : List NFA × Arena), buildLoop cs s = some s1 → BuildOk s →
      Forest s.2.states s.1 s.2.states.length → StartsFree s.2.states s.1 →
      BuildOk s1 ∧ Forest s1.2.states s1.1 s1.2.states.length ∧
        StartsFree s1.2.states s1.1 := by
  induction cs with
  | nil =>
    intro s s1 h h1 h2 h3
    simp only [buildLoop, Option.some.injEq] at h
    subst h
    exact ⟨h1, h2, h3⟩
  | cons c cs ih =>
    intro s s1 h h1 h2 h3
    rw [buildLoop] at h
    cases hs : buildStep s c with
    | none => rw [hs] at h; simp at h
    | some s2 =>
      rw [hs] at h
      exact ih s2 s1 h (buildOk_step s s2 c hs h1) (forest_step s s2 c hs h2)
        (startsFree_step s s2 c hs h1 h2 h3)

/-- Whenever the builder's loop, started with the empty arena, has read a
string without failing, every Fragment on its stack has different start and
accept states, no transition of the arena leads to its start state, and its
accept state has no transition. -/
theorem stack_invariants (cs : List Char) (stack : List NFA) (arena : Arena)
    (h : buildLoop cs ([], emptyArena) = some (stack, arena)) :
    ∀ f ∈ stack, f.start ≠ f.accept ∧ (∀ p c q, Step arena.states p c q → q ≠ f.start) ∧
      ∀ c q, ¬ Step arena.states f.accept c q := by
  obtain ⟨-, h2, h3⟩ := stack_invariants_loop cs ([], emptyArena) (stack, arena) h
    ⟨fun p c q hs => absurd hs (step_of_length_le [] p (Nat.zero_le _) c q),
      fun f hf => by simp at hf⟩
    trivial (fun f hf => by simp at hf)
  intro f hf
  obtain ⟨⟨e, lo, hi, hfrag⟩, -, -⟩ := forest_mem stack _ h2 f hf
  exact ⟨hfrag.ne, h3 f hf, hfrag.accept_out⟩

/-- C21. For the postfix form of every tree with alphabetic literals (and
blank atoms), read by the builder from the empty arena: after every prefix of
it the loop has not failed, and every Fragment then on the stack has different
start and accept states, no transition of any state of the arena leads to its
start state, and its accept state has no transition. -/
theorem fragments_on_stack_invariant (e : Regex) (he : e.alphabetic) (pre post : List Char)
    (hsplit : e.toPostfix = pre ++ post) :
    ∃ stack arena, buildLoop pre ([], emptyArena) = some (stack, arena) ∧
      ∀ f ∈ stack, f.start ≠ f.accept ∧
        (∀ p c q, Step arena.states p c q → q ≠ f.start) ∧
        ∀ c q, ¬ Step arena.states f.accept c q := by
  obtain ⟨nfa, arena1, -, hloop, -⟩ := generate_tree emptyArena e he
  rw [hsplit, buildLoop_append] at hloop
  cases hpre : buildLoop pre ([], emptyArena) with
  | none =>
    rw [hpre] at hloop
    exact Option.noConfusion hloop
  | some s =>
    obtain ⟨stack, arena⟩ := s
    exact ⟨stack, arena, rfl, stack_invariants pre stack arena hpre⟩

/-- The witness of C21: the tree of "( |a)*b", whose postfix form is " a|*b.",
after the prefix " a|". -/
theorem fragments_on_stack_invariant_witness :
    ∃ stack arena, buildLoop " a|".toList ([], emptyArena) = some (stack, arena) ∧
      ∀ f ∈ stack, f.start ≠ f.accept ∧
        (∀ p c q, Step arena.states p c q → q ≠ f.start) ∧
        ∀ c q, ¬ Step arena.states f.accept c q :=
  fragments_on_stack_invariant (.cat (.star (.alt .blank (.lit 'a'))) (.lit 'b'))
    ⟨⟨trivial, (rfl : isalpha 'a' = true)⟩, (rfl : isalpha 'b' = true)⟩
    " a|".toList "*b.".toList rfl

end Thompson

